import Mathlib



set_option autoImplicit false

namespace DSA4

/-! # Priority queue (`pq.c`) and Dijkstra's algorithm (`dijkstra.c`)

A shallow embedding of the two C sources.  C `int` values are modelled by `Int`
(with an explicit 32-bit wrap where the program adds), array indices and node numbers
by `Nat`, failed assertions and loops that do not finish by `none`, and an access outside
the graph array, which the graph-building code does not exclude, by `outcome.undefined`.
-/

/-! ## The dynamic array used by `pq.c` -/

/-- Modelled from the spec: the dynamic array of `dynarray.h`, which `pq.c` includes but
which is not among the sources.  The spec calls the queue "array-backed", with entries
appended at the end and the last one removed; it is modelled by a list. -/
abbrev dynarray (α : Type) := List α

/-- Modelled from the spec: `dynarray_create`, the empty array. -/
def dynarray_create {α : Type} : dynarray α := []

/-- Modelled from the spec: `dynarray_size`, the number of stored elements. -/
def dynarray_size {α : Type} (da : dynarray α) : Nat := da.length

/-- Modelled from the spec: `dynarray_get`; reading outside the array is a failure. -/
def dynarray_get {α : Type} (da : dynarray α) (idx : Nat) : Option α := da[idx]?

/-- Modelled from the spec: `dynarray_set`, overwriting the element at `idx`.  Every call in
`pq.c` follows a successful `dynarray_get` at the same index. -/
def dynarray_set {α : Type} (da : dynarray α) (idx : Nat) (v : α) : dynarray α := da.set idx v

/-- Modelled from the spec: `dynarray_insert`, appending at the end of the array. -/
def dynarray_insert {α : Type} (da : dynarray α) (v : α) : dynarray α := da ++ [v]

/-- Modelled from the spec: `dynarray_remove`, deleting the element at `idx`. -/
def dynarray_remove {α : Type} (da : dynarray α) (idx : Nat) : dynarray α := da.eraseIdx idx

/-! ## `pq.c` -/

/-- The `struct pq_node` of `pq.c`: a value and its priority. -/
structure pq_node (α : Type) where
  value : α
  priority : Int
deriving DecidableEq, Repr

/-- The `struct pq` of `pq.c`: a dynamic array of nodes arranged as a binary heap. -/
structure pq (α : Type) where
  heap : dynarray (pq_node α)
deriving DecidableEq, Repr

/-- The loop of `bubble_up` (`pq.c`, lines 48-61); `none` when an array access fails or the
loop has not finished after `fuel` iterations. -/
def bubble_up_loop {α : Type} : Nat → pq α → Nat → Option (pq α)
  | 0, _, _ => none
  | fuel + 1, q, index =>
    if index > 0 then
      let parent := (index - 1) / 2
      match dynarray_get q.heap index, dynarray_get q.heap parent with
      | some current, some parentNode =>
        if parentNode.priority ≤ current.priority then some q
        else
          bubble_up_loop fuel
            ⟨dynarray_set (dynarray_set q.heap index parentNode) parent current⟩ parent
      | _, _ => none
    else some q

/-- The function `bubble_up` of `pq.c`. -/
def bubble_up {α : Type} (q : pq α) (index : Nat) : Option (pq α) :=
  bubble_up_loop (index + 1) q index

/-- One of the two comparisons of `bubble_down` (`pq.c`, lines 82-90 and 92-100): if `child`
is inside the array and its priority is below that of `smallest`, it is the new `smallest`. -/
def pick_smaller {α : Type} (h : dynarray (pq_node α)) (child smallest : Nat) : Option Nat :=
  if child < dynarray_size h then
    match dynarray_get h child, dynarray_get h smallest with
    | some childNode, some smallestNode =>
      some (if childNode.priority < smallestNode.priority then child else smallest)
    | _, _ => none
  else some smallest

/-- The loop of `bubble_down` (`pq.c`, lines 76-113); `none` when an array access fails or
the loop has not finished after `fuel` iterations. -/
def bubble_down_loop {α : Type} : Nat → pq α → Nat → Option (pq α)
  | 0, _, _ => none
  | fuel + 1, q, index =>
    let left := 2 * index + 1
    let right := 2 * index + 2
    match pick_smaller q.heap left index with
    | none => none
    | some s1 =>
      match pick_smaller q.heap right s1 with
      | none => none
      | some smallest =>
        if smallest = index then some q
        else
          match dynarray_get q.heap index, dynarray_get q.heap smallest with
          | some nodeIndex, some nodeSmallest =>
            bubble_down_loop fuel
              ⟨dynarray_set (dynarray_set q.heap index nodeSmallest) smallest nodeIndex⟩
              smallest
          | _, _ => none

/-- The function `bubble_down` of `pq.c`. -/
def bubble_down {α : Type} (q : pq α) (index : Nat) : Option (pq α) :=
  bubble_down_loop (dynarray_size q.heap + 1) q index

/-- The function `pq_create` of `pq.c`. -/
def pq_create {α : Type} : pq α := ⟨dynarray_create⟩

/-- The function `pq_isempty` of `pq.c`: 1 if the queue is empty and 0 otherwise. -/
def pq_isempty {α : Type} (q : pq α) : Int :=
  if dynarray_size q.heap = 0 then 1 else 0

/-- The function `pq_insert` of `pq.c`. -/
def pq_insert {α : Type} (q : pq α) (value : α) (priority : Int) : Option (pq α) :=
  let heap := dynarray_insert q.heap ⟨value, priority⟩
  bubble_up ⟨heap⟩ (dynarray_size heap - 1)

/-- The function `pq_first` of `pq.c`: the value at the root, together with the queue as the
call leaves it; `none` is the failed assertion on an empty queue. -/
def pq_first {α : Type} (q : pq α) : Option (α × pq α) :=
  if dynarray_size q.heap > 0 then
    match dynarray_get q.heap 0 with
    | some node => some (node.value, q)
    | none => none
  else none

/-- The function `pq_first_priority` of `pq.c`: the priority at the root, together with the
queue as the call leaves it; `none` is the failed assertion on an empty queue. -/
def pq_first_priority {α : Type} (q : pq α) : Option (Int × pq α) :=
  if dynarray_size q.heap > 0 then
    match dynarray_get q.heap 0 with
    | some node => some (node.priority, q)
    | none => none
  else none

/-- The function `pq_remove_first` of `pq.c`: the value at the root and the queue after the
removal; `none` is the failed assertion on an empty queue. -/
def pq_remove_first {α : Type} (q : pq α) : Option (α × pq α) :=
  let size := dynarray_size q.heap
  if size > 0 then
    match dynarray_get q.heap 0, dynarray_get q.heap (size - 1) with
    | some firstNode, some lastNode =>
      let value := firstNode.value
      let heap := dynarray_remove (dynarray_set q.heap 0 lastNode) (size - 1)
      if dynarray_size heap > 0 then
        match bubble_down ⟨heap⟩ 0 with
        | some q1 => some (value, q1)
        | none => none
      else some (value, ⟨heap⟩)
    | _, _ => none
  else none

/-- One call on a queue: `pq_insert` with its two arguments, or `pq_remove_first`. -/
inductive pq_op (α : Type) where
  | insert (value : α) (priority : Int)
  | remove_first

/-- A sequence of `pq_insert` and `pq_remove_first` calls on a queue, in order. -/
def run_ops {α : Type} : List (pq_op α) → pq α → Option (pq α)
  | [], q => some q
  | pq_op.insert v p :: ops, q =>
    match pq_insert q v p with
    | some q1 => run_ops ops q1
    | none => none
  | pq_op.remove_first :: ops, q =>
    match pq_remove_first q with
    | some (_, q1) => run_ops ops q1
    | none => none

/-- The number of `pq_insert` calls in a sequence of calls. -/
def count_inserts {α : Type} : List (pq_op α) → Nat
  | [] => 0
  | pq_op.insert _ _ :: ops => count_inserts ops + 1
  | pq_op.remove_first :: ops => count_inserts ops

/-- The number of `pq_remove_first` calls in a sequence of calls. -/
def count_removes {α : Type} : List (pq_op α) → Nat
  | [] => 0
  | pq_op.insert _ _ :: ops => count_removes ops
  | pq_op.remove_first :: ops => count_removes ops + 1

/-- The queues that `pq_insert` and `pq_remove_first` calls produce from `pq_create`. -/
inductive pq_reachable {α : Type} : pq α → Prop where
  | create : pq_reachable pq_create
  | insert (q q1 : pq α) (v : α) (p : Int) :
      pq_reachable q → pq_insert q v p = some q1 → pq_reachable q1
  | remove_first (q q1 : pq α) (v : α) :
      pq_reachable q → pq_remove_first q = some (v, q1) → pq_reachable q1

/-- Calls `pq_insert` for every (value, priority) pair of a list, in order. -/
def insert_all {α : Type} : List (α × Int) → pq α → Option (pq α)
  | [], q => some q
  | (v, p) :: es, q =>
    match pq_insert q v p with
    | some q1 => insert_all es q1
    | none => none

/-- Removes `k` entries: each time the priority at the root is read with
`pq_first_priority` and the entry is taken out with `pq_remove_first`. -/
def remove_n {α : Type} : Nat → pq α → Option (List (α × Int) × pq α)
  | 0, q => some ([], q)
  | k + 1, q =>
    match pq_first_priority q with
    | none => none
    | some (p, q0) =>
      match pq_remove_first q0 with
      | none => none
      | some (v, q1) =>
        match remove_n k q1 with
        | none => none
        | some (out, q2) => some ((v, p) :: out, q2)

/-! ## `dijkstra.c` -/

/-- The constant `INT_MAX` of `limits.h` for a 32-bit `int`. -/
def INT_MAX : Int := 2147483647

/-- The value a 32-bit `int` holds after an addition whose exact result is `x`. -/
def wrap32 (x : Int) : Int := (x + 2147483648) % 4294967296 - 2147483648

/-- The C expression `a[i]` on an `int` array. -/
def arr_get (a : List Int) (i : Nat) : Int := a.getD i 0

/-- The C assignment `a[i] = x` on an `int` array. -/
def arr_set (a : List Int) (i : Nat) (x : Int) : List Int := a.set i x

/-- The `struct edge` of `dijkstra.c`: destination and cost; the `next` pointer is the tail
of the list the edge is in. -/
structure edge where
  dest : Nat
  cost : Int
deriving DecidableEq, Repr

/-- One line `src dest cost` of the input file, as `fscanf` reads it in `read_graph`. -/
structure input_edge where
  src : Nat
  dest : Nat
  cost : Int
deriving DecidableEq, Repr

/-- How a call of the graph-building code ends.  `add_edge` and `read_graph` test nothing and
have no error result: a call either returns, or it reaches an access outside the array
`graph`, for which C defines no behaviour. -/
inductive outcome (α : Type) where
  | returns (a : α)
  | undefined
deriving DecidableEq, Repr

/-- The function `add_edge` of `dijkstra.c`: the new edge becomes the head of the list of
`src`.  `graph[src]` is read and written without a test; with `src` outside the array the
access is outside the array.  `dest` is stored as it is given. -/
def add_edge (graph : List (List edge)) (src dest : Nat) (cost : Int) :
    outcome (List (List edge)) :=
  if src < graph.length then
    outcome.returns (graph.set src (⟨dest, cost⟩ :: graph.getD src []))
  else outcome.undefined

/-- The second loop of `read_graph` (`dijkstra.c`, lines 69-75) over the lines read: for each
line the two calls of `add_edge`, in this order. -/
def read_edges : List input_edge → List (List edge) → outcome (List (List edge))
  | [], graph => outcome.returns graph
  | e :: rest, graph =>
    match add_edge graph e.src e.dest e.cost with
    | outcome.undefined => outcome.undefined
    | outcome.returns graph1 =>
      match add_edge graph1 e.dest e.src e.cost with
      | outcome.undefined => outcome.undefined
      | outcome.returns graph2 => read_edges rest graph2

/-- The function `read_graph` of `dijkstra.c`; `file` holds the `n_edges` lines that are
read.  The array starts with `n_nodes` empty lists. -/
def read_graph (file : List input_edge) (n_nodes : Nat) : outcome (List (List edge)) :=
  read_edges file (List.replicate n_nodes [])

/-- The variables of `dijkstra` that its loops change. -/
structure dstate where
  dist : List Int
  prev : List Int
  visited : List Int
  pq : pq Nat
deriving DecidableEq, Repr

/-- The relaxation loop of `dijkstra` (`dijkstra.c`, lines 157-171) over the edges of `u`. -/
def relax_edges (u : Nat) : List edge → dstate → Option dstate
  | [], st => some st
  | e :: rest, st =>
    let v := e.dest
    if arr_get st.visited v = 0 ∧ arr_get st.dist u ≠ INT_MAX ∧
        wrap32 (arr_get st.dist u + e.cost) < arr_get st.dist v then
      let dist := arr_set st.dist v (wrap32 (arr_get st.dist u + e.cost))
      let prev := arr_set st.prev v u
      match pq_insert st.pq v (arr_get dist v) with
      | some q => relax_edges u rest ⟨dist, prev, st.visited, q⟩
      | none => none
    else relax_edges u rest st

/-- The main loop of `dijkstra` (`dijkstra.c`, lines 143-172); `none` when a queue call
fails or the loop has not finished after `fuel` iterations. -/
def dijkstra_loop (graph : List (List edge)) : Nat → dstate → Option dstate
  | 0, _ => none
  | fuel + 1, st =>
    if pq_isempty st.pq = 0 then
      match pq_remove_first st.pq with
      | none => none
      | some (u, q) =>
        if arr_get st.visited u ≠ 0 then
          dijkstra_loop graph fuel ⟨st.dist, st.prev, st.visited, q⟩
        else
          match relax_edges u (graph.getD u [])
              ⟨st.dist, st.prev, arr_set st.visited u 1, q⟩ with
          | some st1 => dijkstra_loop graph fuel st1
          | none => none
    else some st

/-- The number of iterations allowed to the main loop: two more than the number of edge
records of the graph. -/
def dijkstra_fuel (graph : List (List edge)) : Nat := (graph.map List.length).sum + 2

/-- The function `dijkstra` of `dijkstra.c`: the arrays `dist` and `prev` when it returns. -/
def dijkstra (graph : List (List edge)) (n_nodes start : Nat) : Option (List Int × List Int) :=
  let dist := arr_set (List.replicate n_nodes INT_MAX) start 0
  let prev := List.replicate n_nodes (-1)
  let visited := List.replicate n_nodes 0
  match pq_insert pq_create start (arr_get dist start) with
  | none => none
  | some q =>
    match dijkstra_loop graph (dijkstra_fuel graph) ⟨dist, prev, visited, q⟩ with
    | some st => some (st.dist, st.prev)
    | none => none

/-- What `print_path` writes: a node number, or the text "No path". -/
inductive path_item where
  | node (v : Nat)
  | no_path
deriving DecidableEq, Repr

/-- The recursion of `print_path` of `dijkstra.c`, as the sequence of items written;
`none` when the recursion is deeper than `fuel`. -/
def print_path_rec : Nat → Nat → Nat → List Int → Option (List path_item)
  | 0, _, _, _ => none
  | fuel + 1, start, v, prev =>
    if v = start then some [path_item.node start]
    else if arr_get prev v = -1 then some [path_item.no_path]
    else
      match print_path_rec fuel start (arr_get prev v).toNat prev with
      | some out => some (out ++ [path_item.node v])
      | none => none

/-- The function `print_path` of `dijkstra.c`, with a recursion depth of at most one more
than the size of `prev`. -/
def print_path (start v : Nat) (prev : List Int) : Option (List path_item) :=
  print_path_rec (prev.length + 1) start v prev

/-- A walk in the adjacency structure from `u` to `v` whose edge costs sum to `w`. -/
inductive walk (graph : List (List edge)) (u : Nat) : Nat → Int → Prop where
  | nil : walk graph u u 0
  | cons (v : Nat) (w : Int) (e : edge) :
      walk graph u v w → e ∈ graph.getD v [] → walk graph u e.dest (w + e.cost)

/-! ## The heap order -/

/-- The entry at `i`, if any, has a priority at most that of the entry at `j`, if any. -/
def le_at {α : Type} (l : List (pq_node α)) (i j : Nat) : Prop :=
  ∀ a b, l[i]? = some a → l[j]? = some b → a.priority ≤ b.priority

/-- Index `j` is a child of index `i` in the array layout of the binary tree. -/
def is_child (i j : Nat) : Prop := j = 2 * i + 1 ∨ j = 2 * i + 2

/-- The min-heap property: every entry's priority is at most those of its children. -/
def heap_ok {α : Type} (l : List (pq_node α)) : Prop :=
  ∀ i j, is_child i j → le_at l i j

/-- The heap property with a possible violation between `k` and its parent. -/
def up_ok {α : Type} (l : List (pq_node α)) (k : Nat) : Prop :=
  (∀ i j, is_child i j → j ≠ k → le_at l i j) ∧
  (∀ i j, is_child i k → is_child k j → le_at l i j)

/-- The heap property with a possible violation between `k` and its children. -/
def down_ok {α : Type} (l : List (pq_node α)) (k : Nat) : Prop :=
  (∀ i j, is_child i j → i ≠ k → le_at l i j) ∧
  (∀ i j, is_child i k → is_child k j → le_at l i j)

/-- The queue node made of a (value, priority) pair. -/
def node_of {α : Type} (e : α × Int) : pq_node α := ⟨e.1, e.2⟩

/-- The (value, priority) pair of a queue node. -/
def pair_of {α : Type} (e : pq_node α) : α × Int := (e.value, e.priority)

/-! ## Sums over the input lines and over the nodes -/

/-- The sum of the costs of the input lines whose two endpoints are both marked in
`visited`. -/
def inner_cost (file : List input_edge) (visited : List Int) : Int :=
  (file.map (fun ie =>
    if arr_get visited ie.src ≠ 0 ∧ arr_get visited ie.dest ≠ 0 then ie.cost else 0)).sum

/-- The sum of the costs of all input lines. -/
def total_cost (file : List input_edge) : Int := (file.map (fun ie => ie.cost)).sum

/-- The number of edge records in the lists of the nodes below `n` that are not marked in
`visited`. -/
def pending_edges (g : List (List edge)) (n : Nat) (visited : List Int) : Nat :=
  ∑ u in Finset.range n, (if arr_get visited u ≠ 0 then 0 else (g.getD u []).length)

/-! ## One iteration of each loop of `dijkstra` -/

/-- The test of the relaxation step (`dijkstra.c`, line 161) for the edge `e` of `u`. -/
def relax_cond (st : dstate) (u : Nat) (e : edge) : Prop :=
  arr_get st.visited e.dest = 0 ∧ arr_get st.dist u ≠ INT_MAX ∧
    wrap32 (arr_get st.dist u + e.cost) < arr_get st.dist e.dest

/-- The effect of one iteration of the relaxation loop on the edge `e` of `u`: nothing
when the test fails, else the writes to `dist` and `prev` and the insertion in the queue. -/
inductive relax_step (u : Nat) (e : edge) (st : dstate) : dstate → Prop where
  | skip : ¬ relax_cond st u e → relax_step u e st st
  | update (q : pq Nat) :
      relax_cond st u e →
      q.heap.Perm (⟨e.dest, arr_get (arr_set st.dist e.dest
        (wrap32 (arr_get st.dist u + e.cost))) e.dest⟩ :: st.pq.heap) →
      (heap_ok st.pq.heap → heap_ok q.heap) →
      relax_step u e st
        ⟨arr_set st.dist e.dest (wrap32 (arr_get st.dist u + e.cost)),
          arr_set st.prev e.dest u, st.visited, q⟩

/-- The effect of one iteration of the main loop: the root entry `x` leaves the queue, and
either its node is already marked and nothing else happens, or the node is marked and its
edges are relaxed. -/
inductive loop_step (g : List (List edge)) (st : dstate) : dstate → Prop where
  | skip (x : pq_node Nat) (q : pq Nat) :
      x ∈ st.pq.heap → st.pq.heap.Perm (x :: q.heap) →
      (heap_ok st.pq.heap → heap_ok q.heap ∧ ∀ y ∈ st.pq.heap, x.priority ≤ y.priority) →
      arr_get st.visited x.value ≠ 0 →
      loop_step g st ⟨st.dist, st.prev, st.visited, q⟩
  | relax (x : pq_node Nat) (q : pq Nat) (st1 : dstate) :
      x ∈ st.pq.heap → st.pq.heap.Perm (x :: q.heap) →
      (heap_ok st.pq.heap → heap_ok q.heap ∧ ∀ y ∈ st.pq.heap, x.priority ≤ y.priority) →
      arr_get st.visited x.value = 0 →
      relax_edges x.value (g.getD x.value [])
        ⟨st.dist, st.prev, arr_set st.visited x.value 1, q⟩ = some st1 →
      loop_step g st st1

/-! ## What holds in every run of `dijkstra` -/

/-- Node `v` can be reached from `start` by a walk in the adjacency structure. -/
def reach (g : List (List edge)) (start v : Nat) : Prop := ∃ w, walk g start v w

/-- The graph has `n` lists and every edge record points to a node below `n`. -/
structure graph_ok (g : List (List edge)) (n : Nat) : Prop where
  len : g.length = n
  dest_lt_mem : ∀ l ∈ g, ∀ e ∈ l, e.dest < n

/-- The state of `dijkstra` when the main loop is entered. -/
def dijkstra_init (n start : Nat) : dstate :=
  ⟨arr_set (List.replicate n INT_MAX) start 0, List.replicate n (-1), List.replicate n 0,
    ⟨[⟨start, 0⟩]⟩⟩

/-- The invariant of the loops of `dijkstra` that needs no assumption on the costs. -/
structure binv (g : List (List edge)) (n start : Nat) (st : dstate) : Prop where
  len_dist : st.dist.length = n
  len_prev : st.prev.length = n
  len_vis : st.visited.length = n
  q_reach : ∀ x ∈ st.pq.heap, x.value < n ∧ reach g start x.value
  vis_reach : ∀ v, arr_get st.visited v ≠ 0 → reach g start v
  unreach : ∀ v, v < n → ¬ reach g start v →
    arr_get st.dist v = INT_MAX ∧ arr_get st.prev v = -1
  src_dist : arr_get st.dist start = 0
  src_prev : arr_get st.prev start = -1
  first : arr_get st.visited start ≠ 0 ∨
    (st.pq.heap = [⟨start, 0⟩] ∧ ∀ v, arr_get st.visited v = 0)

/-- The invariant of the relaxation loop on the edges of `u` that needs no assumption on
the costs; `V` is the array `visited` and `K` bounds the size of the queue. -/
structure binv_relax (g : List (List edge)) (n start u : Nat) (V : List Int) (K : Nat)
    (pend : List edge) (st : dstate) : Prop where
  base : binv g n start st
  vis_start : arr_get st.visited start ≠ 0
  vis_u : arr_get st.visited u ≠ 0
  pend_sub : ∀ e ∈ pend, e ∈ g.getD u []
  vis_eq : st.visited = V
  size : st.pq.heap.length + pend.length ≤ K

/-! ## What holds in a run of `dijkstra` when the costs are non-negative and bounded -/

/-- The assumptions on the costs: the costs of the input lines are non-negative and sum to
less than `INT_MAX`, and every edge record of the graph comes from an input line with the
same cost and the same two endpoints. -/
structure costs_ok (g : List (List edge)) (file : List input_edge) : Prop where
  nonneg : ∀ ie ∈ file, 0 ≤ ie.cost
  total : total_cost file < INT_MAX
  cover : ∀ u, ∀ e ∈ g.getD u [], ∃ ie ∈ file, ie.cost = e.cost ∧
    ((ie.src = u ∧ ie.dest = e.dest) ∨ (ie.src = e.dest ∧ ie.dest = u))

/-- The node sequence `path` leads from `start` to `v` along the links of `prev`: each
node after the first has the node before it as `prev`, is the destination of an edge record
of that node, and has a `dist` that is the `dist` of that node plus the cost of the
record. -/
inductive good_path (g : List (List edge)) (prev dist : List Int) (start : Nat) :
    Nat → List Nat → Prop where
  | base : good_path g prev dist start start [start]
  | step (v p : Nat) (c : Int) (path : List Nat) :
      v ≠ start → arr_get prev v = (p : Int) → good_path g prev dist start p path →
      (⟨v, c⟩ : edge) ∈ g.getD p [] → arr_get dist v = arr_get dist p + c →
      good_path g prev dist start v (path ++ [v])

/-- The node sequence `path` follows edge records of the graph whose costs sum to `w`. -/
inductive path_cost (g : List (List edge)) : List Nat → Int → Prop where
  | single (u : Nat) : path_cost g [u] 0
  | snoc (path : List Nat) (p v : Nat) (c w : Int) :
      path_cost g path w → path.getLast? = some p → (⟨v, c⟩ : edge) ∈ g.getD p [] →
      path_cost g (path ++ [v]) (w + c)

/-- The invariant of the loops of `dijkstra` under the assumptions on the costs; `u` is
the node whose edges are being relaxed and `pend` the edges of `u` still to be handled
(`pend` is empty between two iterations of the main loop). -/
structure sinv (g : List (List edge)) (n start : Nat) (file : List input_edge) (u : Nat)
    (pend : List edge) (st : dstate) : Prop where
  heap : heap_ok st.pq.heap
  dist_range : ∀ v, v < n → 0 ≤ arr_get st.dist v ∧ arr_get st.dist v ≤ INT_MAX
  q_prio : ∀ x ∈ st.pq.heap, arr_get st.dist x.value ≤ x.priority ∧ x.priority < INT_MAX
  frontier : ∀ v, v < n → arr_get st.visited v = 0 → arr_get st.dist v < INT_MAX →
    (⟨v, arr_get st.dist v⟩ : pq_node Nat) ∈ st.pq.heap
  parent : ∀ v, v < n → v ≠ start → arr_get st.dist v < INT_MAX →
    ∃ p c, arr_get st.visited p ≠ 0 ∧ (⟨v, c⟩ : edge) ∈ g.getD p [] ∧
      arr_get st.dist v = arr_get st.dist p + c ∧ arr_get st.prev v = (p : Int)
  relaxed : ∀ x, arr_get st.visited x ≠ 0 → ∀ e ∈ g.getD x [],
    (x = u ∧ e ∈ pend) ∨ arr_get st.dist e.dest ≤ arr_get st.dist x + e.cost
  wbound : ∀ x, arr_get st.visited x ≠ 0 → arr_get st.dist x ≤ inner_cost file st.visited
  optimal : ∀ x, arr_get st.visited x ≠ 0 → ∀ w, walk g start x w → arr_get st.dist x ≤ w
  achieved : ∀ v, v < n → arr_get st.dist v < INT_MAX → walk g start v (arr_get st.dist v)
  chain : ∀ x, arr_get st.visited x ≠ 0 →
    ∃ path, good_path g st.prev st.dist start x path ∧ path.Nodup ∧
      ∀ y ∈ path, arr_get st.visited y ≠ 0

/-- The edge records that the input lines give to node `u`, in the order of the lines:
a line `u v c` gives `(v, c)`, a line `v u c` gives `(v, c)`, a line `u u c` gives `(u, c)`
twice. -/
def records_of (u : Nat) : List input_edge → List edge
  | [] => []
  | ie :: rest =>
    (if ie.src = u then [(⟨ie.dest, ie.cost⟩ : edge)] else []) ++
      ((if ie.dest = u then [(⟨ie.src, ie.cost⟩ : edge)] else []) ++ records_of u rest)

/-- The min-heap invariant as the claim words it: for every index `i > 0` of the backing
array, the priority at `(i - 1) / 2` is at most the priority at `i`. -/
def min_heap {α : Type} (q : pq α) : Prop :=
  ∀ i, 0 < i → ∀ p c, dynarray_get q.heap ((i - 1) / 2) = some p →
    dynarray_get q.heap i = some c → p.priority ≤ c.priority

/-- The body of the main loop of `dijkstra` (`dijkstra.c`, lines 145-171): one entry is
removed from the queue, and its node is skipped if it is marked, else marked and its edges
relaxed. -/
def dijkstra_body (graph : List (List edge)) (st : dstate) : Option dstate :=
  match pq_remove_first st.pq with
  | none => none
  | some (u, q) =>
    if arr_get st.visited u ≠ 0 then some ⟨st.dist, st.prev, st.visited, q⟩
    else relax_edges u (graph.getD u []) ⟨st.dist, st.prev, arr_set st.visited u 1, q⟩

/-- The state of `dijkstra` after `k` iterations of the main loop (`dijkstra.c`, lines
143-172) from the state `st`, or when the loop has ended if that takes fewer iterations. -/
def dijkstra_iter (graph : List (List edge)) : Nat → dstate → Option dstate
  | 0, st => some st
  | k + 1, st =>
    if pq_isempty st.pq = 0 then
      match dijkstra_body graph st with
      | some st1 => dijkstra_iter graph k st1
      | none => none
    else some st

/-- Node `u` is marked in the later state `st1` and its `dist` and `prev` are those of the
earlier state `st`. -/
def frozen (st st1 : dstate) (u : Nat) : Prop :=
  arr_get st1.visited u ≠ 0 ∧ arr_get st1.dist u = arr_get st.dist u ∧
    arr_get st1.prev u = arr_get st.prev u

/-- The variant of `relax_edges` whose test leaves out the guard `dist[u] != INT_MAX`. -/
def relax_edges_noguard (u : Nat) : List edge → dstate → Option dstate
  | [], st => some st
  | e :: rest, st =>
    let v := e.dest
    if arr_get st.visited v = 0 ∧
        wrap32 (arr_get st.dist u + e.cost) < arr_get st.dist v then
      let dist := arr_set st.dist v (wrap32 (arr_get st.dist u + e.cost))
      let prev := arr_set st.prev v u
      match pq_insert st.pq v (arr_get dist v) with
      | some q => relax_edges_noguard u rest ⟨dist, prev, st.visited, q⟩
      | none => none
    else relax_edges_noguard u rest st

/-- The variant of `dijkstra_loop` that relaxes with `relax_edges_noguard`. -/
def dijkstra_loop_noguard (graph : List (List edge)) : Nat → dstate → Option dstate
  | 0, _ => none
  | fuel + 1, st =>
    if pq_isempty st.pq = 0 then
      match pq_remove_first st.pq with
      | none => none
      | some (u, q) =>
        if arr_get st.visited u ≠ 0 then
          dijkstra_loop_noguard graph fuel ⟨st.dist, st.prev, st.visited, q⟩
        else
          match relax_edges_noguard u (graph.getD u [])
              ⟨st.dist, st.prev, arr_set st.visited u 1, q⟩ with
          | some st1 => dijkstra_loop_noguard graph fuel st1
          | none => none
    else some st

/-- The variant of `dijkstra` without the guard `dist[u] != INT_MAX`. -/
def dijkstra_noguard (graph : List (List edge)) (n_nodes start : Nat) :
    Option (List Int × List Int) :=
  let dist := arr_set (List.replicate n_nodes INT_MAX) start 0
  let prev := List.replicate n_nodes (-1)
  let visited := List.replicate n_nodes 0
  match pq_insert pq_create start (arr_get dist start) with
  | none => none
  | some q =>
    match dijkstra_loop_noguard graph (dijkstra_fuel graph) ⟨dist, prev, visited, q⟩ with
    | some st => some (st.dist, st.prev)
    | none => none

/-- The arguments `v` of the successive calls of `print_path` (`dijkstra.c`, lines 187-202),
the first call first; `none` when the recursion is deeper than `fuel`. -/
def print_path_calls : Nat → Nat → Nat → List Int → Option (List Nat)
  | 0, _, _, _ => none
  | fuel + 1, start, v, prev =>
    if v = start then some [v]
    else if arr_get prev v = -1 then some [v]
    else
      match print_path_calls fuel start (arr_get prev v).toNat prev with
      | some calls => some (v :: calls)
      | none => none

/-- The node sequence `path` leads from `start` to `v` along the links of `prev`. -/
inductive prev_path (prev : List Int) (start : Nat) : Nat → List Nat → Prop where
  | base : prev_path prev start start [start]
  | step (v p : Nat) (path : List Nat) :
      v ≠ start → arr_get prev v = (p : Int) → prev_path prev start p path →
      prev_path prev start v (path ++ [v])

/-- The invariant of the loops of `dijkstra` on the links of `prev`, which needs no
assumption on the costs: the node of a queue entry is `start` or has a marked node as
`prev`, a node with a `prev` is marked or in the queue, from a marked node the links lead
to `start` through marked nodes without repetition, and `prev` holds -1 or node numbers. -/
structure cinv (n start : Nat) (st : dstate) : Prop where
  q_prev : ∀ x ∈ st.pq.heap, x.value = start ∨
    ∃ p, arr_get st.visited p ≠ 0 ∧ arr_get st.prev x.value = (p : Int)
  queued : ∀ v, v < n → arr_get st.prev v ≠ -1 →
    arr_get st.visited v ≠ 0 ∨ ∃ x ∈ st.pq.heap, x.value = v
  chain : ∀ x, arr_get st.visited x ≠ 0 →
    ∃ path, prev_path st.prev start x path ∧ path.Nodup ∧
      ∀ y ∈ path, arr_get st.visited y ≠ 0
  prev_range : ∀ v, -1 ≤ arr_get st.prev v

/-- What a run of `dijkstra` is recorded to do: an evaluation of the sum `dist[u] + e->cost`
with the value `du` of `dist[u]`, the assignments `dist[v] = d` and `prev[v] = p`, and a call
`pq_insert(pq, v, priority)`. -/
inductive event where
  | sum (u : Nat) (e : edge) (du : Int)
  | write (v : Nat) (d : Int) (p : Nat)
  | insert (v : Nat) (priority : Int)
deriving DecidableEq, Repr

/-- The relaxation loop of `dijkstra` (`dijkstra.c`, lines 157-171) with a record of what
it does: the sum is evaluated in the test on line 161 when the two tests before it hold
(`&&` evaluates from left to right and stops at the first test that fails), and once more
on line 163. -/
def relax_edges_log (u : Nat) : List edge → dstate → List event → Option (dstate × List event)
  | [], st, log => some (st, log)
  | e :: rest, st, log =>
    let v := e.dest
    if arr_get st.visited v = 0 ∧ arr_get st.dist u ≠ INT_MAX then
      if wrap32 (arr_get st.dist u + e.cost) < arr_get st.dist v then
        let dist := arr_set st.dist v (wrap32 (arr_get st.dist u + e.cost))
        let prev := arr_set st.prev v u
        match pq_insert st.pq v (arr_get dist v) with
        | some q =>
          relax_edges_log u rest ⟨dist, prev, st.visited, q⟩
            (log ++ [event.sum u e (arr_get st.dist u), event.sum u e (arr_get st.dist u),
              event.write v (wrap32 (arr_get st.dist u + e.cost)) u,
              event.insert v (arr_get dist v)])
        | none => none
      else relax_edges_log u rest st (log ++ [event.sum u e (arr_get st.dist u)])
    else relax_edges_log u rest st log

/-- The main loop of `dijkstra` (`dijkstra.c`, lines 143-172) with a record of what the
relaxation loops do. -/
def dijkstra_loop_log (graph : List (List edge)) :
    Nat → dstate → List event → Option (dstate × List event)
  | 0, _, _ => none
  | fuel + 1, st, log =>
    if pq_isempty st.pq = 0 then
      match pq_remove_first st.pq with
      | none => none
      | some (u, q) =>
        if arr_get st.visited u ≠ 0 then
          dijkstra_loop_log graph fuel ⟨st.dist, st.prev, st.visited, q⟩ log
        else
          match relax_edges_log u (graph.getD u [])
              ⟨st.dist, st.prev, arr_set st.visited u 1, q⟩ log with
          | some (st1, log1) => dijkstra_loop_log graph fuel st1 log1
          | none => none
    else some (st, log)

/-- The function `dijkstra` of `dijkstra.c` with a record of what it does, which begins
with the insertion of `start` on line 141. -/
def dijkstra_log (graph : List (List edge)) (n_nodes start : Nat) :
    Option (List Int × List Int × List event) :=
  let dist := arr_set (List.replicate n_nodes INT_MAX) start 0
  let prev := List.replicate n_nodes (-1)
  let visited := List.replicate n_nodes 0
  match pq_insert pq_create start (arr_get dist start) with
  | none => none
  | some q =>
    match dijkstra_loop_log graph (dijkstra_fuel graph) ⟨dist, prev, visited, q⟩
        [event.insert start (arr_get dist start)] with
    | some (st, log) => some (st.dist, st.prev, log)
    | none => none

/-- The number of calls of `pq_insert` in a record. -/
def insert_count : List event → Nat
  | [] => 0
  | event.insert _ _ :: rest => insert_count rest + 1
  | event.sum _ _ _ :: rest => insert_count rest
  | event.write _ _ _ :: rest => insert_count rest

/-- What one iteration of the relaxation loop on the edge `e` of `u` adds to the record. -/
def step_events (u : Nat) (e : edge) (st : dstate) : List event :=
  if arr_get st.visited e.dest = 0 ∧ arr_get st.dist u ≠ INT_MAX then
    if wrap32 (arr_get st.dist u + e.cost) < arr_get st.dist e.dest then
      [event.sum u e (arr_get st.dist u), event.sum u e (arr_get st.dist u),
        event.write e.dest (wrap32 (arr_get st.dist u + e.cost)) u,
        event.insert e.dest (arr_get (arr_set st.dist e.dest
          (wrap32 (arr_get st.dist u + e.cost))) e.dest)]
    else [event.sum u e (arr_get st.dist u)]
  else []

/-- The effect of one iteration of the main loop on the state and on the record. -/
inductive loop_step_log (g : List (List edge)) (st : dstate) (L : List event) :
    dstate → List event → Prop where
  | skip (x : pq_node Nat) (q : pq Nat) :
      x ∈ st.pq.heap → st.pq.heap.Perm (x :: q.heap) →
      (heap_ok st.pq.heap → heap_ok q.heap ∧ ∀ y ∈ st.pq.heap, x.priority ≤ y.priority) →
      arr_get st.visited x.value ≠ 0 →
      loop_step_log g st L ⟨st.dist, st.prev, st.visited, q⟩ L
  | relax (x : pq_node Nat) (q : pq Nat) (st1 : dstate) (L1 : List event) :
      x ∈ st.pq.heap → st.pq.heap.Perm (x :: q.heap) →
      (heap_ok st.pq.heap → heap_ok q.heap ∧ ∀ y ∈ st.pq.heap, x.priority ≤ y.priority) →
      arr_get st.visited x.value = 0 →
      relax_edges x.value (g.getD x.value [])
        ⟨st.dist, st.prev, arr_set st.visited x.value 1, q⟩ = some st1 →
      relax_edges_log x.value (g.getD x.value [])
        ⟨st.dist, st.prev, arr_set st.visited x.value 1, q⟩ L = some (st1, L1) →
      loop_step_log g st L st1 L1

/-- The number of input lines that have an endpoint marked in `visited`. -/
def touched_count (file : List input_edge) (visited : List Int) : Nat :=
  file.countP (fun ie => decide (arr_get visited ie.src ≠ 0 ∨ arr_get visited ie.dest ≠ 0))

/-- The number of edge records in a list whose destination is not marked in `visited`. -/
def open_count (visited : List Int) (l : List edge) : Nat :=
  l.countP (fun e => decide (arr_get visited e.dest = 0))

/-- What the claim on overflow asks of a recorded step: an evaluated sum lies between 0
and `INT_MAX - 1`, so that its 32-bit value is the exact sum, and a stored distance lies
between 0 and `INT_MAX - 1`. -/
def good_event : event → Prop
  | event.sum _ e du =>
    0 ≤ du + e.cost ∧ du + e.cost ≤ INT_MAX - 1 ∧ wrap32 (du + e.cost) = du + e.cost
  | event.write _ d _ => 0 ≤ d ∧ d ≤ INT_MAX - 1
  | event.insert _ _ => True

/-! ## Lists with two positions exchanged -/

theorem cons_perm_cons_set {β : Type} (l : List β) (i : Nat) (a b : β)
    (h : l[i]? = some a) : (b :: l).Perm (a :: l.set i b) := by
  induction l generalizing i with
  | nil => simp at h
  | cons x xs ih =>
    cases i with
    | zero =>
      simp only [List.getElem?_cons_zero, Option.some.injEq] at h
      subst h
      simpa using List.Perm.swap x b xs
    | succ k =>
      simp only [List.getElem?_cons_succ] at h
      have h1 := ih k h
      simp only [List.set_cons_succ]
      exact (List.Perm.swap x b xs).trans (((List.Perm.cons x h1)).trans (List.Perm.swap a x _))

theorem swap_perm {β : Type} (l : List β) (i j : Nat) (a b : β) (hij : i ≠ j)
    (hi : l[i]? = some a) (hj : l[j]? = some b) : ((l.set i b).set j a).Perm l := by
  have h1 := cons_perm_cons_set l i a b hi
  have hj1 : (l.set i b)[j]? = some b := by
    rw [List.getElem?_set, if_neg hij]; exact hj
  have h2 := cons_perm_cons_set (l.set i b) j b a hj1
  have h3 : (b :: l).Perm (b :: (l.set i b).set j a) := h1.trans h2
  exact (List.Perm.cons_inv h3).symm

theorem swap_get {β : Type} (l : List β) (i j m : Nat) (a b : β)
    (hi : l[i]? = some a) (hj : l[j]? = some b) :
    ((l.set i b).set j a)[m]? =
      if m = j then some a else if m = i then some b else l[m]? := by
  have hil : i < l.length := by
    by_contra hc
    rw [List.getElem?_eq_none (by omega)] at hi
    exact Option.noConfusion hi
  have hjl : j < l.length := by
    by_contra hc
    rw [List.getElem?_eq_none (by omega)] at hj
    exact Option.noConfusion hj
  rw [List.getElem?_set, List.getElem?_set, List.length_set]
  by_cases h1 : m = j
  · subst h1; simp [hjl]
  · by_cases h2 : m = i
    · subst h2
      have : ¬ j = m := fun h => h1 h.symm
      simp [this, hil, h1]
    · have e1 : ¬ j = m := fun h => h1 h.symm
      have e2 : ¬ i = m := fun h => h2 h.symm
      simp [e1, e2, h1, h2]

/-! ## `bubble_up` restores the heap order -/

theorem getElem?_some_lt {β : Type} {l : List β} {i : Nat} {a : β} (h : l[i]? = some a) :
    i < l.length := by
  by_contra hc
  rw [List.getElem?_eq_none (by omega)] at h
  exact Option.noConfusion h

theorem getElem?_of_lt {β : Type} (l : List β) (i : Nat) (h : i < l.length) :
    ∃ a, l[i]? = some a := ⟨l[i], List.getElem?_eq_getElem h⟩

theorem up_ok_swap {α : Type} (l : List (pq_node α)) (k : Nat) (cur par : pq_node α)
    (hk : 0 < k) (hc : l[k]? = some cur) (hp : l[(k - 1) / 2]? = some par)
    (hlt : ¬ par.priority ≤ cur.priority) (h : up_ok l k) :
    up_ok ((l.set k par).set ((k - 1) / 2) cur) ((k - 1) / 2) := by
  obtain ⟨h1, h2⟩ := h
  have hpk : is_child ((k - 1) / 2) k := by unfold is_child; omega
  refine ⟨?_, ?_⟩
  · intro i j hij hj a b ha hb
    rw [swap_get l k ((k - 1) / 2) i cur par hc hp] at ha
    rw [swap_get l k ((k - 1) / 2) j cur par hc hp] at hb
    rw [if_neg hj] at hb
    by_cases hjk : j = k
    · subst hjk
      have hi : i = (j - 1) / 2 := by unfold is_child at hij; omega
      rw [if_pos hi] at ha
      rw [if_pos rfl] at hb
      cases ha; cases hb
      omega
    · rw [if_neg hjk] at hb
      by_cases hi : i = (k - 1) / 2
      · rw [if_pos hi] at ha
        cases ha
        have := h1 ((k - 1) / 2) j (hi ▸ hij) hjk par b hp hb
        omega
      · rw [if_neg hi] at ha
        by_cases hik : i = k
        · rw [if_pos hik] at ha
          cases ha
          exact h2 ((k - 1) / 2) j hpk (hik ▸ hij) par b hp hb
        · rw [if_neg hik] at ha
          exact h1 i j hij hjk a b ha hb
  · intro i j hip hpj a b ha hb
    rw [swap_get l k ((k - 1) / 2) i cur par hc hp] at ha
    rw [swap_get l k ((k - 1) / 2) j cur par hc hp] at hb
    have hi1 : i ≠ (k - 1) / 2 := by unfold is_child at hip; omega
    have hi2 : i ≠ k := by unfold is_child at hip; omega
    have hj1 : j ≠ (k - 1) / 2 := by unfold is_child at hpj; omega
    rw [if_neg hi1, if_neg hi2] at ha
    rw [if_neg hj1] at hb
    have hkp : (k - 1) / 2 ≠ k := by omega
    have hap : a.priority ≤ par.priority := h1 i ((k - 1) / 2) hip hkp a par ha hp
    by_cases hjk : j = k
    · rw [if_pos hjk] at hb
      cases hb
      exact hap
    · rw [if_neg hjk] at hb
      have := h1 ((k - 1) / 2) j hpj hjk par b hp hb
      omega

theorem heap_ok_of_up_ok {α : Type} (l : List (pq_node α)) (k : Nat)
    (h : up_ok l k)
    (hk : ∀ cur par, 0 < k → l[k]? = some cur → l[(k - 1) / 2]? = some par →
      par.priority ≤ cur.priority) : heap_ok l := by
  intro i j hij a b ha hb
  by_cases hjk : j = k
  · subst hjk
    have hi : i = (j - 1) / 2 := by unfold is_child at hij; omega
    subst hi
    exact hk b a (by unfold is_child at hij; omega) hb ha
  · exact h.1 i j hij hjk a b ha hb

theorem bubble_up_loop_spec {α : Type} (fuel : Nat) :
    ∀ (q : pq α) (index : Nat), index < fuel → index < q.heap.length →
      ∃ q1, bubble_up_loop fuel q index = some q1 ∧ q1.heap.Perm q.heap ∧
        (up_ok q.heap index → heap_ok q1.heap) := by
  induction fuel with
  | zero => intro q index h; omega
  | succ fuel ih =>
    intro q index hf hlen
    unfold bubble_up_loop
    by_cases hpos : index > 0
    · rw [if_pos hpos]
      obtain ⟨cur, hc⟩ := getElem?_of_lt q.heap index hlen
      obtain ⟨par, hp⟩ := getElem?_of_lt q.heap ((index - 1) / 2) (by omega)
      simp only [dynarray_get, hc, hp, dynarray_set]
      by_cases hle : par.priority ≤ cur.priority
      · rw [if_pos hle]
        refine ⟨q, rfl, List.Perm.refl _, fun hu => ?_⟩
        apply heap_ok_of_up_ok q.heap index hu
        intro c p _ hc1 hp1
        rw [hc] at hc1; rw [hp] at hp1
        cases hc1; cases hp1
        exact hle
      · rw [if_neg hle]
        have hne : index ≠ (index - 1) / 2 := by omega
        obtain ⟨q1, e1, p1, o1⟩ := ih
          ⟨(q.heap.set index par).set ((index - 1) / 2) cur⟩ ((index - 1) / 2)
          (by omega) (by simp only [List.length_set]; omega)
        refine ⟨q1, e1, p1.trans (swap_perm q.heap index _ cur par hne hc hp), fun hu => ?_⟩
        exact o1 (up_ok_swap q.heap index cur par hpos hc hp hle hu)
    · rw [if_neg hpos]
      refine ⟨q, rfl, List.Perm.refl _, fun hu => ?_⟩
      apply heap_ok_of_up_ok q.heap index hu
      intro c p h0; omega

/-! ## `bubble_down` restores the heap order -/

theorem pick_smaller_spec {α : Type} (l : List (pq_node α)) (child smallest : Nat)
    (s : pq_node α) (hs : l[smallest]? = some s) :
    ∃ r, pick_smaller l child smallest = some r ∧
      ((r = smallest ∧ ∀ c, l[child]? = some c → s.priority ≤ c.priority) ∨
       (r = child ∧ ∃ c, l[child]? = some c ∧ c.priority < s.priority)) := by
  unfold pick_smaller
  by_cases hlt : child < dynarray_size l
  · rw [if_pos hlt]
    obtain ⟨c, hc⟩ := getElem?_of_lt l child hlt
    simp only [dynarray_get, hc, hs]
    by_cases hp : c.priority < s.priority
    · rw [if_pos hp]
      exact ⟨child, rfl, Or.inr ⟨rfl, c, rfl, hp⟩⟩
    · rw [if_neg hp]
      refine ⟨smallest, rfl, Or.inl ⟨rfl, ?_⟩⟩
      intro c1 hc1
      cases hc1
      omega
  · rw [if_neg hlt]
    refine ⟨smallest, rfl, Or.inl ⟨rfl, ?_⟩⟩
    intro c hc
    have := getElem?_some_lt hc
    exact absurd this hlt

/-- The node chosen by the two comparisons of one iteration of `bubble_down`. -/
theorem pick_two_spec {α : Type} (l : List (pq_node α)) (k : Nat) (x : pq_node α)
    (hx : l[k]? = some x) :
    ∃ s1 m, pick_smaller l (2 * k + 1) k = some s1 ∧ pick_smaller l (2 * k + 2) s1 = some m ∧
      ((m = k ∧ ∀ j, is_child k j → le_at l k j) ∨
       (m ≠ k ∧ is_child k m ∧ ∃ z, l[m]? = some z ∧ z.priority < x.priority ∧
          ∀ j, is_child k j → ∀ b, l[j]? = some b → z.priority ≤ b.priority)) := by
  obtain ⟨s1, e1, h1⟩ := pick_smaller_spec l (2 * k + 1) k x hx
  rcases h1 with ⟨hs1, hl⟩ | ⟨hs1, c, hc, hcx⟩
  · rw [hs1] at e1
    obtain ⟨m, e2, h2⟩ := pick_smaller_spec l (2 * k + 2) k x hx
    refine ⟨k, m, e1, e2, ?_⟩
    rcases h2 with ⟨hm, hr⟩ | ⟨hm, d, hd, hdx⟩
    · left
      refine ⟨hm, ?_⟩
      intro j hj a b ha hb
      rw [hx] at ha; cases ha
      rcases hj with rfl | rfl
      · exact hl b hb
      · exact hr b hb
    · right
      refine ⟨by omega, Or.inr hm, d, hm ▸ hd, hdx, ?_⟩
      intro j hj b hb
      rcases hj with rfl | rfl
      · have := hl b hb; omega
      · rw [hd] at hb; cases hb; exact le_refl _
  · rw [hs1] at e1
    obtain ⟨m, e2, h2⟩ := pick_smaller_spec l (2 * k + 2) (2 * k + 1) c hc
    refine ⟨2 * k + 1, m, e1, e2, Or.inr ?_⟩
    rcases h2 with ⟨hm, hr⟩ | ⟨hm, d, hd, hdc⟩
    · refine ⟨by omega, Or.inl hm, c, hm ▸ hc, hcx, ?_⟩
      intro j hj b hb
      rcases hj with rfl | rfl
      · rw [hc] at hb; cases hb; exact le_refl _
      · exact hr b hb
    · refine ⟨by omega, Or.inr hm, d, hm ▸ hd, by omega, ?_⟩
      intro j hj b hb
      rcases hj with rfl | rfl
      · rw [hc] at hb; cases hb; omega
      · rw [hd] at hb; cases hb; exact le_refl _

theorem down_ok_swap {α : Type} (l : List (pq_node α)) (k m : Nat) (x z : pq_node α)
    (hkm : is_child k m) (hx : l[k]? = some x) (hz : l[m]? = some z)
    (hlt : z.priority < x.priority)
    (hmin : ∀ j, is_child k j → ∀ b, l[j]? = some b → z.priority ≤ b.priority)
    (h : down_ok l k) :
    down_ok ((l.set k z).set m x) m := by
  obtain ⟨h1, h2⟩ := h
  have hmk : m ≠ k := by unfold is_child at hkm; omega
  refine ⟨?_, ?_⟩
  · intro i j hij hi a b ha hb
    rw [swap_get l k m i x z hx hz] at ha
    rw [swap_get l k m j x z hx hz] at hb
    rw [if_neg hi] at ha
    by_cases hik : i = k
    · rw [if_pos hik] at ha
      cases ha
      subst hik
      by_cases hjm : j = m
      · rw [if_pos hjm] at hb
        cases hb
        omega
      · rw [if_neg hjm] at hb
        have hji : j ≠ i := by unfold is_child at hij; omega
        rw [if_neg hji] at hb
        exact hmin j hij b hb
    · rw [if_neg hik] at ha
      have hjm : j ≠ m := by unfold is_child at hij hkm; omega
      rw [if_neg hjm] at hb
      by_cases hjk : j = k
      · rw [if_pos hjk] at hb
        cases hb
        subst hjk
        exact h2 i m hij hkm a z ha hz
      · rw [if_neg hjk] at hb
        exact h1 i j hij hik a b ha hb
  · intro i j him hmj a b ha hb
    rw [swap_get l k m i x z hx hz] at ha
    rw [swap_get l k m j x z hx hz] at hb
    have hik : i = k := by unfold is_child at him hkm; omega
    have him1 : i ≠ m := by omega
    have hjm : j ≠ m := by unfold is_child at hmj; omega
    have hjk : j ≠ k := by unfold is_child at hmj hkm; omega
    rw [if_neg him1, if_pos hik] at ha
    rw [if_neg hjm, if_neg hjk] at hb
    cases ha
    exact h1 m j hmj hmk z b hz hb

theorem heap_ok_of_down_ok {α : Type} (l : List (pq_node α)) (k : Nat)
    (h : down_ok l k) (hk : ∀ j, is_child k j → le_at l k j) : heap_ok l := by
  intro i j hij
  by_cases hik : i = k
  · subst hik; exact hk j hij
  · exact h.1 i j hij hik

theorem bubble_down_loop_spec {α : Type} (fuel : Nat) :
    ∀ (q : pq α) (index : Nat), q.heap.length < fuel + index → index < q.heap.length →
      ∃ q1, bubble_down_loop fuel q index = some q1 ∧ q1.heap.Perm q.heap ∧
        (down_ok q.heap index → heap_ok q1.heap) := by
  induction fuel with
  | zero => intro q index h1 h2; omega
  | succ fuel ih =>
    intro q index hf hlen
    obtain ⟨x, hx⟩ := getElem?_of_lt q.heap index hlen
    obtain ⟨s1, m, e1, e2, hm⟩ := pick_two_spec q.heap index x hx
    unfold bubble_down_loop
    simp only [e1, e2]
    rcases hm with ⟨rfl, hle⟩ | ⟨hne, hch, z, hz, hzx, hmin⟩
    · rw [if_pos rfl]
      exact ⟨q, rfl, List.Perm.refl _, fun hd => heap_ok_of_down_ok q.heap m hd hle⟩
    · rw [if_neg hne]
      simp only [dynarray_get, hx, hz, dynarray_set]
      have hml := getElem?_some_lt hz
      obtain ⟨q1, r1, p1, o1⟩ := ih ⟨(q.heap.set index z).set m x⟩ m
        (by simp only [List.length_set]; unfold is_child at hch; omega)
        (by simp only [List.length_set]; exact hml)
      refine ⟨q1, r1, p1.trans (swap_perm q.heap index m x z (Ne.symm hne) hx hz), fun hd => ?_⟩
      exact o1 (down_ok_swap q.heap index m x z hch hx hz hzx hmin hd)

theorem heap_root_le {α : Type} (l : List (pq_node α)) (h : heap_ok l) (r : pq_node α)
    (hr : l[0]? = some r) : ∀ (i : Nat) (e : pq_node α), l[i]? = some e →
      r.priority ≤ e.priority := by
  intro i
  induction i using Nat.strong_induction_on with
  | _ i ih =>
    intro e he
    by_cases h0 : i = 0
    · subst h0; rw [hr] at he; cases he; exact le_refl _
    · have hil := getElem?_some_lt he
      obtain ⟨p, hp⟩ := getElem?_of_lt l ((i - 1) / 2) (by omega)
      have h1 := ih ((i - 1) / 2) (by omega) p hp
      have h2 := h ((i - 1) / 2) i (by unfold is_child; omega) p e hp he
      omega

theorem heap_root_min {α : Type} (l : List (pq_node α)) (h : heap_ok l) (r : pq_node α)
    (hr : l[0]? = some r) : ∀ e ∈ l, r.priority ≤ e.priority := by
  intro e he
  obtain ⟨i, hi, rfl⟩ := List.getElem_of_mem he
  exact heap_root_le l h r hr i _ (List.getElem?_eq_getElem hi)

/-! ## The operations of the queue -/

theorem up_ok_append {α : Type} (l : List (pq_node α)) (x : pq_node α) (h : heap_ok l) :
    up_ok (l ++ [x]) l.length := by
  refine ⟨?_, ?_⟩
  · intro i j hij hj a b ha hb
    have hjl := getElem?_some_lt hb
    simp only [List.length_append, List.length_singleton] at hjl
    have hj1 : j < l.length := by omega
    have hi1 : i < l.length := by unfold is_child at hij; omega
    rw [List.getElem?_append_left hi1] at ha
    rw [List.getElem?_append_left hj1] at hb
    exact h i j hij a b ha hb
  · intro i j _ hkj a b _ hb
    have hjl := getElem?_some_lt hb
    simp only [List.length_append, List.length_singleton] at hjl
    unfold is_child at hkj
    omega

theorem pq_insert_spec {α : Type} (q : pq α) (v : α) (p : Int) :
    ∃ q1, pq_insert q v p = some q1 ∧ q1.heap.Perm (⟨v, p⟩ :: q.heap) ∧
      (heap_ok q.heap → heap_ok q1.heap) := by
  unfold pq_insert bubble_up
  simp only [dynarray_insert, dynarray_size, List.length_append, List.length_singleton,
    Nat.add_sub_cancel]
  obtain ⟨q1, e1, p1, o1⟩ := bubble_up_loop_spec (q.heap.length + 1)
    ⟨q.heap ++ [⟨v, p⟩]⟩ q.heap.length (by omega) (by simp)
  exact ⟨q1, e1, p1.trans (List.perm_append_singleton _ _),
    fun h => o1 (up_ok_append q.heap ⟨v, p⟩ h)⟩

theorem down_ok_root {α : Type} (x y : pq_node α) (l : List (pq_node α))
    (h : heap_ok (x :: l)) : down_ok ((y :: l).dropLast) 0 := by
  refine ⟨?_, ?_⟩
  · intro i j hij hi a b ha hb
    have hjl := getElem?_some_lt hb
    have hil := getElem?_some_lt ha
    rw [List.getElem?_dropLast, if_pos (by simpa using hil)] at ha
    rw [List.getElem?_dropLast, if_pos (by simpa using hjl)] at hb
    obtain ⟨i1, rfl⟩ : ∃ i1, i = i1 + 1 := ⟨i - 1, by omega⟩
    obtain ⟨j1, rfl⟩ : ∃ j1, j = j1 + 1 := ⟨j - 1, by unfold is_child at hij; omega⟩
    rw [List.getElem?_cons_succ] at ha hb
    exact h (i1 + 1) (j1 + 1) hij a b (by rw [List.getElem?_cons_succ]; exact ha)
      (by rw [List.getElem?_cons_succ]; exact hb)
  · intro i j hi0
    unfold is_child at hi0
    omega

theorem set_zero_eraseIdx_last {β : Type} (x y : β) (l : List β) :
    ((x :: l).set 0 y).eraseIdx ((x :: l).length - 1) = (y :: l).dropLast := by
  rw [List.set_cons_zero]
  rw [List.dropLast_eq_eraseIdx (i := l.length) (by simp)]
  simp

theorem perm_dropLast_cons {β : Type} (x y : β) (l : List β)
    (hy : (x :: l)[(x :: l).length - 1]? = some y) : l.Perm ((y :: l).dropLast) := by
  rcases List.eq_nil_or_concat l with rfl | ⟨L, b, rfl⟩
  · simp
  · rw [List.concat_eq_append] at hy ⊢
    have hb : y = b := by
      have e : (x :: (L ++ [b])).length - 1 = L.length + 1 := by simp
      rw [e, List.getElem?_cons_succ, List.getElem?_append_right (le_refl _)] at hy
      simpa using hy.symm
    subst hb
    have : (y :: (L ++ [y])).dropLast = y :: L := by
      rw [← List.cons_append, List.dropLast_concat]
    rw [this]
    exact List.perm_append_singleton _ _

theorem pq_remove_first_spec {α : Type} (q : pq α) (hne : q.heap ≠ []) :
    ∃ e q1, pq_remove_first q = some (e.value, q1) ∧ q.heap[0]? = some e ∧
      q.heap.Perm (e :: q1.heap) ∧
      (heap_ok q.heap → heap_ok q1.heap ∧ ∀ x ∈ q.heap, e.priority ≤ x.priority) := by
  obtain ⟨l⟩ := q
  cases l with
  | nil => exact absurd rfl hne
  | cons x l =>
    obtain ⟨y, hy⟩ := getElem?_of_lt (x :: l) ((x :: l).length - 1) (by simp)
    have hperm : (x :: l).Perm (x :: (y :: l).dropLast) :=
      List.Perm.cons x (perm_dropLast_cons x y l hy)
    unfold pq_remove_first
    simp only [dynarray_size, dynarray_get, dynarray_set, dynarray_remove]
    rw [if_pos (by simp), hy]
    simp only [List.getElem?_cons_zero]
    rw [set_zero_eraseIdx_last]
    by_cases hlen : (y :: l).dropLast.length > 0
    · rw [if_pos hlen]
      unfold bubble_down
      obtain ⟨q1, e1, p1, o1⟩ := bubble_down_loop_spec ((y :: l).dropLast.length + 1)
        ⟨(y :: l).dropLast⟩ 0 (by simp) hlen
      simp only [dynarray_size, e1]
      refine ⟨x, q1, rfl, rfl, hperm.trans (List.Perm.cons x p1.symm), fun h => ?_⟩
      exact ⟨o1 (down_ok_root x y l h), heap_root_min (x :: l) h x (by simp)⟩
    · rw [if_neg hlen]
      refine ⟨x, ⟨(y :: l).dropLast⟩, rfl, rfl, hperm, fun h => ?_⟩
      refine ⟨?_, heap_root_min (x :: l) h x (by simp)⟩
      have : (y :: l).dropLast = [] := List.length_eq_zero.mp (by omega)
      rw [this]
      intro i j _ a b ha
      simp at ha

/-! ## Sequences of calls on a queue -/

theorem heap_ok_nil {α : Type} : heap_ok ([] : List (pq_node α)) := by
  intro i j _ a b ha
  simp at ha

theorem pq_remove_first_nil {α : Type} (q : pq α) (h : q.heap = []) :
    pq_remove_first q = none := by
  unfold pq_remove_first
  simp [dynarray_size, h]

theorem pq_reachable_heap_ok {α : Type} (q : pq α) (h : pq_reachable q) : heap_ok q.heap := by
  induction h with
  | create => exact heap_ok_nil
  | insert q q1 v p _ e ih =>
    obtain ⟨q2, e2, _, o2⟩ := pq_insert_spec q v p
    rw [e] at e2
    cases e2
    exact o2 ih
  | remove_first q q1 v _ e ih =>
    have hne : q.heap ≠ [] := by
      intro hc
      rw [pq_remove_first_nil q hc] at e
      exact Option.noConfusion e
    obtain ⟨x, q2, e2, _, _, o2⟩ := pq_remove_first_spec q hne
    rw [e] at e2
    cases e2
    exact (o2 ih).1

theorem pq_first_spec {α : Type} (q : pq α) (e : pq_node α) (h : q.heap[0]? = some e) :
    pq_first q = some (e.value, q) ∧ pq_first_priority q = some (e.priority, q) := by
  have hl := getElem?_some_lt h
  unfold pq_first pq_first_priority
  simp only [dynarray_size, dynarray_get, h]
  simp [hl]

theorem run_ops_spec {α : Type} (ops : List (pq_op α)) :
    ∀ q : pq α,
      (∀ k, count_removes (ops.take k) ≤ q.heap.length + count_inserts (ops.take k)) →
      ∃ q1, run_ops ops q = some q1 ∧
        q1.heap.length + count_removes ops = q.heap.length + count_inserts ops := by
  induction ops with
  | nil => intro q _; exact ⟨q, rfl, rfl⟩
  | cons op ops ih =>
    intro q h
    cases op with
    | insert v p =>
      obtain ⟨q1, e1, p1, _⟩ := pq_insert_spec q v p
      have hl : q1.heap.length = q.heap.length + 1 := by
        rw [p1.length_eq]; simp
      obtain ⟨q2, e2, l2⟩ := ih q1 (by
        intro k
        have := h (k + 1)
        simp only [List.take_succ_cons, count_removes, count_inserts] at this
        omega)
      refine ⟨q2, ?_, ?_⟩
      · simp only [run_ops, e1, e2]
      · simp only [count_removes, count_inserts]; omega
    | remove_first =>
      have h1 := h 1
      simp only [List.take_succ_cons, List.take_zero, count_removes, count_inserts] at h1
      have hne : q.heap ≠ [] := by
        intro hc; rw [hc] at h1; simp at h1
      obtain ⟨x, q1, e1, _, p1, _⟩ := pq_remove_first_spec q hne
      have hl : q.heap.length = q1.heap.length + 1 := by
        rw [p1.length_eq]; simp
      obtain ⟨q2, e2, l2⟩ := ih q1 (by
        intro k
        have := h (k + 1)
        simp only [List.take_succ_cons, count_removes, count_inserts] at this
        omega)
      refine ⟨q2, ?_, ?_⟩
      · simp only [run_ops, e1, e2]
      · simp only [count_removes, count_inserts]; omega

theorem insert_all_spec {α : Type} (es : List (α × Int)) :
    ∀ q : pq α, heap_ok q.heap →
      ∃ q1, insert_all es q = some q1 ∧ heap_ok q1.heap ∧
        q1.heap.Perm (es.map node_of ++ q.heap) := by
  induction es with
  | nil => intro q h; exact ⟨q, rfl, h, List.Perm.refl _⟩
  | cons e es ih =>
    intro q h
    obtain ⟨v, p⟩ := e
    obtain ⟨q1, e1, p1, o1⟩ := pq_insert_spec q v p
    obtain ⟨q2, e2, o2, p2⟩ := ih q1 (o1 h)
    refine ⟨q2, ?_, o2, ?_⟩
    · simp only [insert_all, e1, e2]
    · refine p2.trans ((List.Perm.append_left _ p1).trans ?_)
      simp only [List.map_cons, List.cons_append, node_of]
      exact List.perm_middle

theorem remove_n_spec {α : Type} (k : Nat) :
    ∀ q : pq α, heap_ok q.heap → q.heap.length = k →
      ∃ out q1, remove_n k q = some (out, q1) ∧ q1.heap = [] ∧
        (out.map node_of).Perm q.heap ∧ (out.map Prod.snd).Sorted (· ≤ ·) := by
  induction k with
  | zero =>
    intro q _ hl
    refine ⟨[], q, rfl, List.length_eq_zero.mp hl, ?_, List.sorted_nil⟩
    rw [List.length_eq_zero.mp hl]; exact List.Perm.refl _
  | succ k ih =>
    intro q h hl
    have hne : q.heap ≠ [] := by
      intro hc; rw [hc] at hl; simp at hl
    obtain ⟨e, q1, e1, h0, p1, o1⟩ := pq_remove_first_spec q hne
    obtain ⟨h1, hmin⟩ := o1 h
    have hl1 : q1.heap.length = k := by
      have := p1.length_eq
      simp only [List.length_cons] at this
      omega
    obtain ⟨out, q2, e2, hnil, p2, s2⟩ := ih q1 h1 hl1
    refine ⟨(e.value, e.priority) :: out, q2, ?_, hnil, ?_, ?_⟩
    · simp only [remove_n, (pq_first_spec q e h0).2, e1, e2]
    · simp only [List.map_cons, node_of]
      exact (List.Perm.cons e p2).trans p1.symm
    · simp only [List.map_cons]
      refine List.sorted_cons.mpr ⟨?_, s2⟩
      intro b hb
      obtain ⟨x, hx, rfl⟩ := List.mem_map.mp hb
      have hx1 : node_of x ∈ q1.heap := p2.subset (List.mem_map_of_mem node_of hx)
      have hx2 : node_of x ∈ q.heap := p1.symm.subset (List.mem_cons_of_mem _ hx1)
      exact hmin _ hx2

/-! ## The claims on the priority queue -/

/-- C2 (heap ordering law): for every list of (value, priority) pairs, inserting them
one after the other into the queue of `pq_create` succeeds, and removing as many entries
as were inserted succeeds, returns the inserted pairs in an order in which the priorities
are the ascending sort of the inserted priorities, and leaves the queue empty. -/
theorem C2_heap_ordering_law {α : Type} (es : List (α × Int)) :
    ∃ q out q1, insert_all es pq_create = some q ∧
      remove_n es.length q = some (out, q1) ∧
      out.map Prod.snd = (es.map Prod.snd).insertionSort (· ≤ ·) ∧
      out.Perm es ∧ pq_isempty q1 = 1 := by
  obtain ⟨q, e1, h1, p1⟩ := insert_all_spec es (pq_create : pq α) heap_ok_nil
  have hl : q.heap.length = es.length := by
    rw [p1.length_eq]; simp [pq_create, dynarray_create]
  obtain ⟨out, q1, e2, hnil, p2, s2⟩ := remove_n_spec es.length q h1 hl
  have hperm : out.Perm es := by
    have h3 : (out.map node_of).Perm (es.map node_of) := by
      refine p2.trans (p1.trans ?_)
      simp [pq_create, dynarray_create]
    have h4 := h3.map pair_of
    simpa [List.map_map, Function.comp_def, pair_of, node_of] using h4
  refine ⟨q, out, q1, e1, e2, ?_, hperm, ?_⟩
  · apply List.eq_of_perm_of_sorted _ s2 (List.sorted_insertionSort _ _)
    exact (hperm.map Prod.snd).trans (List.perm_insertionSort _ _).symm
  · simp [pq_isempty, dynarray_size, hnil]

/-- C6 (removal of a minimum): on every non-empty queue reachable from `pq_create` by
`pq_insert` and `pq_remove_first` calls, `pq_remove_first` returns the value of an entry of
the queue whose priority is at most the priority of every entry, and the entries left are
the entries before with that one entry taken out. -/
theorem C6_remove_first_min {α : Type} (q : pq α) (hr : pq_reachable q)
    (hne : dynarray_size q.heap ≠ 0) :
    ∃ e q1, pq_remove_first q = some (e.value, q1) ∧ e ∈ q.heap ∧
      (∀ x ∈ q.heap, e.priority ≤ x.priority) ∧ q.heap.Perm (e :: q1.heap) := by
  have hne1 : q.heap ≠ [] := fun hc => hne (by simp [dynarray_size, hc])
  obtain ⟨e, q1, e1, h0, p1, o1⟩ := pq_remove_first_spec q hne1
  exact ⟨e, q1, e1, p1.symm.subset (List.mem_cons_self _ _),
    (o1 (pq_reachable_heap_ok q hr)).2, p1⟩

theorem C6_remove_first_min_witness :
    pq_reachable (⟨[⟨7, 3⟩, ⟨9, 5⟩]⟩ : pq Nat) ∧
    dynarray_size (⟨[⟨7, 3⟩, ⟨9, 5⟩]⟩ : pq Nat).heap ≠ 0 ∧
    ∃ e q1, pq_remove_first (⟨[⟨7, 3⟩, ⟨9, 5⟩]⟩ : pq Nat) = some (e.value, q1) ∧
      e ∈ (⟨[⟨7, 3⟩, ⟨9, 5⟩]⟩ : pq Nat).heap ∧
      (∀ x ∈ (⟨[⟨7, 3⟩, ⟨9, 5⟩]⟩ : pq Nat).heap, e.priority ≤ x.priority) ∧
      (⟨[⟨7, 3⟩, ⟨9, 5⟩]⟩ : pq Nat).heap.Perm (e :: q1.heap) :=
  have hr : pq_reachable (⟨[⟨7, 3⟩, ⟨9, 5⟩]⟩ : pq Nat) :=
    pq_reachable.insert ⟨[⟨9, 5⟩]⟩ _ 7 3
      (pq_reachable.insert pq_create _ 9 5 pq_reachable.create (by decide)) (by decide)
  ⟨hr, by decide, C6_remove_first_min _ hr (by decide)⟩

/-- C7 (peeking at the minimum): on every non-empty queue reachable from `pq_create` by
`pq_insert` and `pq_remove_first` calls, `pq_first_priority` returns the least priority
among the entries, `pq_first` returns the value of an entry with that priority, which is
the value a following `pq_remove_first` returns, and both calls leave the queue as it is. -/
theorem C7_first_peeks_min {α : Type} (q : pq α) (hr : pq_reachable q)
    (hne : dynarray_size q.heap ≠ 0) :
    ∃ e, e ∈ q.heap ∧ (∀ x ∈ q.heap, e.priority ≤ x.priority) ∧
      pq_first_priority q = some (e.priority, q) ∧ pq_first q = some (e.value, q) ∧
      ∃ q1, pq_remove_first q = some (e.value, q1) := by
  have hne1 : q.heap ≠ [] := fun hc => hne (by simp [dynarray_size, hc])
  obtain ⟨e, q1, e1, h0, p1, o1⟩ := pq_remove_first_spec q hne1
  exact ⟨e, p1.symm.subset (List.mem_cons_self _ _), (o1 (pq_reachable_heap_ok q hr)).2,
    (pq_first_spec q e h0).2, (pq_first_spec q e h0).1, q1, e1⟩

theorem C7_first_peeks_min_witness :
    pq_reachable (⟨[⟨4, 1⟩, ⟨6, 2⟩]⟩ : pq Nat) ∧
    dynarray_size (⟨[⟨4, 1⟩, ⟨6, 2⟩]⟩ : pq Nat).heap ≠ 0 ∧
    ∃ e, e ∈ (⟨[⟨4, 1⟩, ⟨6, 2⟩]⟩ : pq Nat).heap ∧
      (∀ x ∈ (⟨[⟨4, 1⟩, ⟨6, 2⟩]⟩ : pq Nat).heap, e.priority ≤ x.priority) ∧
      pq_first_priority (⟨[⟨4, 1⟩, ⟨6, 2⟩]⟩ : pq Nat) =
        some (e.priority, ⟨[⟨4, 1⟩, ⟨6, 2⟩]⟩) ∧
      pq_first (⟨[⟨4, 1⟩, ⟨6, 2⟩]⟩ : pq Nat) = some (e.value, ⟨[⟨4, 1⟩, ⟨6, 2⟩]⟩) ∧
      ∃ q1, pq_remove_first (⟨[⟨4, 1⟩, ⟨6, 2⟩]⟩ : pq Nat) = some (e.value, q1) :=
  have hr : pq_reachable (⟨[⟨4, 1⟩, ⟨6, 2⟩]⟩ : pq Nat) :=
    pq_reachable.insert ⟨[⟨6, 2⟩]⟩ _ 4 1
      (pq_reachable.insert pq_create _ 6 2 pq_reachable.create (by decide)) (by decide)
  ⟨hr, by decide, C7_first_peeks_min _ hr (by decide)⟩

/-- C8 (heap size law): for every sequence of `pq_insert` and `pq_remove_first` calls on
the queue of `pq_create` in which every prefix has at least as many inserts as removes (no
removal from an empty queue), every call succeeds, the number of stored entries is the
number of inserts minus the number of removes, and `pq_isempty` is 1 when that number is 0
and 0 otherwise; `pq_isempty` of the queue of `pq_create` is 1. -/
theorem C8_heap_size_law {α : Type} (ops : List (pq_op α))
    (h : ∀ k, count_removes (ops.take k) ≤ count_inserts (ops.take k)) :
    ∃ q, run_ops ops pq_create = some q ∧
      dynarray_size q.heap = count_inserts ops - count_removes ops ∧
      count_removes ops ≤ count_inserts ops ∧
      pq_isempty q = (if count_inserts ops - count_removes ops = 0 then 1 else 0) ∧
      pq_isempty (pq_create : pq α) = 1 := by
  obtain ⟨q, e, hl⟩ := run_ops_spec ops (pq_create : pq α) (by
    intro k; have := h k; omega)
  simp only [pq_create, dynarray_create, List.length_nil, Nat.zero_add] at hl
  have hs : dynarray_size q.heap = count_inserts ops - count_removes ops := by
    simp only [dynarray_size]; omega
  refine ⟨q, e, hs, by omega, ?_, ?_⟩
  · simp only [pq_isempty, hs]
  · simp [pq_isempty, pq_create, dynarray_create, dynarray_size]

theorem C8_heap_size_law_witness :
    (∀ k, count_removes (([pq_op.insert 5 2, pq_op.remove_first, pq_op.insert 1 7] :
        List (pq_op Nat)).take k) ≤
      count_inserts (([pq_op.insert 5 2, pq_op.remove_first, pq_op.insert 1 7] :
        List (pq_op Nat)).take k)) ∧
    ∃ q, run_ops ([pq_op.insert 5 2, pq_op.remove_first, pq_op.insert 1 7] :
        List (pq_op Nat)) pq_create = some q ∧
      dynarray_size q.heap =
        count_inserts ([pq_op.insert 5 2, pq_op.remove_first, pq_op.insert 1 7] :
          List (pq_op Nat)) -
        count_removes ([pq_op.insert 5 2, pq_op.remove_first, pq_op.insert 1 7] :
          List (pq_op Nat)) ∧
      count_removes ([pq_op.insert 5 2, pq_op.remove_first, pq_op.insert 1 7] :
          List (pq_op Nat)) ≤
        count_inserts ([pq_op.insert 5 2, pq_op.remove_first, pq_op.insert 1 7] :
          List (pq_op Nat)) ∧
      pq_isempty q =
        (if count_inserts ([pq_op.insert 5 2, pq_op.remove_first, pq_op.insert 1 7] :
            List (pq_op Nat)) -
          count_removes ([pq_op.insert 5 2, pq_op.remove_first, pq_op.insert 1 7] :
            List (pq_op Nat)) = 0 then 1 else 0) ∧
      pq_isempty (pq_create : pq Nat) = 1 :=
  have h : ∀ k, count_removes (([pq_op.insert 5 2, pq_op.remove_first, pq_op.insert 1 7] :
        List (pq_op Nat)).take k) ≤
      count_inserts (([pq_op.insert 5 2, pq_op.remove_first, pq_op.insert 1 7] :
        List (pq_op Nat)).take k) := by
    intro k
    rcases k with _ | _ | _ | k <;> simp [count_removes, count_inserts]
  ⟨h, C8_heap_size_law _ h⟩

/-- C9 (empty-queue precondition): each of `pq_first`, `pq_first_priority` and
`pq_remove_first` fails, with the error result and no value, exactly when the queue is
empty; on every non-empty queue each returns a result. -/
theorem C9_empty_precondition {α : Type} (q : pq α) :
    (pq_first q = none ↔ dynarray_size q.heap = 0) ∧
    (pq_first_priority q = none ↔ dynarray_size q.heap = 0) ∧
    (pq_remove_first q = none ↔ dynarray_size q.heap = 0) := by
  by_cases h : q.heap = []
  · have hs : dynarray_size q.heap = 0 := by simp [dynarray_size, h]
    refine ⟨⟨fun _ => hs, fun _ => ?_⟩, ⟨fun _ => hs, fun _ => ?_⟩,
      ⟨fun _ => hs, fun _ => pq_remove_first_nil q h⟩⟩
    · simp [pq_first, hs]
    · simp [pq_first_priority, hs]
  · have hs : dynarray_size q.heap ≠ 0 := by
      simp only [dynarray_size]
      exact fun hc => h (List.length_eq_zero.mp hc)
    obtain ⟨e, q1, e1, h0, _, _⟩ := pq_remove_first_spec q h
    obtain ⟨f1, f2⟩ := pq_first_spec q e h0
    refine ⟨⟨fun hc => ?_, fun hc => absurd hc hs⟩, ⟨fun hc => ?_, fun hc => absurd hc hs⟩,
      ⟨fun hc => ?_, fun hc => absurd hc hs⟩⟩
    · rw [f1] at hc; exact Option.noConfusion hc
    · rw [f2] at hc; exact Option.noConfusion hc
    · rw [e1] at hc; exact Option.noConfusion hc

/-! ## The adjacency structure built by `read_graph` -/

theorem add_edge_returns (g : List (List edge)) (a b : Nat) (c : Int) (h : a < g.length) :
    add_edge g a b c = outcome.returns (g.set a (⟨b, c⟩ :: g.getD a [])) := by
  simp [add_edge, h]

theorem add_edge_undefined (g : List (List edge)) (a b : Nat) (c : Int) (h : g.length ≤ a) :
    add_edge g a b c = outcome.undefined := by
  simp [add_edge, not_lt.mpr h]

theorem add_edge_eq_returns (g g1 : List (List edge)) (a b : Nat) (c : Int)
    (h : add_edge g a b c = outcome.returns g1) :
    a < g.length ∧ g1 = g.set a (⟨b, c⟩ :: g.getD a []) := by
  unfold add_edge at h
  by_cases ha : a < g.length
  · rw [if_pos ha] at h
    exact ⟨ha, (outcome.returns.inj h).symm⟩
  · rw [if_neg ha] at h
    cases h

theorem add_edge_length (g g1 : List (List edge)) (a b : Nat) (c : Int)
    (h : add_edge g a b c = outcome.returns g1) : g1.length = g.length := by
  obtain ⟨_, rfl⟩ := add_edge_eq_returns g g1 a b c h
  simp

theorem add_edge_getD (g g1 : List (List edge)) (a b : Nat) (c : Int)
    (h : add_edge g a b c = outcome.returns g1) (u : Nat) :
    g1.getD u [] = if u = a then ⟨b, c⟩ :: g.getD u [] else g.getD u [] := by
  obtain ⟨hl, rfl⟩ := add_edge_eq_returns g g1 a b c h
  rw [List.getD_eq_getElem?_getD, List.getD_eq_getElem?_getD, List.getElem?_set]
  by_cases h : a = u
  · subst h
    simp [hl]
  · have h1 : ¬ u = a := fun hc => h hc.symm
    simp [h, h1]

theorem read_edges_cons (e : input_edge) (rest : List input_edge) (g g3 : List (List edge))
    (h : read_edges (e :: rest) g = outcome.returns g3) :
    ∃ g1 g2, add_edge g e.src e.dest e.cost = outcome.returns g1 ∧
      add_edge g1 e.dest e.src e.cost = outcome.returns g2 ∧
      read_edges rest g2 = outcome.returns g3 := by
  simp only [read_edges] at h
  obtain ⟨r1, h1⟩ : ∃ r, add_edge g e.src e.dest e.cost = r := ⟨_, rfl⟩
  rw [h1] at h
  cases r1 with
  | undefined => cases h
  | returns g1 =>
    simp only at h
    obtain ⟨r2, h2⟩ : ∃ r, add_edge g1 e.dest e.src e.cost = r := ⟨_, rfl⟩
    rw [h2] at h
    cases r2 with
    | undefined => cases h
    | returns g2 => exact ⟨g1, g2, h1, h2, h⟩

theorem read_edges_length (file : List input_edge) :
    ∀ g g3 : List (List edge), read_edges file g = outcome.returns g3 →
      g3.length = g.length := by
  induction file with
  | nil =>
    intro g g3 h
    simp only [read_edges] at h
    rw [← outcome.returns.inj h]
  | cons e rest ih =>
    intro g g3 h
    obtain ⟨g1, g2, h1, h2, h3⟩ := read_edges_cons e rest g g3 h
    rw [ih g2 g3 h3, add_edge_length g1 g2 _ _ _ h2, add_edge_length g g1 _ _ _ h1]

/-- The loop of `read_graph` returns when every endpoint is inside the array. -/
theorem read_edges_returns (file : List input_edge) :
    ∀ g : List (List edge), (∀ e ∈ file, e.src < g.length ∧ e.dest < g.length) →
      ∃ g3, read_edges file g = outcome.returns g3 := by
  induction file with
  | nil => intro g _; exact ⟨g, rfl⟩
  | cons e rest ih =>
    intro g h
    obtain ⟨hs, hd⟩ := h e (List.mem_cons_self _ _)
    have h1 := add_edge_returns g e.src e.dest e.cost hs
    have hl1 := add_edge_length g _ _ _ _ h1
    have h2 := add_edge_returns (g.set e.src (⟨e.dest, e.cost⟩ :: g.getD e.src [])) e.dest
      e.src e.cost (by rw [hl1]; exact hd)
    have hl2 := add_edge_length _ _ _ _ _ h2
    obtain ⟨g3, h3⟩ := ih _ (fun x hx => by
      rw [hl2, hl1]
      exact h x (List.mem_cons_of_mem _ hx))
    refine ⟨g3, ?_⟩
    simp only [read_edges]
    rw [h1]
    simp only
    rw [h2]
    exact h3

/-- When the loop of `read_graph` returns, every endpoint was inside the array. -/
theorem read_edges_range (file : List input_edge) :
    ∀ g g3 : List (List edge), read_edges file g = outcome.returns g3 →
      ∀ e ∈ file, e.src < g.length ∧ e.dest < g.length := by
  induction file with
  | nil => intro g g3 _ e he; cases he
  | cons e rest ih =>
    intro g g3 h x hx
    obtain ⟨g1, g2, h1, h2, h3⟩ := read_edges_cons e rest g g3 h
    have hl1 := add_edge_length g g1 _ _ _ h1
    have hl2 := add_edge_length g1 g2 _ _ _ h2
    rcases List.mem_cons.mp hx with rfl | hx
    · have := (add_edge_eq_returns g g1 _ _ _ h1).1
      have := (add_edge_eq_returns g1 g2 _ _ _ h2).1
      omega
    · have := ih g2 g3 h3 x hx
      omega

theorem read_graph_returns (file : List input_edge) (n : Nat)
    (h : ∀ e ∈ file, e.src < n ∧ e.dest < n) :
    ∃ g, read_graph file n = outcome.returns g := by
  unfold read_graph
  exact read_edges_returns file _ (by simpa using h)

theorem read_graph_range (file : List input_edge) (n : Nat) (g : List (List edge))
    (h : read_graph file n = outcome.returns g) : ∀ e ∈ file, e.src < n ∧ e.dest < n := by
  unfold read_graph at h
  simpa using read_edges_range file _ g h

theorem read_graph_length (file : List input_edge) (n : Nat) (g : List (List edge))
    (h : read_graph file n = outcome.returns g) : g.length = n := by
  unfold read_graph at h
  simpa using read_edges_length file _ g h

theorem count_ite_cons (x y : edge) (l : List edge) (p : Prop) [Decidable p] :
    List.count x (if p then y :: l else l) =
      List.count x l + (if p ∧ y = x then 1 else 0) := by
  by_cases hp : p
  · simp [hp, List.count_cons]
  · simp [hp]

theorem read_edges_count (file : List input_edge) :
    ∀ (g g3 : List (List edge)) (u v : Nat) (c : Int),
      read_edges file g = outcome.returns g3 →
      List.count (⟨v, c⟩ : edge) (g3.getD u []) =
        List.count (⟨v, c⟩ : edge) (g.getD u []) +
          (List.count (⟨u, v, c⟩ : input_edge) file +
            List.count (⟨v, u, c⟩ : input_edge) file) := by
  induction file with
  | nil =>
    intro g g3 u v c h
    simp only [read_edges] at h
    rw [← outcome.returns.inj h]
    simp
  | cons e rest ih =>
    intro g g3 u v c h
    obtain ⟨g1, g2, h1, h2, h3⟩ := read_edges_cons e rest g g3 h
    obtain ⟨a, b, k⟩ := e
    rw [ih g2 g3 u v c h3, add_edge_getD g1 g2 _ _ _ h2, add_edge_getD g g1 _ _ _ h1,
      count_ite_cons, count_ite_cons]
    simp only [List.count_cons, beq_iff_eq, input_edge.mk.injEq, edge.mk.injEq]
    split_ifs <;> omega

/-- What `read_graph` stores: for a node `u` below `n`, the edge record `(v, c)` occurs in
the list of `u` once for every input line `u v c` and once for every input line `v u c`. -/
theorem read_graph_count (file : List input_edge) (n : Nat) (g : List (List edge))
    (h : read_graph file n = outcome.returns g) (u v : Nat) (c : Int) :
    List.count (⟨v, c⟩ : edge) (g.getD u []) =
      List.count (⟨u, v, c⟩ : input_edge) file +
        List.count (⟨v, u, c⟩ : input_edge) file := by
  unfold read_graph at h
  rw [read_edges_count file _ g u v c h]
  simp [List.getD_eq_getElem?_getD, List.getElem?_replicate]
  split <;> simp

theorem read_graph_mem (file : List input_edge) (n : Nat) (g : List (List edge))
    (h : read_graph file n = outcome.returns g) (u v : Nat) (c : Int) :
    (⟨v, c⟩ : edge) ∈ g.getD u [] ↔
      (⟨u, v, c⟩ : input_edge) ∈ file ∨ (⟨v, u, c⟩ : input_edge) ∈ file := by
  rw [← List.count_pos_iff, read_graph_count file n g h u v c, ← List.count_pos_iff,
    ← List.count_pos_iff]
  omega

theorem getD_nil_of_le {β : Type} (l : List (List β)) (u : Nat) (h : l.length ≤ u) :
    l.getD u [] = [] := by
  rw [List.getD_eq_getElem?_getD, List.getElem?_eq_none h]
  rfl

/-! ## The claim on the construction of the graph -/

theorem read_graph_count_symm (file : List input_edge) (n : Nat) (g : List (List edge))
    (h : read_graph file n = outcome.returns g) (u v : Nat) (c : Int) :
    List.count (⟨v, c⟩ : edge) (g.getD u []) =
      List.count (⟨u, c⟩ : edge) (g.getD v []) := by
  rw [read_graph_count file n g h u v c, read_graph_count file n g h v u c]
  omega

/-- C10 (symmetry of the graph construction): for every `n` and every list of input lines
whose endpoints are below `n`, `read_graph` returns, and in the adjacency structure it has
built every input line `u v c` has the record `(v, c)` in the list of `u` and the record
`(u, c)` in the list of `v`, and every record `(v, c)` occurs in the list of `u` exactly as
many times as the record `(u, c)` occurs in the list of `v`. -/
theorem C10_graph_symmetry (n : Nat) (file : List input_edge)
    (h : ∀ e ∈ file, e.src < n ∧ e.dest < n) :
    ∃ g, read_graph file n = outcome.returns g ∧
      (∀ e ∈ file,
        (⟨e.dest, e.cost⟩ : edge) ∈ g.getD e.src [] ∧
        (⟨e.src, e.cost⟩ : edge) ∈ g.getD e.dest []) ∧
      (∀ (u v : Nat) (c : Int),
        List.count (⟨v, c⟩ : edge) (g.getD u []) =
          List.count (⟨u, c⟩ : edge) (g.getD v [])) := by
  obtain ⟨g, hg⟩ := read_graph_returns file n h
  refine ⟨g, hg, ?_, read_graph_count_symm file n g hg⟩
  intro e he
  constructor
  · rw [read_graph_mem file n g hg e.src e.dest e.cost]
    exact Or.inl he
  · rw [read_graph_mem file n g hg e.dest e.src e.cost]
    exact Or.inr he

theorem C10_graph_symmetry_witness :
    (∀ e ∈ ([⟨0, 1, 4⟩, ⟨2, 1, 1⟩, ⟨1, 1, 3⟩] : List input_edge), e.src < 3 ∧ e.dest < 3) ∧
    ∃ g, read_graph [⟨0, 1, 4⟩, ⟨2, 1, 1⟩, ⟨1, 1, 3⟩] 3 = outcome.returns g ∧
      (∀ e ∈ ([⟨0, 1, 4⟩, ⟨2, 1, 1⟩, ⟨1, 1, 3⟩] : List input_edge),
        (⟨e.dest, e.cost⟩ : edge) ∈ g.getD e.src [] ∧
        (⟨e.src, e.cost⟩ : edge) ∈ g.getD e.dest []) ∧
      (∀ (u v : Nat) (c : Int),
        List.count (⟨v, c⟩ : edge) (g.getD u []) =
          List.count (⟨u, c⟩ : edge) (g.getD v [])) :=
  ⟨by decide, C10_graph_symmetry 3 [⟨0, 1, 4⟩, ⟨2, 1, 1⟩, ⟨1, 1, 3⟩] (by decide)⟩

/-! ## Arrays of `int` -/

theorem arr_set_length (a : List Int) (i : Nat) (x : Int) : (arr_set a i x).length = a.length := by
  simp [arr_set]

theorem arr_get_set_eq (a : List Int) (i : Nat) (x : Int) (h : i < a.length) :
    arr_get (arr_set a i x) i = x := by
  simp [arr_get, arr_set, List.getD_eq_getElem?_getD, List.getElem?_set, h]

theorem arr_get_set_ne (a : List Int) (i j : Nat) (x : Int) (h : i ≠ j) :
    arr_get (arr_set a i x) j = arr_get a j := by
  simp [arr_get, arr_set, List.getD_eq_getElem?_getD, List.getElem?_set, h]

theorem arr_get_of_le (a : List Int) (i : Nat) (h : a.length ≤ i) : arr_get a i = 0 := by
  simp [arr_get, List.getD_eq_getElem?_getD, List.getElem?_eq_none h]

theorem arr_get_replicate (n i : Nat) (x : Int) (h : i < n) :
    arr_get (List.replicate n x) i = x := by
  simp [arr_get, List.getD_eq_getElem?_getD, List.getElem?_replicate, h]

theorem lt_of_arr_get_ne_zero (a : List Int) (i : Nat) (h : arr_get a i ≠ 0) : i < a.length := by
  by_contra hc
  exact h (arr_get_of_le a i (by omega))

theorem sum_map_le {β : Type} (l : List β) (f g : β → Int) (h : ∀ x ∈ l, f x ≤ g x) :
    (l.map f).sum ≤ (l.map g).sum := by
  induction l with
  | nil => simp
  | cons a l ih =>
    simp only [List.map_cons, List.sum_cons]
    have h1 := h a (List.mem_cons_self _ _)
    have h2 := ih (fun x hx => h x (List.mem_cons_of_mem _ hx))
    omega

theorem sum_map_add_le {β : Type} (l : List β) (f g : β → Int) (x0 : β) (c : Int)
    (h : ∀ x ∈ l, f x ≤ g x) (hx0 : x0 ∈ l) (hc : f x0 + c ≤ g x0) :
    (l.map f).sum + c ≤ (l.map g).sum := by
  induction l with
  | nil => simp at hx0
  | cons a l ih =>
    simp only [List.map_cons, List.sum_cons]
    rcases List.mem_cons.mp hx0 with rfl | hm
    · have h2 := sum_map_le l f g (fun x hx => h x (List.mem_cons_of_mem _ hx))
      omega
    · have h1 := h a (List.mem_cons_self _ _)
      have h2 := ih (fun x hx => h x (List.mem_cons_of_mem _ hx)) hm
      omega

theorem inner_cost_nonneg (file : List input_edge) (visited : List Int)
    (hn : ∀ ie ∈ file, 0 ≤ ie.cost) : 0 ≤ inner_cost file visited := by
  have := sum_map_le file (fun _ => (0 : Int))
    (fun ie => if arr_get visited ie.src ≠ 0 ∧ arr_get visited ie.dest ≠ 0 then ie.cost else 0)
    (by
      intro ie hie
      have := hn ie hie
      simp only
      split_ifs <;> omega)
  simpa [inner_cost] using this

theorem inner_cost_mono (file : List input_edge) (vis vis1 : List Int)
    (hn : ∀ ie ∈ file, 0 ≤ ie.cost)
    (hsub : ∀ x, arr_get vis x ≠ 0 → arr_get vis1 x ≠ 0) :
    inner_cost file vis ≤ inner_cost file vis1 := by
  unfold inner_cost
  apply sum_map_le
  intro ie hie
  have := hn ie hie
  by_cases h1 : arr_get vis ie.src ≠ 0 ∧ arr_get vis ie.dest ≠ 0
  · rw [if_pos h1, if_pos ⟨hsub _ h1.1, hsub _ h1.2⟩]
  · rw [if_neg h1]
    split_ifs <;> omega

theorem inner_cost_add_le (file : List input_edge) (vis vis1 : List Int)
    (hn : ∀ ie ∈ file, 0 ≤ ie.cost)
    (hsub : ∀ x, arr_get vis x ≠ 0 → arr_get vis1 x ≠ 0)
    (ie : input_edge) (hie : ie ∈ file)
    (h0 : ¬ (arr_get vis ie.src ≠ 0 ∧ arr_get vis ie.dest ≠ 0))
    (h1 : arr_get vis1 ie.src ≠ 0 ∧ arr_get vis1 ie.dest ≠ 0) :
    inner_cost file vis + ie.cost ≤ inner_cost file vis1 := by
  unfold inner_cost
  apply sum_map_add_le _ _ _ ie _ _ hie
  · rw [if_neg h0, if_pos h1]
    omega
  · intro x hx
    have := hn x hx
    by_cases h2 : arr_get vis x.src ≠ 0 ∧ arr_get vis x.dest ≠ 0
    · rw [if_pos h2, if_pos ⟨hsub _ h2.1, hsub _ h2.2⟩]
    · rw [if_neg h2]
      split_ifs <;> omega

theorem inner_cost_add_le_total (file : List input_edge) (vis : List Int)
    (hn : ∀ ie ∈ file, 0 ≤ ie.cost) (ie : input_edge) (hie : ie ∈ file)
    (h0 : ¬ (arr_get vis ie.src ≠ 0 ∧ arr_get vis ie.dest ≠ 0)) :
    inner_cost file vis + ie.cost ≤ total_cost file := by
  unfold inner_cost total_cost
  apply sum_map_add_le _ _ _ ie _ _ hie
  · rw [if_neg h0]
    omega
  · intro x hx
    have := hn x hx
    split_ifs <;> omega

theorem inner_cost_le_total (file : List input_edge) (vis : List Int)
    (hn : ∀ ie ∈ file, 0 ≤ ie.cost) : inner_cost file vis ≤ total_cost file := by
  unfold inner_cost total_cost
  apply sum_map_le
  intro x hx
  have := hn x hx
  split_ifs <;> omega

theorem pending_edges_mark (g : List (List edge)) (n : Nat) (visited : List Int) (u : Nat)
    (hu : u < n) (hl : visited.length = n) (h0 : arr_get visited u = 0) :
    pending_edges g n (arr_set visited u 1) + (g.getD u []).length =
      pending_edges g n visited := by
  unfold pending_edges
  have hm : u ∈ Finset.range n := Finset.mem_range.mpr hu
  rw [← Finset.add_sum_erase _ _ hm, ← Finset.add_sum_erase (Finset.range n) _ hm]
  have e1 : arr_get (arr_set visited u 1) u = 1 := arr_get_set_eq visited u 1 (by omega)
  have e2 : ∑ x in (Finset.range n).erase u,
      (if arr_get (arr_set visited u 1) x ≠ 0 then 0 else (g.getD x []).length) =
      ∑ x in (Finset.range n).erase u,
      (if arr_get visited x ≠ 0 then 0 else (g.getD x []).length) := by
    apply Finset.sum_congr rfl
    intro x hx
    have hxu : u ≠ x := fun hc => (Finset.mem_erase.mp hx).1 hc.symm
    rw [arr_get_set_ne visited u x 1 hxu]
  rw [e2, e1, h0]
  simp
  omega

theorem sum_range_getD_length (g : List (List edge)) :
    ∑ u in Finset.range g.length, (g.getD u []).length = (g.map List.length).sum := by
  induction g with
  | nil => simp
  | cons a g ih =>
    rw [List.length_cons, Finset.sum_range_succ']
    simp only [List.getD_cons_succ, List.getD_cons_zero, List.map_cons, List.sum_cons]
    rw [ih]
    omega

theorem pending_edges_le (g : List (List edge)) (visited : List Int) :
    pending_edges g g.length visited ≤ (g.map List.length).sum := by
  rw [← sum_range_getD_length]
  unfold pending_edges
  apply Finset.sum_le_sum
  intro i _
  split_ifs <;> omega

/-! ## The loops of `dijkstra` as sequences of steps -/

theorem relax_edges_cons (u : Nat) (e : edge) (rest : List edge) (st : dstate) :
    ∃ st1, relax_step u e st st1 ∧
      relax_edges u (e :: rest) st = relax_edges u rest st1 := by
  by_cases hc : relax_cond st u e
  · obtain ⟨q, e1, p1, o1⟩ := pq_insert_spec st.pq e.dest
      (arr_get (arr_set st.dist e.dest (wrap32 (arr_get st.dist u + e.cost))) e.dest)
    refine ⟨_, relax_step.update q hc p1 o1, ?_⟩
    have hc1 := hc
    unfold relax_cond at hc1
    simp only [relax_edges, if_pos hc1, e1]
  · refine ⟨st, relax_step.skip hc, ?_⟩
    have hc1 := hc
    unfold relax_cond at hc1
    simp only [relax_edges, if_neg hc1]

theorem relax_edges_rule (u : Nat) (P : List edge → dstate → Prop)
    (hstep : ∀ e rest st st1, P (e :: rest) st → relax_step u e st st1 → P rest st1) :
    ∀ pend st, P pend st → ∃ st1, relax_edges u pend st = some st1 ∧ P [] st1 := by
  intro pend
  induction pend with
  | nil => intro st h; exact ⟨st, rfl, h⟩
  | cons e rest ih =>
    intro st h
    obtain ⟨st1, hs, he⟩ := relax_edges_cons u e rest st
    obtain ⟨st2, e2, h2⟩ := ih st1 (hstep e rest st st1 h hs)
    exact ⟨st2, he.trans e2, h2⟩

theorem relax_edges_total (u : Nat) (pend : List edge) (st : dstate) :
    ∃ st1, relax_edges u pend st = some st1 := by
  obtain ⟨st1, e1, _⟩ := relax_edges_rule u (fun _ _ => True)
    (fun _ _ _ _ _ _ => trivial) pend st trivial
  exact ⟨st1, e1⟩

theorem dijkstra_loop_rule (g : List (List edge)) (P : dstate → Prop) (μ : dstate → Nat)
    (hstep : ∀ st st1, P st → loop_step g st st1 → P st1 ∧ μ st1 < μ st) :
    ∀ fuel st, P st → μ st < fuel →
      ∃ st1, dijkstra_loop g fuel st = some st1 ∧ P st1 ∧ st1.pq.heap = [] := by
  intro fuel
  induction fuel with
  | zero => intro st _ h; omega
  | succ fuel ih =>
    intro st hP hμ
    unfold dijkstra_loop
    by_cases hne : st.pq.heap = []
    · have h1 : ¬ pq_isempty st.pq = 0 := by simp [pq_isempty, dynarray_size, hne]
      rw [if_neg h1]
      exact ⟨st, rfl, hP, hne⟩
    · have h1 : pq_isempty st.pq = 0 := by
        simp [pq_isempty, dynarray_size, hne]
      rw [if_pos h1]
      obtain ⟨x, q, e1, h0, p1, o1⟩ := pq_remove_first_spec st.pq hne
      have hx : x ∈ st.pq.heap := p1.symm.subset (List.mem_cons_self _ _)
      simp only [e1]
      by_cases hv : arr_get st.visited x.value ≠ 0
      · rw [if_pos hv]
        obtain ⟨hP1, hμ1⟩ := hstep st _ hP (loop_step.skip x q hx p1 o1 hv)
        exact ih _ hP1 (by omega)
      · rw [if_neg hv]
        obtain ⟨st1, e2⟩ := relax_edges_total x.value (g.getD x.value [])
          ⟨st.dist, st.prev, arr_set st.visited x.value 1, q⟩
        simp only [e2]
        obtain ⟨hP1, hμ1⟩ := hstep st st1 hP
          (loop_step.relax x q st1 hx p1 o1 (not_not.mp hv) e2)
        exact ih _ hP1 (by omega)

/-! ## The invariant that needs no assumption on the costs -/

theorem getD_mem_or_nil {β : Type} (g : List (List β)) (u : Nat) :
    g.getD u [] ∈ g ∨ g.getD u [] = [] := by
  by_cases h : u < g.length
  · left
    rw [List.getD_eq_getElem?_getD, List.getElem?_eq_getElem h]
    exact List.getElem_mem h
  · right
    exact getD_nil_of_le g u (by omega)

theorem graph_ok.dest_lt {g : List (List edge)} {n : Nat} (hg : graph_ok g n) (u : Nat)
    (e : edge) (he : e ∈ g.getD u []) : e.dest < n := by
  rcases getD_mem_or_nil g u with h | h
  · exact hg.dest_lt_mem _ h e he
  · rw [h] at he
    simp at he

theorem binv_relax_step (g : List (List edge)) (n start u : Nat) (V : List Int) (K : Nat)
    (hg : graph_ok g n) (e : edge) (rest : List edge) (st st1 : dstate)
    (h : binv_relax g n start u V K (e :: rest) st) (hs : relax_step u e st st1) :
    binv_relax g n start u V K rest st1 := by
  obtain ⟨hb, hvs, hvu, hsub, hve, hsz⟩ := h
  have hsub1 : ∀ e1 ∈ rest, e1 ∈ g.getD u [] := fun e1 h1 => hsub e1 (List.mem_cons_of_mem _ h1)
  cases hs with
  | skip _ =>
    exact ⟨hb, hvs, hvu, hsub1, hve, by simp only [List.length_cons] at hsz; omega⟩
  | update q hc hp _ =>
    obtain ⟨hc1, _, _⟩ := hc
    have heu : e ∈ g.getD u [] := hsub e (List.mem_cons_self _ _)
    have hdn : e.dest < n := hg.dest_lt u e heu
    have hds : e.dest ≠ start := fun hc2 => hvs (hc2 ▸ hc1)
    have hru : reach g start u := hb.vis_reach u hvu
    have hrd : reach g start e.dest := by
      obtain ⟨w, hw⟩ := hru
      exact ⟨_, walk.cons u w e hw heu⟩
    refine ⟨⟨?_, ?_, hb.len_vis, ?_, hb.vis_reach, ?_, ?_, ?_, Or.inl hvs⟩, hvs, hvu, hsub1,
      hve, ?_⟩
    · simp only [arr_set_length]; exact hb.len_dist
    · simp only [arr_set_length]; exact hb.len_prev
    · intro x hx
      rcases List.mem_cons.mp (hp.subset hx) with rfl | hx1
      · exact ⟨hdn, hrd⟩
      · exact hb.q_reach x hx1
    · intro v hv hnr
      have hne : e.dest ≠ v := fun hc2 => hnr (hc2 ▸ hrd)
      simp only [arr_get_set_ne _ _ _ _ hne]
      exact hb.unreach v hv hnr
    · simp only [arr_get_set_ne _ _ _ _ hds]; exact hb.src_dist
    · simp only [arr_get_set_ne _ _ _ _ hds]; exact hb.src_prev
    · have := hp.length_eq
      simp only [List.length_cons] at this hsz
      simp only
      omega

theorem binv_relax_enter (g : List (List edge)) (n start : Nat)
    (st : dstate) (hb : binv g n start st) (x : pq_node Nat) (q : pq Nat)
    (hx : x ∈ st.pq.heap) (hp : st.pq.heap.Perm (x :: q.heap)) :
    binv_relax g n start x.value (arr_set st.visited x.value 1)
      (q.heap.length + (g.getD x.value []).length) (g.getD x.value [])
      ⟨st.dist, st.prev, arr_set st.visited x.value 1, q⟩ := by
  obtain ⟨hxn, hxr⟩ := hb.q_reach x hx
  have hvx : arr_get (arr_set st.visited x.value 1) x.value = 1 :=
    arr_get_set_eq _ _ _ (by rw [hb.len_vis]; exact hxn)
  have hmono : ∀ v, arr_get st.visited v ≠ 0 →
      arr_get (arr_set st.visited x.value 1) v ≠ 0 := by
    intro v hv1
    by_cases hxv : x.value = v
    · subst hxv; rw [hvx]; decide
    · rw [arr_get_set_ne _ _ _ _ hxv]; exact hv1
  have hstart : arr_get (arr_set st.visited x.value 1) start ≠ 0 := by
    rcases hb.first with h1 | ⟨h2, _⟩
    · exact hmono start h1
    · rw [h2] at hx
      have hx1 : x = ⟨start, 0⟩ := by simpa using hx
      rw [hx1] at hvx
      simp only [hx1]
      rw [hvx]; decide
  refine ⟨⟨hb.len_dist, hb.len_prev, ?_, ?_, ?_, hb.unreach, hb.src_dist, hb.src_prev,
    Or.inl hstart⟩, hstart, ?_, fun e he1 => he1, rfl, le_refl _⟩
  · simp only [arr_set_length]; exact hb.len_vis
  · intro y hy
    exact hb.q_reach y (hp.symm.subset (List.mem_cons_of_mem _ hy))
  · intro v hv1
    by_cases hxv : x.value = v
    · exact hxv ▸ hxr
    · rw [arr_get_set_ne _ _ _ _ hxv] at hv1
      exact hb.vis_reach v hv1
  · simp only [hvx]; decide

theorem binv_loop_step (g : List (List edge)) (n start : Nat) (hg : graph_ok g n)
    (st st1 : dstate) (hb : binv g n start st) (hs : loop_step g st st1) :
    binv g n start st1 ∧
      st1.pq.heap.length + pending_edges g n st1.visited <
        st.pq.heap.length + pending_edges g n st.visited := by
  cases hs with
  | skip x q hx hp _ hv =>
    have hl := hp.length_eq
    simp only [List.length_cons] at hl
    refine ⟨⟨hb.len_dist, hb.len_prev, hb.len_vis, ?_, hb.vis_reach, hb.unreach, hb.src_dist,
      hb.src_prev, ?_⟩, by simp only; omega⟩
    · intro y hy
      exact hb.q_reach y (hp.symm.subset (List.mem_cons_of_mem _ hy))
    · rcases hb.first with h1 | ⟨_, h2⟩
      · exact Or.inl h1
      · exact absurd (h2 x.value) hv
  | relax x q st2 hx hp _ hv he =>
    have hl := hp.length_eq
    simp only [List.length_cons] at hl
    obtain ⟨hxn, hxr⟩ := hb.q_reach x hx
    obtain ⟨st3, e3, h3⟩ := relax_edges_rule x.value
      (binv_relax g n start x.value (arr_set st.visited x.value 1)
        (q.heap.length + (g.getD x.value []).length))
      (fun e rest s s1 => binv_relax_step g n start x.value _ _ hg e rest s s1) _ _
      (binv_relax_enter g n start st hb x q hx hp)
    rw [he] at e3
    cases e3
    refine ⟨h3.base, ?_⟩
    have hsz := h3.size
    simp only [List.length_nil, Nat.add_zero] at hsz
    rw [h3.vis_eq]
    have := pending_edges_mark g n st.visited x.value hxn hb.len_vis hv
    omega

theorem arr_get_replicate_zero (n v : Nat) : arr_get (List.replicate n 0) v = 0 := by
  by_cases h : v < n
  · exact arr_get_replicate n v 0 h
  · exact arr_get_of_le _ _ (by simp; omega)

theorem binv_init (g : List (List edge)) (n start : Nat) (hs : start < n) :
    binv g n start (dijkstra_init n start) := by
  refine ⟨?_, ?_, ?_, ?_, ?_, ?_, ?_, ?_, ?_⟩
  · simp [dijkstra_init, arr_set_length]
  · simp [dijkstra_init]
  · simp [dijkstra_init]
  · intro x hx
    have hx1 : x = ⟨start, 0⟩ := by simpa [dijkstra_init] using hx
    subst hx1
    exact ⟨hs, 0, walk.nil⟩
  · intro v hv
    exact absurd (arr_get_replicate_zero n v) hv
  · intro v hv hnr
    have hne : start ≠ v := fun hc => hnr (hc ▸ ⟨0, walk.nil⟩)
    simp only [dijkstra_init]
    rw [arr_get_set_ne _ _ _ _ hne, arr_get_replicate n v _ hv, arr_get_replicate n v _ hv]
    exact ⟨rfl, rfl⟩
  · simp only [dijkstra_init]
    exact arr_get_set_eq _ _ _ (by simpa using hs)
  · simp only [dijkstra_init]
    exact arr_get_replicate n start _ hs
  · exact Or.inr ⟨rfl, arr_get_replicate_zero n⟩

theorem dijkstra_unfold (g : List (List edge)) (n start : Nat) (hs : start < n) :
    dijkstra g n start =
      (dijkstra_loop g (dijkstra_fuel g) (dijkstra_init n start)).map
        (fun st => (st.dist, st.prev)) := by
  have h0 : arr_get (arr_set (List.replicate n INT_MAX) start 0) start = 0 :=
    arr_get_set_eq _ _ _ (by simpa using hs)
  have h1 : pq_insert (pq_create : pq Nat) start 0 = some ⟨[⟨start, 0⟩]⟩ := by
    simp [pq_insert, pq_create, dynarray_create, dynarray_insert, dynarray_size, bubble_up,
      bubble_up_loop]
  unfold dijkstra
  simp only [h0, h1, dijkstra_init]
  split <;> simp_all

/-- A property that holds when the main loop is entered and that every iteration keeps holds
when `dijkstra` returns, and `dijkstra` does return. -/
theorem dijkstra_run_rule (g : List (List edge)) (n start : Nat) (hg : graph_ok g n)
    (hs : start < n) (P : dstate → Prop) (hinit : P (dijkstra_init n start))
    (hstep : ∀ st st1, binv g n start st → P st → loop_step g st st1 → P st1) :
    ∃ st, dijkstra g n start = some (st.dist, st.prev) ∧ binv g n start st ∧ P st ∧
      st.pq.heap = [] := by
  obtain ⟨st, e, ⟨hb, hP⟩, hq⟩ := dijkstra_loop_rule g
    (fun st => binv g n start st ∧ P st)
    (fun st => st.pq.heap.length + pending_edges g n st.visited)
    (by
      intro st st1 ⟨hb, hP⟩ hs1
      obtain ⟨hb1, hμ⟩ := binv_loop_step g n start hg st st1 hb hs1
      exact ⟨⟨hb1, hstep st st1 hb hP hs1⟩, hμ⟩)
    (dijkstra_fuel g) (dijkstra_init n start) ⟨binv_init g n start hs, hinit⟩
    (by
      have := pending_edges_le g (dijkstra_init n start).visited
      rw [hg.len] at this
      simp only [dijkstra_fuel]
      simp only [dijkstra_init, List.length_singleton] at this ⊢
      omega)
  refine ⟨st, ?_, hb, hP, hq⟩
  rw [dijkstra_unfold g n start hs, e]
  rfl

/-! ## The claims that hold for all costs -/

theorem print_path_no_path (start v : Nat) (prev : List Int) (hv : v ≠ start)
    (hp : arr_get prev v = -1) : print_path start v prev = some [path_item.no_path] := by
  unfold print_path
  simp only [print_path_rec, if_neg hv, if_pos hp]

/-- C4 (unreachability): for every graph of `n` lists whose edge records point to nodes
below `n` and every `start` below `n`, `dijkstra` returns, and every node below `n` that no
walk from `start` reaches has `dist` equal to `INT_MAX` and `prev` equal to -1, so that
`print_path` writes "No path" for it; on the graph that `read_graph` builds for 3 nodes
from the line `0 1 4`, where node 2 is isolated, `dist[2]` is `INT_MAX` from start 0. -/
theorem C4_unreachable (g : List (List edge)) (n start : Nat) (hlen : g.length = n)
    (hdest : ∀ l ∈ g, ∀ e ∈ l, e.dest < n) (hs : start < n) :
    (∃ dist prev, dijkstra g n start = some (dist, prev) ∧
      ∀ v, v < n → (¬ ∃ w, walk g start v w) →
        arr_get dist v = INT_MAX ∧ arr_get prev v = -1 ∧
        print_path start v prev = some [path_item.no_path]) ∧
    (read_graph [⟨0, 1, 4⟩] 3 = outcome.returns [[⟨1, 4⟩], [⟨0, 4⟩], []] ∧
      dijkstra [[⟨1, 4⟩], [⟨0, 4⟩], []] 3 0 = some ([0, 4, INT_MAX], [-1, 0, -1])) := by
  refine ⟨?_, by decide⟩
  obtain ⟨st, e, hb, _, _⟩ := dijkstra_run_rule g n start ⟨hlen, hdest⟩ hs (fun _ => True)
    trivial (fun _ _ _ _ _ => trivial)
  refine ⟨st.dist, st.prev, e, ?_⟩
  intro v hv hnr
  obtain ⟨h1, h2⟩ := hb.unreach v hv hnr
  have hne : v ≠ start := by
    intro hc
    subst hc
    exact hnr ⟨0, walk.nil⟩
  exact ⟨h1, h2, print_path_no_path start v st.prev hne h2⟩

theorem C4_unreachable_witness :
    ∃ g, read_graph [⟨0, 1, -3⟩, ⟨2, 3, 5⟩] 4 = outcome.returns g ∧
      g.length = 4 ∧
      (∀ l ∈ g, ∀ e ∈ l, e.dest < 4) ∧ 1 < 4 ∧
      ((∃ dist prev, dijkstra g 4 1 = some (dist, prev) ∧
        ∀ v, v < 4 → (¬ ∃ w, walk g 1 v w) →
          arr_get dist v = INT_MAX ∧ arr_get prev v = -1 ∧
          print_path 1 v prev = some [path_item.no_path]) ∧
      (read_graph [⟨0, 1, 4⟩] 3 = outcome.returns [[⟨1, 4⟩], [⟨0, 4⟩], []] ∧
        dijkstra [[⟨1, 4⟩], [⟨0, 4⟩], []] 3 0 = some ([0, 4, INT_MAX], [-1, 0, -1]))) :=
  ⟨[[⟨1, -3⟩], [⟨0, -3⟩], [⟨3, 5⟩], [⟨2, 5⟩]],
    by decide, by decide, by decide, by decide,
    C4_unreachable
      [[⟨1, -3⟩], [⟨0, -3⟩], [⟨3, 5⟩], [⟨2, 5⟩]]
      4 1 (by decide) (by decide) (by decide)⟩

/-- C5 (source identity): for every graph of `n` lists whose edge records point to nodes
below `n`, with any costs and with self-loops allowed, and every `start` below `n`,
`dijkstra` returns with `dist[start]` equal to 0 and `prev[start]` equal to -1; on the
graph that `read_graph` builds for one node and no line the result is `dist = [0]`. -/
theorem C5_source_identity (g : List (List edge)) (n start : Nat) (hlen : g.length = n)
    (hdest : ∀ l ∈ g, ∀ e ∈ l, e.dest < n) (hs : start < n) :
    (∃ dist prev, dijkstra g n start = some (dist, prev) ∧
      arr_get dist start = 0 ∧ arr_get prev start = -1) ∧
    (read_graph [] 1 = outcome.returns [[]] ∧ dijkstra [[]] 1 0 = some ([0], [-1])) := by
  refine ⟨?_, by decide⟩
  obtain ⟨st, e, hb, _, _⟩ := dijkstra_run_rule g n start ⟨hlen, hdest⟩ hs (fun _ => True)
    trivial (fun _ _ _ _ _ => trivial)
  exact ⟨st.dist, st.prev, e, hb.src_dist, hb.src_prev⟩

theorem C5_source_identity_witness :
    ∃ g, read_graph [⟨0, 0, 0⟩, ⟨0, 1, -2⟩, ⟨1, 0, 0⟩] 2 = outcome.returns g ∧
      g.length = 2 ∧
      (∀ l ∈ g, ∀ e ∈ l, e.dest < 2) ∧ 0 < 2 ∧
      ((∃ dist prev, dijkstra g 2 0 = some (dist, prev) ∧
        arr_get dist 0 = 0 ∧ arr_get prev 0 = -1) ∧
      (read_graph [] 1 = outcome.returns [[]] ∧ dijkstra [[]] 1 0 = some ([0], [-1]))) :=
  ⟨[[⟨1, 0⟩, ⟨1, -2⟩, ⟨0, 0⟩, ⟨0, 0⟩], [⟨0, 0⟩, ⟨0, -2⟩]],
    by decide, by decide, by decide, by decide,
    C5_source_identity
      [[⟨1, 0⟩, ⟨1, -2⟩, ⟨0, 0⟩, ⟨0, 0⟩], [⟨0, 0⟩, ⟨0, -2⟩]]
      2 0 (by decide) (by decide) (by decide)⟩

/-! ## Paths along `prev` -/

theorem wrap32_eq (x : Int) (h0 : 0 ≤ x) (h1 : x < INT_MAX) : wrap32 x = x := by
  unfold wrap32
  unfold INT_MAX at h1
  omega

theorem good_path_mem_self (g : List (List edge)) (prev dist : List Int) (start v : Nat)
    (path : List Nat) (h : good_path g prev dist start v path) : v ∈ path := by
  cases h with
  | base => simp
  | step v p c path _ _ _ _ _ => simp

theorem good_path_frame (g : List (List edge)) (prev dist prev1 dist1 : List Int)
    (start v : Nat) (path : List Nat) (h : good_path g prev dist start v path)
    (hf : ∀ y ∈ path, arr_get prev1 y = arr_get prev y ∧ arr_get dist1 y = arr_get dist y) :
    good_path g prev1 dist1 start v path := by
  induction h with
  | base => exact good_path.base
  | step v p c path hv hp hgp he hd ih =>
    have hsub : ∀ y ∈ path, arr_get prev1 y = arr_get prev y ∧
        arr_get dist1 y = arr_get dist y :=
      fun y hy => hf y (List.mem_append_left _ hy)
    have hvv := hf v (List.mem_append_right _ (List.mem_singleton_self v))
    have hpp := hsub p (good_path_mem_self g prev dist start p path hgp)
    refine good_path.step v p c path hv ?_ (ih hsub) he ?_
    · rw [hvv.1]; exact hp
    · rw [hvv.2, hpp.2]; exact hd

theorem good_path_start (g : List (List edge)) (prev dist : List Int) (start : Nat)
    (path : List Nat) (h : good_path g prev dist start start path) : path = [start] := by
  cases h with
  | base => rfl
  | step v p c path hv _ _ _ _ => exact absurd rfl hv

theorem good_path_cost (g : List (List edge)) (prev dist : List Int) (start v : Nat)
    (path : List Nat) (h : good_path g prev dist start v path)
    (h0 : arr_get dist start = 0) :
    path_cost g path (arr_get dist v) ∧ path.getLast? = some v ∧
      path.head? = some start := by
  induction h with
  | base =>
    rw [h0]
    exact ⟨path_cost.single start, rfl, rfl⟩
  | step v p c path hv hp hgp he hd ih =>
    obtain ⟨h1, h2, h3⟩ := ih
    refine ⟨?_, by simp, ?_⟩
    · rw [hd]
      exact path_cost.snoc path p v c _ h1 h2 he
    · cases path with
      | nil => simp at h3
      | cons a t => simpa using h3

theorem print_path_rec_good (g : List (List edge)) (prev dist : List Int) (start v : Nat)
    (path : List Nat) (h : good_path g prev dist start v path) :
    ∀ fuel, path.length ≤ fuel →
      print_path_rec fuel start v prev = some (path.map path_item.node) := by
  induction h with
  | base =>
    intro fuel hf
    obtain ⟨f, rfl⟩ : ∃ f, fuel = f + 1 := ⟨fuel - 1, by simp at hf; omega⟩
    simp [print_path_rec]
  | step v p c path hv hp hgp he hd ih =>
    intro fuel hf
    simp only [List.length_append, List.length_singleton] at hf
    obtain ⟨f, rfl⟩ : ∃ f, fuel = f + 1 := ⟨fuel - 1, by omega⟩
    have hne : ¬ arr_get prev v = -1 := by rw [hp]; omega
    have ht : (arr_get prev v).toNat = p := by rw [hp]; simp
    simp only [print_path_rec, if_neg hv, if_neg hne, ht, ih f (by omega)]
    simp

theorem nodup_length_le (path : List Nat) (n : Nat) (hn : path.Nodup)
    (hlt : ∀ y ∈ path, y < n) : path.length ≤ n := by
  have h1 : path.toFinset ⊆ Finset.range n := by
    intro y hy
    exact Finset.mem_range.mpr (hlt y (List.mem_toFinset.mp hy))
  have h2 := Finset.card_le_card h1
  rw [List.toFinset_card_of_nodup hn, Finset.card_range] at h2
  exact h2

/-! ## The invariant under the assumptions on the costs -/

theorem edge_cost_nonneg (g : List (List edge)) (file : List input_edge)
    (hc : costs_ok g file) (u : Nat) (e : edge) (he : e ∈ g.getD u []) : 0 ≤ e.cost := by
  obtain ⟨ie, hie, hcost, _⟩ := hc.cover u e he
  rw [← hcost]
  exact hc.nonneg ie hie

/-- The sum formed for an edge from a marked node to an unmarked node stays below the
total of the costs. -/
theorem dist_add_cost_le (g : List (List edge)) (file : List input_edge)
    (hc : costs_ok g file) (vis : List Int) (u : Nat) (e : edge) (d : Int)
    (he : e ∈ g.getD u []) (hd : d ≤ inner_cost file vis) (hv : arr_get vis e.dest = 0) :
    d + e.cost ≤ total_cost file := by
  obtain ⟨ie, hie, hcost, hends⟩ := hc.cover u e he
  have h0 : ¬ (arr_get vis ie.src ≠ 0 ∧ arr_get vis ie.dest ≠ 0) := by
    rintro ⟨h1, h2⟩
    rcases hends with ⟨_, h4⟩ | ⟨h3, _⟩
    · rw [h4] at h2; exact h2 hv
    · rw [h3] at h1; exact h1 hv
  have := inner_cost_add_le_total file vis hc.nonneg ie hie h0
  omega

theorem sinv_relax_step (g : List (List edge)) (n start : Nat) (file : List input_edge)
    (u : Nat) (V : List Int) (K : Nat) (hg : graph_ok g n) (hc : costs_ok g file)
    (e : edge) (rest : List edge) (st st1 : dstate)
    (hb : binv_relax g n start u V K (e :: rest) st)
    (h : sinv g n start file u (e :: rest) st) (hs : relax_step u e st st1) :
    sinv g n start file u rest st1 := by
  have heu : e ∈ g.getD u [] := hb.pend_sub e (List.mem_cons_self _ _)
  have hun : u < n := by
    have := lt_of_arr_get_ne_zero _ _ hb.vis_u
    rw [hb.base.len_vis] at this
    exact this
  have hdn : e.dest < n := hg.dest_lt u e heu
  have hcn : 0 ≤ e.cost := edge_cost_nonneg g file hc u e heu
  have hdu0 : 0 ≤ arr_get st.dist u := (h.dist_range u hun).1
  have hduw : arr_get st.dist u ≤ inner_cost file st.visited := h.wbound u hb.vis_u
  have htot := hc.total
  have hwt := inner_cost_le_total file st.visited hc.nonneg
  have hdufin : arr_get st.dist u < INT_MAX := by omega
  have hwalku : walk g start u (arr_get st.dist u) := h.achieved u hun hdufin
  cases hs with
  | skip hnc =>
    refine ⟨h.heap, h.dist_range, h.q_prio, h.frontier, h.parent, ?_, h.wbound, h.optimal,
      h.achieved, h.chain⟩
    intro x hx e1 he1
    rcases h.relaxed x hx e1 he1 with ⟨hxu, hmem⟩ | hr
    · rcases List.mem_cons.mp hmem with rfl | hm
      · right
        subst hxu
        by_cases hv : arr_get st.visited e1.dest = 0
        · have hle := dist_add_cost_le g file hc st.visited x e1 _ heu hduw hv
          have hw := wrap32_eq (arr_get st.dist x + e1.cost) (by omega) (by omega)
          unfold relax_cond at hnc
          rw [hw] at hnc
          by_contra hlt
          exact hnc ⟨hv, by omega, by omega⟩
        · exact h.optimal e1.dest hv _ (walk.cons x _ e1 hwalku heu)
      · exact Or.inl ⟨hxu, hm⟩
    · exact Or.inr hr
  | update q hcond hp ho =>
    obtain ⟨hv, _, hlt⟩ := hcond
    have hle := dist_add_cost_le g file hc st.visited u e _ heu hduw hv
    have hw := wrap32_eq (arr_get st.dist u + e.cost) (by omega) (by omega)
    rw [hw] at hlt hp ⊢
    have hdl : e.dest < st.dist.length := by rw [hb.base.len_dist]; exact hdn
    have hpl : e.dest < st.prev.length := by rw [hb.base.len_prev]; exact hdn
    have hnew : arr_get (arr_set st.dist e.dest (arr_get st.dist u + e.cost)) e.dest =
        arr_get st.dist u + e.cost := arr_get_set_eq _ _ _ hdl
    rw [hnew] at hp
    have hdne : ∀ y, e.dest ≠ y →
        arr_get (arr_set st.dist e.dest (arr_get st.dist u + e.cost)) y = arr_get st.dist y :=
      fun y hy => arr_get_set_ne _ _ _ _ hy
    have hpne : ∀ y, e.dest ≠ y →
        arr_get (arr_set st.prev e.dest (u : Int)) y = arr_get st.prev y :=
      fun y hy => arr_get_set_ne _ _ _ _ hy
    have hvis_ne : ∀ y, arr_get st.visited y ≠ 0 → e.dest ≠ y := by
      intro y hy hc1
      rw [← hc1] at hy
      exact hy hv
    have hdle : ∀ y,
        arr_get (arr_set st.dist e.dest (arr_get st.dist u + e.cost)) y ≤ arr_get st.dist y := by
      intro y
      by_cases hy : e.dest = y
      · subst hy; rw [hnew]; omega
      · rw [hdne y hy]
    have hu_ne : e.dest ≠ u := hvis_ne u hb.vis_u
    refine ⟨ho h.heap, ?_, ?_, ?_, ?_, ?_, ?_, ?_, ?_, ?_⟩
    · intro y hy
      by_cases hyd : e.dest = y
      · subst hyd; rw [hnew]; omega
      · rw [hdne y hyd]; exact h.dist_range y hy
    · intro x hx
      rcases List.mem_cons.mp (hp.subset hx) with rfl | hx1
      · simp only
        rw [hnew]
        exact ⟨le_refl _, by omega⟩
      · have := h.q_prio x hx1
        have := hdle x.value
        simp only
        omega
    · intro y hy hvy hfin
      simp only at hvy hfin ⊢
      by_cases hyd : e.dest = y
      · subst hyd
        rw [hnew]
        exact hp.symm.subset (List.mem_cons_self _ _)
      · rw [hdne y hyd] at hfin ⊢
        exact hp.symm.subset (List.mem_cons_of_mem _ (h.frontier y hy hvy hfin))
    · intro y hy hys hfin
      simp only at hfin ⊢
      by_cases hyd : e.dest = y
      · subst hyd
        refine ⟨u, e.cost, hb.vis_u, heu, ?_, ?_⟩
        · rw [hnew, hdne u hu_ne]
        · exact arr_get_set_eq _ _ _ hpl
      · rw [hdne y hyd] at hfin
        obtain ⟨p, c, hvp, hep, hdp, hpp⟩ := h.parent y hy hys hfin
        refine ⟨p, c, hvp, hep, ?_, ?_⟩
        · rw [hdne y hyd, hdne p (hvis_ne p hvp)]; exact hdp
        · rw [hpne y hyd]; exact hpp
    · intro x hx e1 he1
      simp only at hx ⊢
      rw [hdne x (hvis_ne x hx)]
      rcases h.relaxed x hx e1 he1 with ⟨hxu, hmem⟩ | hr
      · rcases List.mem_cons.mp hmem with rfl | hm
        · right
          subst hxu
          rw [hnew]
        · exact Or.inl ⟨hxu, hm⟩
      · right
        have := hdle e1.dest
        omega
    · intro x hx
      simp only at hx ⊢
      rw [hdne x (hvis_ne x hx)]
      exact h.wbound x hx
    · intro x hx w hw1
      simp only at hx ⊢
      rw [hdne x (hvis_ne x hx)]
      exact h.optimal x hx w hw1
    · intro y hy hfin
      simp only at hfin ⊢
      by_cases hyd : e.dest = y
      · subst hyd
        rw [hnew]
        exact walk.cons u _ e hwalku heu
      · rw [hdne y hyd] at hfin ⊢
        exact h.achieved y hy hfin
    · intro x hx
      simp only at hx ⊢
      obtain ⟨path, hgp, hnd, hall⟩ := h.chain x hx
      refine ⟨path, ?_, hnd, hall⟩
      apply good_path_frame g st.prev st.dist _ _ start x path hgp
      intro y hy
      exact ⟨hpne y (hvis_ne y (hall y hy)), hdne y (hvis_ne y (hall y hy))⟩

/-- Between two iterations of the main loop, every walk from `start` either ends in a marked
node whose `dist` is at most the cost of the walk, or passes an unmarked node whose `dist`
is finite and at most the cost of the walk. -/
theorem walk_frontier (g : List (List edge)) (n start : Nat) (file : List input_edge)
    (u : Nat) (hg : graph_ok g n) (hc : costs_ok g file) (hs : start < n) (st : dstate)
    (hb : binv g n start st) (h : sinv g n start file u [] st) (v : Nat) (w : Int)
    (hw : walk g start v w) :
    (arr_get st.visited v ≠ 0 ∧ arr_get st.dist v ≤ w) ∨
      ∃ y, y < n ∧ arr_get st.visited y = 0 ∧ arr_get st.dist y ≤ w ∧
        arr_get st.dist y < INT_MAX := by
  induction hw with
  | nil =>
    by_cases hv : arr_get st.visited start = 0
    · right
      refine ⟨start, hs, hv, ?_, ?_⟩
      · rw [hb.src_dist]
      · rw [hb.src_dist]; decide
    · left
      exact ⟨hv, by rw [hb.src_dist]⟩
  | cons v w e hw1 he ih =>
    have hcn : 0 ≤ e.cost := edge_cost_nonneg g file hc v e he
    rcases ih with ⟨hv, hd⟩ | ⟨y, hy, hvy, hdy, hfin⟩
    · have hr : arr_get st.dist e.dest ≤ arr_get st.dist v + e.cost := by
        rcases h.relaxed v hv e he with ⟨_, hm⟩ | hr
        · simp at hm
        · exact hr
      by_cases hve : arr_get st.visited e.dest = 0
      · right
        have hle := dist_add_cost_le g file hc st.visited v e _ he (h.wbound v hv) hve
        have := hc.total
        exact ⟨e.dest, hg.dest_lt v e he, hve, by omega, by omega⟩
      · left
        exact ⟨hve, by omega⟩
    · right
      exact ⟨y, hy, hvy, by omega, hfin⟩

theorem sinv_change_u (g : List (List edge)) (n start : Nat) (file : List input_edge)
    (u u1 : Nat) (st : dstate) (h : sinv g n start file u [] st) :
    sinv g n start file u1 [] st := by
  refine ⟨h.heap, h.dist_range, h.q_prio, h.frontier, h.parent, ?_, h.wbound, h.optimal,
    h.achieved, h.chain⟩
  intro x hx e he
  rcases h.relaxed x hx e he with ⟨_, hm⟩ | hr
  · simp at hm
  · exact Or.inr hr

theorem sinv_enter (g : List (List edge)) (n start : Nat) (file : List input_edge)
    (hg : graph_ok g n) (hc : costs_ok g file) (hs : start < n) (st : dstate)
    (hb : binv g n start st) (h : sinv g n start file 0 [] st) (x : pq_node Nat) (q : pq Nat)
    (hx : x ∈ st.pq.heap) (hp : st.pq.heap.Perm (x :: q.heap))
    (ho : heap_ok st.pq.heap → heap_ok q.heap ∧ ∀ y ∈ st.pq.heap, x.priority ≤ y.priority)
    (hv : arr_get st.visited x.value = 0) :
    sinv g n start file x.value (g.getD x.value [])
      ⟨st.dist, st.prev, arr_set st.visited x.value 1, q⟩ := by
  obtain ⟨hq, hmin⟩ := ho h.heap
  obtain ⟨hxn, _⟩ := hb.q_reach x hx
  obtain ⟨hxd, hxfin⟩ := h.q_prio x hx
  have hdfin : arr_get st.dist x.value < INT_MAX := by omega
  have hxin : (⟨x.value, arr_get st.dist x.value⟩ : pq_node Nat) ∈ st.pq.heap :=
    h.frontier x.value hxn hv hdfin
  have hpd : x.priority ≤ arr_get st.dist x.value := hmin _ hxin
  have hvx : arr_get (arr_set st.visited x.value 1) x.value = 1 :=
    arr_get_set_eq _ _ _ (by rw [hb.len_vis]; exact hxn)
  have hmono : ∀ v, arr_get st.visited v ≠ 0 →
      arr_get (arr_set st.visited x.value 1) v ≠ 0 := by
    intro v hv1
    by_cases hxv : x.value = v
    · subst hxv; rw [hvx]; decide
    · rw [arr_get_set_ne _ _ _ _ hxv]; exact hv1
  have hold : ∀ v, arr_get (arr_set st.visited x.value 1) v ≠ 0 → v ≠ x.value →
      arr_get st.visited v ≠ 0 := by
    intro v hv1 hne
    rw [arr_get_set_ne _ _ _ _ (Ne.symm hne)] at hv1
    exact hv1
  have hqsub : ∀ y, y ∈ q.heap → y ∈ st.pq.heap :=
    fun y hy => hp.symm.subset (List.mem_cons_of_mem _ hy)
  -- the bound on `dist` of the node that is marked
  have hwb : arr_get st.dist x.value ≤ inner_cost file (arr_set st.visited x.value 1) := by
    by_cases hxs : x.value = start
    · rw [hxs, hb.src_dist]
      exact inner_cost_nonneg file _ hc.nonneg
    · obtain ⟨p, c, hvp, hep, hdp, _⟩ := h.parent x.value hxn hxs hdfin
      obtain ⟨ie, hie, hcost, hends⟩ := hc.cover p ⟨x.value, c⟩ hep
      simp only at hcost hends
      have hpw := h.wbound p hvp
      have h0 : ¬ (arr_get st.visited ie.src ≠ 0 ∧ arr_get st.visited ie.dest ≠ 0) := by
        rintro ⟨h1, h2⟩
        rcases hends with ⟨_, h4⟩ | ⟨h3, _⟩
        · rw [h4] at h2; exact h2 hv
        · rw [h3] at h1; exact h1 hv
      have h1 : arr_get (arr_set st.visited x.value 1) ie.src ≠ 0 ∧
          arr_get (arr_set st.visited x.value 1) ie.dest ≠ 0 := by
        rcases hends with ⟨h3, h4⟩ | ⟨h3, h4⟩
        · rw [h3, h4]
          exact ⟨hmono p hvp, by rw [hvx]; decide⟩
        · rw [h3, h4]
          exact ⟨by rw [hvx]; decide, hmono p hvp⟩
      have := inner_cost_add_le file st.visited (arr_set st.visited x.value 1) hc.nonneg
        hmono ie hie h0 h1
      omega
  refine ⟨hq, h.dist_range, fun y hy => h.q_prio y (hqsub y hy), ?_, ?_, ?_, ?_, ?_,
    h.achieved, ?_⟩
  · -- frontier
    intro y hy hvy hfin
    simp only at hvy hfin ⊢
    have hyx : y ≠ x.value := by
      intro hc1; rw [hc1, hvx] at hvy; exact absurd hvy (by decide)
    rw [arr_get_set_ne _ _ _ _ (Ne.symm hyx)] at hvy
    have hin := h.frontier y hy hvy hfin
    rcases List.mem_cons.mp (hp.subset hin) with heq | hin1
    · exact absurd (congrArg pq_node.value heq) hyx
    · exact hin1
  · -- parent
    intro y hy hys hfin
    obtain ⟨p, c, hvp, hep, hdp, hpp⟩ := h.parent y hy hys hfin
    exact ⟨p, c, hmono p hvp, hep, hdp, hpp⟩
  · -- relaxed
    intro y hy e he
    simp only at hy ⊢
    by_cases hyx : y = x.value
    · left
      exact ⟨hyx, hyx ▸ he⟩
    · right
      rcases h.relaxed y (hold y hy hyx) e he with ⟨_, hm⟩ | hr
      · simp at hm
      · exact hr
  · -- wbound
    intro y hy
    simp only at hy ⊢
    by_cases hyx : y = x.value
    · rw [hyx]; exact hwb
    · have := h.wbound y (hold y hy hyx)
      have := inner_cost_mono file st.visited (arr_set st.visited x.value 1) hc.nonneg hmono
      omega
  · -- optimal
    intro y hy w hw
    simp only at hy ⊢
    by_cases hyx : y = x.value
    · subst hyx
      rcases walk_frontier g n start file 0 hg hc hs st hb h x.value w hw with
        ⟨hvv, _⟩ | ⟨z, hz, hvz, hdz, hzfin⟩
      · exact absurd hv hvv
      · have := hmin _ (h.frontier z hz hvz hzfin)
        simp only at this
        omega
    · exact h.optimal y (hold y hy hyx) w hw
  · -- chain
    intro y hy
    simp only at hy ⊢
    by_cases hyx : y = x.value
    · by_cases hxs : x.value = start
      · refine ⟨[start], ?_, by simp, ?_⟩
        · rw [hyx, hxs]; exact good_path.base
        · intro z hz
          have : z = start := by simpa using hz
          rw [this, ← hxs, hvx]; decide
      · obtain ⟨p, c, hvp, hep, hdp, hpp⟩ := h.parent x.value hxn hxs hdfin
        obtain ⟨path, hgp, hnd, hall⟩ := h.chain p hvp
        refine ⟨path ++ [x.value], ?_, ?_, ?_⟩
        · rw [hyx]
          exact good_path.step x.value p c path hxs hpp hgp hep hdp
        · refine List.Nodup.append hnd (List.nodup_singleton _) ?_
          intro z hz1 hz2
          have : z = x.value := by simpa using hz2
          rw [this] at hz1
          exact hall _ hz1 hv
        · intro z hz
          rcases List.mem_append.mp hz with hz1 | hz2
          · exact hmono z (hall z hz1)
          · have : z = x.value := by simpa using hz2
            rw [this, hvx]; decide
    · obtain ⟨path, hgp, hnd, hall⟩ := h.chain y (hold y hy hyx)
      exact ⟨path, hgp, hnd, fun z hz => hmono z (hall z hz)⟩

theorem sinv_loop_step (g : List (List edge)) (n start : Nat) (file : List input_edge)
    (hg : graph_ok g n) (hc : costs_ok g file) (hs : start < n) (st st1 : dstate)
    (hb : binv g n start st) (h : sinv g n start file 0 [] st) (hstep : loop_step g st st1) :
    sinv g n start file 0 [] st1 := by
  cases hstep with
  | skip x q hx hp ho hv =>
    obtain ⟨hq, _⟩ := ho h.heap
    have hqsub : ∀ y, y ∈ q.heap → y ∈ st.pq.heap :=
      fun y hy => hp.symm.subset (List.mem_cons_of_mem _ hy)
    refine ⟨hq, h.dist_range, fun y hy => h.q_prio y (hqsub y hy), ?_, h.parent, h.relaxed,
      h.wbound, h.optimal, h.achieved, h.chain⟩
    intro y hy hvy hfin
    have hin := h.frontier y hy hvy hfin
    rcases List.mem_cons.mp (hp.subset hin) with heq | hin1
    · have : x.value = y := by rw [← heq]
      rw [this] at hv
      exact absurd hvy hv
    · exact hin1
  | relax x q st2 hx hp ho hv he =>
    have h0 := sinv_enter g n start file hg hc hs st hb h x q hx hp ho hv
    have hb0 := binv_relax_enter g n start st hb x q hx hp
    obtain ⟨st3, e3, _, h3⟩ := relax_edges_rule x.value
      (fun pend s => binv_relax g n start x.value (arr_set st.visited x.value 1)
          (q.heap.length + (g.getD x.value []).length) pend s ∧
        sinv g n start file x.value pend s)
      (fun e rest s s1 hP hs1 =>
        ⟨binv_relax_step g n start x.value _ _ hg e rest s s1 hP.1 hs1,
          sinv_relax_step g n start file x.value _ _ hg hc e rest s s1 hP.1 hP.2 hs1⟩)
      _ _ ⟨hb0, h0⟩
    rw [he] at e3
    cases e3
    exact sinv_change_u g n start file x.value 0 _ h3

theorem heap_ok_singleton {α : Type} (x : pq_node α) : heap_ok [x] := by
  intro i j hij a b _ hb
  have := getElem?_some_lt hb
  simp only [List.length_singleton] at this
  unfold is_child at hij
  omega

theorem sinv_init (g : List (List edge)) (n start : Nat) (file : List input_edge)
    (hs : start < n) : sinv g n start file 0 [] (dijkstra_init n start) := by
  have hd0 : arr_get (dijkstra_init n start).dist start = 0 := by
    simp only [dijkstra_init]
    exact arr_get_set_eq _ _ _ (by simpa using hs)
  have hdne : ∀ y, y < n → y ≠ start → arr_get (dijkstra_init n start).dist y = INT_MAX := by
    intro y hy hne
    simp only [dijkstra_init]
    rw [arr_get_set_ne _ _ _ _ (Ne.symm hne), arr_get_replicate n y _ hy]
  have hvis : ∀ y, arr_get (dijkstra_init n start).visited y = 0 := by
    intro y
    simp only [dijkstra_init]
    exact arr_get_replicate_zero n y
  refine ⟨?_, ?_, ?_, ?_, ?_, ?_, ?_, ?_, ?_, ?_⟩
  · exact heap_ok_singleton _
  · intro y hy
    by_cases hys : y = start
    · rw [hys, hd0]; decide
    · rw [hdne y hy hys]; decide
  · intro x hx
    have hx1 : x = ⟨start, 0⟩ := by simpa [dijkstra_init] using hx
    subst hx1
    simp only
    rw [hd0]
    decide
  · intro y hy _ hfin
    by_cases hys : y = start
    · rw [hys, hd0]
      simp [dijkstra_init]
    · rw [hdne y hy hys] at hfin
      exact absurd hfin (lt_irrefl _)
  · intro y hy hys hfin
    rw [hdne y hy hys] at hfin
    exact absurd hfin (lt_irrefl _)
  · intro x hx
    exact absurd (hvis x) hx
  · intro x hx
    exact absurd (hvis x) hx
  · intro x hx
    exact absurd (hvis x) hx
  · intro y hy hfin
    by_cases hys : y = start
    · rw [hys, hd0]
      exact walk.nil
    · rw [hdne y hy hys] at hfin
      exact absurd hfin (lt_irrefl _)
  · intro x hx
    exact absurd (hvis x) hx

/-! ## The claims on shortest paths -/

theorem read_graph_ok (file : List input_edge) (n : Nat) (g : List (List edge))
    (hret : read_graph file n = outcome.returns g)
    (hrange : ∀ ie ∈ file, ie.src < n ∧ ie.dest < n) : graph_ok g n := by
  have hlen := read_graph_length file n g hret
  refine ⟨hlen, ?_⟩
  intro l hl e he
  obtain ⟨u, hu, rfl⟩ := List.getElem_of_mem hl
  have he1 : (⟨e.dest, e.cost⟩ : edge) ∈ g.getD u [] := by
    rw [List.getD_eq_getElem?_getD, List.getElem?_eq_getElem hu]
    exact he
  rcases (read_graph_mem file n g hret u e.dest e.cost).mp he1 with h1 | h1
  · exact (hrange _ h1).2
  · exact (hrange _ h1).1

theorem read_graph_costs_ok (file : List input_edge) (n : Nat) (g : List (List edge))
    (hret : read_graph file n = outcome.returns g)
    (hnonneg : ∀ ie ∈ file, 0 ≤ ie.cost) (hsum : total_cost file < INT_MAX) :
    costs_ok g file := by
  refine ⟨hnonneg, hsum, ?_⟩
  intro u e he
  rcases (read_graph_mem file n g hret u e.dest e.cost).mp he with h1 | h1
  · exact ⟨_, h1, rfl, Or.inl ⟨rfl, rfl⟩⟩
  · exact ⟨_, h1, rfl, Or.inr ⟨rfl, rfl⟩⟩

/-- With non-negative costs that sum to less than `INT_MAX`, `dijkstra` returns from a state
in which the queue is empty and both invariants hold. -/
theorem dijkstra_final (g : List (List edge)) (n start : Nat) (file : List input_edge)
    (hg : graph_ok g n) (hc : costs_ok g file) (hs : start < n) :
    ∃ st, dijkstra g n start = some (st.dist, st.prev) ∧ binv g n start st ∧
      sinv g n start file 0 [] st ∧ st.pq.heap = [] :=
  dijkstra_run_rule g n start hg hs (sinv g n start file 0 []) (sinv_init g n start file hs)
    (fun st st1 hb h hstep => sinv_loop_step g n start file hg hc hs st st1 hb h hstep)

/-- When `dijkstra` has returned, every node that a walk from `start` reaches is marked and
its `dist` is at most the cost of the walk. -/
theorem final_reached (g : List (List edge)) (n start : Nat) (file : List input_edge)
    (hg : graph_ok g n) (hc : costs_ok g file) (hs : start < n) (st : dstate)
    (hb : binv g n start st) (h : sinv g n start file 0 [] st) (hq : st.pq.heap = [])
    (v : Nat) (w : Int) (hw : walk g start v w) :
    arr_get st.visited v ≠ 0 ∧ arr_get st.dist v ≤ w ∧ v < n ∧
      arr_get st.dist v < INT_MAX := by
  rcases walk_frontier g n start file 0 hg hc hs st hb h v w hw with
    ⟨hv, hd⟩ | ⟨y, hy, hvy, _, hfin⟩
  · have hvn : v < n := by
      have := lt_of_arr_get_ne_zero _ _ hv
      rw [hb.len_vis] at this
      exact this
    have h1 := h.wbound v hv
    have h2 := inner_cost_le_total file st.visited hc.nonneg
    have h3 := hc.total
    exact ⟨hv, hd, hvn, by omega⟩
  · have := h.frontier y hy hvy hfin
    rw [hq] at this
    simp at this

/-- C1 (optimality of `dijkstra`): for every list of input lines whose endpoints are below
`n` and whose costs are non-negative and sum to less than `INT_MAX`, and every `start`
below `n`, `read_graph` returns a graph and `dijkstra` returns on it, and for every node `v`
that a walk from `start` reaches, `dist[v]` is the cost of a walk from `start` to `v` and
is at most the cost of every walk from `start` to `v`. -/
theorem C1_optimality (n : Nat) (file : List input_edge) (start : Nat)
    (hrange : ∀ ie ∈ file, ie.src < n ∧ ie.dest < n)
    (hnonneg : ∀ ie ∈ file, 0 ≤ ie.cost) (hsum : total_cost file < INT_MAX)
    (hs : start < n) :
    ∃ g dist prev, read_graph file n = outcome.returns g ∧
      dijkstra g n start = some (dist, prev) ∧
      ∀ v w, walk g start v w →
        walk g start v (arr_get dist v) ∧
        ∀ w1, walk g start v w1 → arr_get dist v ≤ w1 := by
  obtain ⟨g, hret⟩ := read_graph_returns file n hrange
  have hg := read_graph_ok file n g hret hrange
  have hc := read_graph_costs_ok file n g hret hnonneg hsum
  obtain ⟨st, e, hb, h, hq⟩ := dijkstra_final _ n start file hg hc hs
  refine ⟨g, st.dist, st.prev, hret, e, ?_⟩
  intro v w hw
  obtain ⟨_, _, hvn, hfin⟩ := final_reached _ n start file hg hc hs st hb h hq v w hw
  refine ⟨h.achieved v hvn hfin, ?_⟩
  intro w1 hw1
  exact (final_reached _ n start file hg hc hs st hb h hq v w1 hw1).2.1

theorem C1_optimality_witness :
    (∀ ie ∈ ([⟨0, 1, 4⟩, ⟨0, 2, 1⟩, ⟨2, 1, 1⟩, ⟨1, 3, 1⟩] : List input_edge),
      ie.src < 4 ∧ ie.dest < 4) ∧
    (∀ ie ∈ ([⟨0, 1, 4⟩, ⟨0, 2, 1⟩, ⟨2, 1, 1⟩, ⟨1, 3, 1⟩] : List input_edge), 0 ≤ ie.cost) ∧
    total_cost [⟨0, 1, 4⟩, ⟨0, 2, 1⟩, ⟨2, 1, 1⟩, ⟨1, 3, 1⟩] < INT_MAX ∧ 0 < 4 ∧
    ∃ g dist prev,
      read_graph [⟨0, 1, 4⟩, ⟨0, 2, 1⟩, ⟨2, 1, 1⟩, ⟨1, 3, 1⟩] 4 = outcome.returns g ∧
      dijkstra g 4 0 = some (dist, prev) ∧
      ∀ v w, walk g 0 v w →
        walk g 0 v (arr_get dist v) ∧
        ∀ w1, walk g 0 v w1 → arr_get dist v ≤ w1 :=
  ⟨by decide, by decide, by decide, by decide,
    C1_optimality 4 [⟨0, 1, 4⟩, ⟨0, 2, 1⟩, ⟨2, 1, 1⟩, ⟨1, 3, 1⟩] 0 (by decide) (by decide)
      (by decide) (by decide)⟩

/-- C3 (path reconstruction): for every list of input lines whose endpoints are below `n`
and whose costs are non-negative and sum to less than `INT_MAX`, and every `start` below
`n`, `read_graph` returns a graph and `dijkstra` returns on it, and for every node `v` that a walk
from `start` reaches `print_path` writes a sequence of nodes that begins with `start`, ends
with `v`, repeats no node, follows between consecutive nodes edge records of the graph
whose costs sum to `dist[v]`, which no walk from `start` to `v` undercuts; when `v` is
`start` the sequence is just `start`. -/
theorem C3_path_reconstruction (n : Nat) (file : List input_edge) (start : Nat)
    (hrange : ∀ ie ∈ file, ie.src < n ∧ ie.dest < n)
    (hnonneg : ∀ ie ∈ file, 0 ≤ ie.cost) (hsum : total_cost file < INT_MAX)
    (hs : start < n) :
    ∃ g dist prev, read_graph file n = outcome.returns g ∧
      dijkstra g n start = some (dist, prev) ∧
      ∀ v w, walk g start v w →
        ∃ path : List Nat,
          print_path start v prev = some (path.map path_item.node) ∧
          path.head? = some start ∧ path.getLast? = some v ∧ path.Nodup ∧
          path_cost g path (arr_get dist v) ∧
          arr_get dist v ≤ w ∧ (v = start → path = [start]) := by
  obtain ⟨g, hret⟩ := read_graph_returns file n hrange
  have hg := read_graph_ok file n g hret hrange
  have hc := read_graph_costs_ok file n g hret hnonneg hsum
  obtain ⟨st, e, hb, h, hq⟩ := dijkstra_final _ n start file hg hc hs
  refine ⟨g, st.dist, st.prev, hret, e, ?_⟩
  intro v w hw
  obtain ⟨hv, hd, _, _⟩ := final_reached _ n start file hg hc hs st hb h hq v w hw
  obtain ⟨path, hgp, hnd, hall⟩ := h.chain v hv
  obtain ⟨h1, h2, h3⟩ := good_path_cost _ _ _ start v path hgp hb.src_dist
  have hlen : path.length ≤ st.prev.length := by
    rw [hb.len_prev]
    apply nodup_length_le path n hnd
    intro y hy
    have := lt_of_arr_get_ne_zero _ _ (hall y hy)
    rw [hb.len_vis] at this
    exact this
  refine ⟨path, ?_, h3, h2, hnd, h1, hd, ?_⟩
  · unfold print_path
    exact print_path_rec_good _ _ _ start v path hgp _ (by omega)
  · intro hvs
    subst hvs
    exact good_path_start _ _ _ v path hgp

theorem C3_path_reconstruction_witness :
    (∀ ie ∈ ([⟨0, 1, 7⟩, ⟨1, 2, 0⟩, ⟨0, 2, 3⟩, ⟨2, 2, 1⟩] : List input_edge),
      ie.src < 4 ∧ ie.dest < 4) ∧
    (∀ ie ∈ ([⟨0, 1, 7⟩, ⟨1, 2, 0⟩, ⟨0, 2, 3⟩, ⟨2, 2, 1⟩] : List input_edge), 0 ≤ ie.cost) ∧
    total_cost [⟨0, 1, 7⟩, ⟨1, 2, 0⟩, ⟨0, 2, 3⟩, ⟨2, 2, 1⟩] < INT_MAX ∧ 0 < 4 ∧
    ∃ g dist prev,
      read_graph [⟨0, 1, 7⟩, ⟨1, 2, 0⟩, ⟨0, 2, 3⟩, ⟨2, 2, 1⟩] 4 = outcome.returns g ∧
      dijkstra g 4 0 = some (dist, prev) ∧
      ∀ v w, walk g 0 v w →
        ∃ path : List Nat,
          print_path 0 v prev = some (path.map path_item.node) ∧
          path.head? = some 0 ∧ path.getLast? = some v ∧ path.Nodup ∧
          path_cost g path (arr_get dist v) ∧
          arr_get dist v ≤ w ∧ (v = 0 → path = [0]) :=
  ⟨by decide, by decide, by decide, by decide,
    C3_path_reconstruction 4 [⟨0, 1, 7⟩, ⟨1, 2, 0⟩, ⟨0, 2, 3⟩, ⟨2, 2, 1⟩] 0 (by decide)
      (by decide) (by decide) (by decide)⟩

/-! ## The claims on the scenario and on the order and range of the edges -/

/-- C11 (worked scenario): for 4 nodes and the lines `0 1 4`, `0 2 1`, `2 1 1`, `1 3 1`,
`read_graph` returns the graph shown, `dijkstra` on it from start 0 gives
`dist = [0, 2, 1, 3]`, and with the `prev` it gives `print_path` writes the path 0, 2, 1, 3
to node 3. -/
theorem C11_worked_scenario :
    read_graph [⟨0, 1, 4⟩, ⟨0, 2, 1⟩, ⟨2, 1, 1⟩, ⟨1, 3, 1⟩] 4 =
      outcome.returns
        [[⟨2, 1⟩, ⟨1, 4⟩], [⟨3, 1⟩, ⟨2, 1⟩, ⟨0, 4⟩], [⟨1, 1⟩, ⟨0, 1⟩], [⟨1, 1⟩]] ∧
    dijkstra [[⟨2, 1⟩, ⟨1, 4⟩], [⟨3, 1⟩, ⟨2, 1⟩, ⟨0, 4⟩], [⟨1, 1⟩, ⟨0, 1⟩], [⟨1, 1⟩]] 4 0 =
      some ([0, 2, 1, 3], [-1, 2, 0, 1]) ∧
    print_path 0 3 [-1, 2, 0, 1] =
      some [path_item.node 0, path_item.node 2, path_item.node 1, path_item.node 3] := by
  decide

/-- C12, counterexample: with 2 nodes and the single line `0 5 1`, whose destination 5 is
outside the range, the first call of `add_edge` returns with the record `(5, 1)` stored in
the list of node 0: the endpoint is accepted untested.  The second call, with source 5,
reaches `graph[5]` outside the array of 2 lists, so `read_graph` ends in an access for
which C defines no behaviour, and gives no error to its caller. -/
theorem C12_out_of_range_accepted :
    ¬ (5 < 2) ∧
    add_edge [[], []] 0 5 1 = outcome.returns [[⟨5, 1⟩], []] ∧
    add_edge [[⟨5, 1⟩], []] 5 0 1 = outcome.undefined ∧
    read_graph [⟨0, 5, 1⟩] 2 = outcome.undefined := by
  decide

/-- C12, amended: `read_graph` and `add_edge` make no range check and have no error result.
When every endpoint is below `n_nodes`, `read_graph` returns a graph of `n_nodes` lists in
which every input line `u v c` has put the record `(v, c)` in the list of `u` and `(u, c)`
in the list of `v`, and every record of a list comes from a line: no line is ignored.
`add_edge` with `src` inside the array stores the `dest` it is given, whatever it is. -/
theorem C12_build_in_range (file : List input_edge) (n : Nat)
    (h : ∀ e ∈ file, e.src < n ∧ e.dest < n) :
    (∃ g, read_graph file n = outcome.returns g ∧ g.length = n ∧
      (∀ e ∈ file,
        (⟨e.dest, e.cost⟩ : edge) ∈ g.getD e.src [] ∧
        (⟨e.src, e.cost⟩ : edge) ∈ g.getD e.dest []) ∧
      (∀ (u v : Nat) (c : Int), (⟨v, c⟩ : edge) ∈ g.getD u [] →
        (⟨u, v, c⟩ : input_edge) ∈ file ∨ (⟨v, u, c⟩ : input_edge) ∈ file)) ∧
    (∀ (g0 : List (List edge)) (src dest : Nat) (cost : Int), src < g0.length →
      ∃ g1, add_edge g0 src dest cost = outcome.returns g1 ∧
        g1.getD src [] = ⟨dest, cost⟩ :: g0.getD src []) := by
  constructor
  · obtain ⟨g, hg⟩ := read_graph_returns file n h
    refine ⟨g, hg, read_graph_length file n g hg, ?_, ?_⟩
    · intro e he
      exact ⟨(read_graph_mem file n g hg e.src e.dest e.cost).mpr (Or.inl he),
        (read_graph_mem file n g hg e.dest e.src e.cost).mpr (Or.inr he)⟩
    · intro u v c hm
      exact (read_graph_mem file n g hg u v c).mp hm
  · intro g0 src dest cost hsrc
    have h1 := add_edge_returns g0 src dest cost hsrc
    refine ⟨_, h1, ?_⟩
    rw [add_edge_getD g0 _ src dest cost h1 src, if_pos rfl]

theorem C12_build_in_range_witness :
    (∀ e ∈ ([⟨0, 1, 3⟩, ⟨1, 1, 2⟩] : List input_edge), e.src < 2 ∧ e.dest < 2) ∧
    ((∃ g, read_graph [⟨0, 1, 3⟩, ⟨1, 1, 2⟩] 2 = outcome.returns g ∧ g.length = 2 ∧
      (∀ e ∈ ([⟨0, 1, 3⟩, ⟨1, 1, 2⟩] : List input_edge),
        (⟨e.dest, e.cost⟩ : edge) ∈ g.getD e.src [] ∧
        (⟨e.src, e.cost⟩ : edge) ∈ g.getD e.dest []) ∧
      (∀ (u v : Nat) (c : Int), (⟨v, c⟩ : edge) ∈ g.getD u [] →
        (⟨u, v, c⟩ : input_edge) ∈ ([⟨0, 1, 3⟩, ⟨1, 1, 2⟩] : List input_edge) ∨
        (⟨v, u, c⟩ : input_edge) ∈ ([⟨0, 1, 3⟩, ⟨1, 1, 2⟩] : List input_edge))) ∧
    (∀ (g0 : List (List edge)) (src dest : Nat) (cost : Int), src < g0.length →
      ∃ g1, add_edge g0 src dest cost = outcome.returns g1 ∧
        g1.getD src [] = ⟨dest, cost⟩ :: g0.getD src [])) :=
  ⟨by decide, C12_build_in_range [⟨0, 1, 3⟩, ⟨1, 1, 2⟩] 2 (by decide)⟩

theorem read_edges_getD (file : List input_edge) :
    ∀ (g g3 : List (List edge)) (u : Nat), read_edges file g = outcome.returns g3 →
      g3.getD u [] = (records_of u file).reverse ++ g.getD u [] := by
  induction file with
  | nil =>
    intro g g3 u h
    simp only [read_edges] at h
    rw [← outcome.returns.inj h]
    simp [records_of]
  | cons ie rest ih =>
    intro g g3 u h
    obtain ⟨g1, g2, h1, h2, h3⟩ := read_edges_cons ie rest g g3 h
    rw [ih g2 g3 u h3, add_edge_getD g1 g2 _ _ _ h2, add_edge_getD g g1 _ _ _ h1]
    simp only [records_of]
    by_cases h1 : u = ie.src <;> by_cases h2 : u = ie.dest
    · simp [← h1, ← h2]
    · have h2a : ¬ ie.dest = u := fun hc => h2 hc.symm
      simp [← h1, h2, h2a]
    · have h1a : ¬ ie.src = u := fun hc => h1 hc.symm
      simp [← h2, h1, h1a]
    · have h1a : ¬ ie.src = u := fun hc => h1 hc.symm
      have h2a : ¬ ie.dest = u := fun hc => h2 hc.symm
      simp [h1, h2, h1a, h2a]

/-- The list of a node in the graph that `read_graph` returns: its records in the reverse
of the order of the lines. -/
theorem read_graph_getD (file : List input_edge) (n : Nat) (g : List (List edge))
    (h : read_graph file n = outcome.returns g) (u : Nat) :
    g.getD u [] = (records_of u file).reverse := by
  unfold read_graph at h
  rw [read_edges_getD file _ g u h]
  simp [List.getD_eq_getElem?_getD, List.getElem?_replicate]
  split <;> simp

theorem read_edges_append (file : List input_edge) (e : input_edge) :
    ∀ g g0 g1 g2 : List (List edge), read_edges file g = outcome.returns g0 →
      add_edge g0 e.src e.dest e.cost = outcome.returns g1 →
      add_edge g1 e.dest e.src e.cost = outcome.returns g2 →
      read_edges (file ++ [e]) g = outcome.returns g2 := by
  induction file with
  | nil =>
    intro g g0 g1 g2 h0 h1 h2
    simp only [read_edges] at h0
    rw [← outcome.returns.inj h0] at h1
    simp only [List.nil_append, read_edges]
    rw [h1]
    simp only
    rw [h2]
  | cons x rest ih =>
    intro g g0 g1 g2 h0 h1 h2
    obtain ⟨a1, a2, k1, k2, k3⟩ := read_edges_cons x rest g g0 h0
    simp only [List.cons_append, read_edges]
    rw [k1]
    simp only
    rw [k2]
    exact ih a2 g0 g1 g2 k3 h1 h2

/-- C18, counterexample: with 3 nodes and the lines `0 1 4` and `0 2 1` in this order, all
endpoints in range, the list of node 0 in the graph that `read_graph` returns is
`(2, 1), (1, 4)`, the reverse of the order in which the edges were given. -/
theorem C18_order_reversed :
    (∀ e ∈ ([⟨0, 1, 4⟩, ⟨0, 2, 1⟩] : List input_edge), e.src < 3 ∧ e.dest < 3) ∧
    records_of 0 [⟨0, 1, 4⟩, ⟨0, 2, 1⟩] = [⟨1, 4⟩, ⟨2, 1⟩] ∧
    read_graph [⟨0, 1, 4⟩, ⟨0, 2, 1⟩] 3 =
      outcome.returns [[⟨2, 1⟩, ⟨1, 4⟩], [⟨0, 4⟩], [⟨0, 1⟩]] ∧
    ([[⟨2, 1⟩, ⟨1, 4⟩], [⟨0, 4⟩], [⟨0, 1⟩]] : List (List edge)).getD 0 [] ≠
      records_of 0 [⟨0, 1, 4⟩, ⟨0, 2, 1⟩] := by
  decide

/-- C18, amended: `add_edge` with `src` inside the array puts the record `(dest, cost)` at
the head of the list of `src` and leaves the lists of all other nodes unchanged.  For input
lines whose endpoints are all below `n_nodes`, `read_graph` returns, having called
`add_edge` for `(src, dest, cost)` and then for `(dest, src, cost)` for each line in input
order, so that the list of each node holds its records in the reverse of the order in
which the edges were given. -/
theorem C18_neighbor_order (g : List (List edge)) (src dest : Nat) (cost : Int)
    (file : List input_edge) (n u : Nat) (hsrc : src < g.length)
    (hrange : ∀ e ∈ file, e.src < n ∧ e.dest < n) (hs : src < n) (hd : dest < n) :
    (∃ g1, add_edge g src dest cost = outcome.returns g1 ∧
      g1.getD src [] = ⟨dest, cost⟩ :: g.getD src [] ∧
      ∀ w, w ≠ src → g1.getD w [] = g.getD w []) ∧
    (∃ g0 g1 g2, read_graph file n = outcome.returns g0 ∧
      add_edge g0 src dest cost = outcome.returns g1 ∧
      add_edge g1 dest src cost = outcome.returns g2 ∧
      read_graph (file ++ [⟨src, dest, cost⟩]) n = outcome.returns g2 ∧
      g0.getD u [] = (records_of u file).reverse ∧
      g2.getD u [] = (records_of u (file ++ [⟨src, dest, cost⟩])).reverse) := by
  constructor
  · have h1 := add_edge_returns g src dest cost hsrc
    refine ⟨_, h1, ?_, ?_⟩
    · rw [add_edge_getD g _ src dest cost h1 src, if_pos rfl]
    · intro w hw
      rw [add_edge_getD g _ src dest cost h1 w, if_neg hw]
  · obtain ⟨g0, h0⟩ := read_graph_returns file n hrange
    have hl0 := read_graph_length file n g0 h0
    have h1 := add_edge_returns g0 src dest cost (by rw [hl0]; exact hs)
    have hl1 := add_edge_length g0 _ _ _ _ h1
    have h2 := add_edge_returns (g0.set src (⟨dest, cost⟩ :: g0.getD src [])) dest src cost
      (by rw [hl1, hl0]; exact hd)
    have h3 : read_graph (file ++ [⟨src, dest, cost⟩]) n = outcome.returns _ :=
      read_edges_append file ⟨src, dest, cost⟩ _ g0 _ _ h0 h1 h2
    exact ⟨g0, _, _, h0, h1, h2, h3, read_graph_getD file n g0 h0 u,
      read_graph_getD _ n _ h3 u⟩

theorem C18_neighbor_order_witness :
    0 < ([[⟨1, 2⟩], []] : List (List edge)).length ∧
    (∀ e ∈ ([⟨0, 1, 4⟩, ⟨1, 2, 1⟩] : List input_edge), e.src < 3 ∧ e.dest < 3) ∧
    0 < 3 ∧ 1 < 3 ∧
    ((∃ g1, add_edge [[⟨1, 2⟩], []] 0 1 7 = outcome.returns g1 ∧
      g1.getD 0 [] = ⟨1, 7⟩ :: ([[⟨1, 2⟩], []] : List (List edge)).getD 0 [] ∧
      ∀ w, w ≠ 0 → g1.getD w [] = ([[⟨1, 2⟩], []] : List (List edge)).getD w []) ∧
    (∃ g0 g1 g2, read_graph [⟨0, 1, 4⟩, ⟨1, 2, 1⟩] 3 = outcome.returns g0 ∧
      add_edge g0 0 1 7 = outcome.returns g1 ∧
      add_edge g1 1 0 7 = outcome.returns g2 ∧
      read_graph ([⟨0, 1, 4⟩, ⟨1, 2, 1⟩] ++ [⟨0, 1, 7⟩]) 3 = outcome.returns g2 ∧
      g0.getD 1 [] = (records_of 1 [⟨0, 1, 4⟩, ⟨1, 2, 1⟩]).reverse ∧
      g2.getD 1 [] = (records_of 1 ([⟨0, 1, 4⟩, ⟨1, 2, 1⟩] ++ [⟨0, 1, 7⟩])).reverse)) :=
  ⟨by decide, by decide, by decide, by decide,
    C18_neighbor_order [[⟨1, 2⟩], []] 0 1 7 [⟨0, 1, 4⟩, ⟨1, 2, 1⟩] 3 1 (by decide)
      (by decide) (by decide) (by decide)⟩

/-! ## The heap invariant and the termination of the loops -/

theorem min_heap_iff {α : Type} (q : pq α) : min_heap q ↔ heap_ok q.heap := by
  constructor
  · intro h i j hij a b ha hb
    have hj : 0 < j := by unfold is_child at hij; omega
    have hi : (j - 1) / 2 = i := by unfold is_child at hij; omega
    exact h j hj a b (by rw [hi]; exact ha) hb
  · intro h i hi p c hp hc
    exact h ((i - 1) / 2) i (by unfold is_child; omega) p c hp hc

/-- C13 (min-heap invariant): the invariant "for every index `i > 0` of the backing array
the priority at `(i - 1) / 2` is at most the priority at `i`" holds for the queue of
`pq_create`, and for every queue that satisfies it, `pq_insert` of any value with any
priority returns a queue that satisfies it and, if the queue is not empty,
`pq_remove_first` returns a queue that satisfies it. -/
theorem C13_min_heap_invariant {α : Type} (q : pq α) (v : α) (p : Int) (h : min_heap q) :
    min_heap (pq_create : pq α) ∧
    (∃ q1, pq_insert q v p = some q1 ∧ min_heap q1) ∧
    (dynarray_size q.heap ≠ 0 → ∃ x q1, pq_remove_first q = some (x, q1) ∧ min_heap q1) := by
  refine ⟨?_, ?_, ?_⟩
  · rw [min_heap_iff]
    exact heap_ok_nil
  · obtain ⟨q1, e1, _, o1⟩ := pq_insert_spec q v p
    exact ⟨q1, e1, (min_heap_iff q1).mpr (o1 ((min_heap_iff q).mp h))⟩
  · intro hne
    have hne1 : q.heap ≠ [] := fun hc => hne (by simp [dynarray_size, hc])
    obtain ⟨e, q1, e1, _, _, o1⟩ := pq_remove_first_spec q hne1
    exact ⟨e.value, q1, e1, (min_heap_iff q1).mpr (o1 ((min_heap_iff q).mp h)).1⟩

theorem C13_min_heap_invariant_witness :
    min_heap (⟨[⟨7, 1⟩, ⟨8, 5⟩, ⟨9, 3⟩]⟩ : pq Nat) ∧
    (min_heap (pq_create : pq Nat) ∧
    (∃ q1, pq_insert (⟨[⟨7, 1⟩, ⟨8, 5⟩, ⟨9, 3⟩]⟩ : pq Nat) 4 0 = some q1 ∧ min_heap q1) ∧
    (dynarray_size (⟨[⟨7, 1⟩, ⟨8, 5⟩, ⟨9, 3⟩]⟩ : pq Nat).heap ≠ 0 →
      ∃ x q1, pq_remove_first (⟨[⟨7, 1⟩, ⟨8, 5⟩, ⟨9, 3⟩]⟩ : pq Nat) = some (x, q1) ∧
        min_heap q1)) :=
  have h : min_heap (⟨[⟨7, 1⟩, ⟨8, 5⟩, ⟨9, 3⟩]⟩ : pq Nat) := by
    intro i hi p c hp hc
    have hlt := getElem?_some_lt hc
    simp only [List.length_cons, List.length_nil] at hlt
    have hi2 : i = 1 ∨ i = 2 := by omega
    rcases hi2 with rfl | rfl
    · simp [dynarray_get] at hp hc
      subst hp; subst hc; decide
    · simp [dynarray_get] at hp hc
      subst hp; subst hc; decide
  ⟨h, C13_min_heap_invariant _ 4 0 h⟩

theorem bubble_up_loop_fuel {α : Type} (fuel1 : Nat) :
    ∀ (fuel2 : Nat) (q : pq α) (index : Nat), index < fuel1 → index < fuel2 →
      bubble_up_loop fuel1 q index = bubble_up_loop fuel2 q index := by
  induction fuel1 with
  | zero => intro fuel2 q index h; omega
  | succ f1 ih =>
    intro fuel2 q index h1 h2
    obtain ⟨f2, rfl⟩ : ∃ f2, fuel2 = f2 + 1 := ⟨fuel2 - 1, by omega⟩
    simp only [bubble_up_loop]
    by_cases hpos : index > 0
    · simp only [if_pos hpos]
      rcases hc : dynarray_get q.heap index with _ | cur
      · rfl
      · rcases hp : dynarray_get q.heap ((index - 1) / 2) with _ | par
        · rfl
        · simp only
          by_cases hle : par.priority ≤ cur.priority
          · simp only [if_pos hle]
          · simp only [if_neg hle]
            exact ih f2 _ _ (by omega) (by omega)
    · simp only [if_neg hpos]

theorem pick_smaller_cases {α : Type} (l : List (pq_node α)) (child smallest r : Nat)
    (h : pick_smaller l child smallest = some r) :
    r = smallest ∨ (r = child ∧ child < l.length) := by
  unfold pick_smaller at h
  by_cases hlt : child < dynarray_size l
  · rw [if_pos hlt] at h
    rcases hc : dynarray_get l child with _ | c
    · rw [hc] at h; simp at h
    · rcases hs : dynarray_get l smallest with _ | s
      · rw [hc, hs] at h; simp at h
      · rw [hc, hs] at h
        simp only [Option.some.injEq] at h
        by_cases hp : c.priority < s.priority
        · rw [if_pos hp] at h
          exact Or.inr ⟨h.symm, hlt⟩
        · rw [if_neg hp] at h
          exact Or.inl h.symm
  · rw [if_neg hlt] at h
    simp only [Option.some.injEq] at h
    exact Or.inl h.symm

theorem bubble_down_loop_fuel {α : Type} (f1 : Nat) :
    ∀ (f2 : Nat) (q : pq α) (index : Nat), q.heap.length ≤ f1 + index →
      q.heap.length ≤ f2 + index →
      bubble_down_loop (f1 + 1) q index = bubble_down_loop (f2 + 1) q index := by
  induction f1 with
  | zero =>
    intro f2 q index h1 _
    -- the index is outside the array: both loops stop at once
    simp only [Nat.zero_add] at h1
    have e1 : pick_smaller q.heap (2 * index + 1) index = some index := by
      unfold pick_smaller
      rw [if_neg (by simp only [dynarray_size]; omega)]
    have e2 : pick_smaller q.heap (2 * index + 2) index = some index := by
      unfold pick_smaller
      rw [if_neg (by simp only [dynarray_size]; omega)]
    simp only [bubble_down_loop, e1, e2, if_true]
  | succ f1 ih =>
    intro f2 q index h1 h2
    simp only [bubble_down_loop]
    rcases hs1 : pick_smaller q.heap (2 * index + 1) index with _ | s1
    · rfl
    · simp only
      rcases hs2 : pick_smaller q.heap (2 * index + 2) s1 with _ | m
      · rfl
      · simp only
        by_cases hm : m = index
        · simp only [if_pos hm]
        · simp only [if_neg hm]
          rcases hx : dynarray_get q.heap index with _ | x
          · rfl
          · rcases hz : dynarray_get q.heap m with _ | z
            · rfl
            · simp only
              have hml : index < m ∧ m < q.heap.length := by
                rcases pick_smaller_cases _ _ _ _ hs2 with h | ⟨h, hl⟩
                · rcases pick_smaller_cases _ _ _ _ hs1 with h3 | ⟨h3, hl3⟩
                  · exact absurd (h.trans h3) hm
                  · omega
                · omega
              obtain ⟨g2, rfl⟩ : ∃ g2, f2 = g2 + 1 := ⟨f2 - 1, by omega⟩
              exact ih g2 _ m (by simp only [dynarray_set, List.length_set]; omega)
                (by simp only [dynarray_set, List.length_set]; omega)

theorem bubble_down_total {α : Type} (q : pq α) (index : Nat) :
    ∃ q1, bubble_down q index = some q1 := by
  unfold bubble_down
  by_cases h : index < q.heap.length
  · obtain ⟨q1, e1, _, _⟩ := bubble_down_loop_spec (dynarray_size q.heap + 1) q index
      (by simp only [dynarray_size]; omega) h
    exact ⟨q1, e1⟩
  · have e1 : pick_smaller q.heap (2 * index + 1) index = some index := by
      unfold pick_smaller
      rw [if_neg (by simp only [dynarray_size]; omega)]
    have e2 : pick_smaller q.heap (2 * index + 2) index = some index := by
      unfold pick_smaller
      rw [if_neg (by simp only [dynarray_size]; omega)]
    exact ⟨q, by simp only [bubble_down_loop, e1, e2, if_true]⟩

/-- C16 (termination): for every graph of `n` lists whose edge records point to nodes below
`n`, with any costs, and every `start` below `n`, the main loop of `dijkstra` ends with an
empty queue within `dijkstra_fuel` iterations (the number of edge records plus two) and
`dijkstra` returns; the loop of `bubble_up` ends within `index + 1` iterations on every
queue and index (with a result when the index is inside the array), and the loop of
`bubble_down` ends with a result within `size + 1` iterations on every queue and index:
more iterations allowed change nothing. -/
theorem C16_termination {α : Type} (g : List (List edge)) (n start : Nat)
    (hlen : g.length = n) (hdest : ∀ l ∈ g, ∀ e ∈ l, e.dest < n) (hs : start < n) :
    (∃ st, dijkstra_loop g (dijkstra_fuel g) (dijkstra_init n start) = some st ∧
      pq_isempty st.pq = 1 ∧ dijkstra g n start = some (st.dist, st.prev)) ∧
    (∀ (q : pq α) (index : Nat), index = 0 ∨ index < dynarray_size q.heap →
      ∃ q1, bubble_up q index = some q1) ∧
    (∀ (q : pq α) (index fuel : Nat), index < fuel →
      bubble_up_loop fuel q index = bubble_up q index) ∧
    (∀ (q : pq α) (index : Nat), ∃ q1, bubble_down q index = some q1) ∧
    (∀ (q : pq α) (index fuel : Nat), dynarray_size q.heap ≤ fuel + index →
      bubble_down_loop (fuel + 1) q index = bubble_down q index) := by
  refine ⟨?_, ?_, ?_, bubble_down_total, ?_⟩
  · obtain ⟨st, e, ⟨hb, _⟩, hq⟩ := dijkstra_loop_rule g
      (fun st => binv g n start st ∧ True)
      (fun st => st.pq.heap.length + pending_edges g n st.visited)
      (by
        intro st st1 ⟨hb, _⟩ hs1
        obtain ⟨hb1, hμ⟩ := binv_loop_step g n start ⟨hlen, hdest⟩ st st1 hb hs1
        exact ⟨⟨hb1, trivial⟩, hμ⟩)
      (dijkstra_fuel g) (dijkstra_init n start) ⟨binv_init g n start hs, trivial⟩
      (by
        have := pending_edges_le g (dijkstra_init n start).visited
        rw [hlen] at this
        simp only [dijkstra_fuel]
        simp only [dijkstra_init, List.length_singleton] at this ⊢
        omega)
    refine ⟨st, e, by simp [pq_isempty, dynarray_size, hq], ?_⟩
    rw [dijkstra_unfold g n start hs, e]
    rfl
  · intro q index h
    unfold bubble_up
    rcases h with rfl | h
    · exact ⟨q, by simp [bubble_up_loop]⟩
    · obtain ⟨q1, e1, _, _⟩ := bubble_up_loop_spec (index + 1) q index (by omega) h
      exact ⟨q1, e1⟩
  · intro q index fuel h
    unfold bubble_up
    exact bubble_up_loop_fuel fuel (index + 1) q index h (by omega)
  · intro q index fuel h
    unfold bubble_down
    exact bubble_down_loop_fuel fuel (dynarray_size q.heap) q index h
      (by simp only [dynarray_size]; omega)

theorem C16_termination_witness :
    ∃ g, read_graph [⟨0, 1, -3⟩, ⟨1, 2, -4⟩, ⟨2, 0, -5⟩, ⟨1, 1, -1⟩] 4 = outcome.returns g ∧
      g.length = 4 ∧
      (∀ l ∈ g, ∀ e ∈ l, e.dest < 4) ∧ 2 < 4 ∧
      ((∃ st, dijkstra_loop g (dijkstra_fuel g) (dijkstra_init 4 2) = some st ∧
        pq_isempty st.pq = 1 ∧
        dijkstra g 4 2 = some (st.dist, st.prev)) ∧
      (∀ (q : pq Nat) (index : Nat), index = 0 ∨ index < dynarray_size q.heap →
        ∃ q1, bubble_up q index = some q1) ∧
      (∀ (q : pq Nat) (index fuel : Nat), index < fuel →
        bubble_up_loop fuel q index = bubble_up q index) ∧
      (∀ (q : pq Nat) (index : Nat), ∃ q1, bubble_down q index = some q1) ∧
      (∀ (q : pq Nat) (index fuel : Nat), dynarray_size q.heap ≤ fuel + index →
        bubble_down_loop (fuel + 1) q index = bubble_down q index)) :=
  ⟨[[⟨2, -5⟩, ⟨1, -3⟩], [⟨1, -1⟩, ⟨1, -1⟩, ⟨2, -4⟩, ⟨0, -3⟩], [⟨0, -5⟩, ⟨1, -4⟩], []],
    by decide, by decide, by decide, by decide,
    C16_termination
      [[⟨2, -5⟩, ⟨1, -3⟩], [⟨1, -1⟩, ⟨1, -1⟩, ⟨2, -4⟩, ⟨0, -3⟩], [⟨0, -5⟩, ⟨1, -4⟩], []]
      4 2 (by decide) (by decide) (by decide)⟩

/-! ## The iterations of the main loop -/

theorem dijkstra_loop_succ (g : List (List edge)) (fuel : Nat) (st : dstate) :
    dijkstra_loop g (fuel + 1) st =
      if pq_isempty st.pq = 0 then (dijkstra_body g st).bind (dijkstra_loop g fuel)
      else some st := by
  simp only [dijkstra_loop, dijkstra_body]
  by_cases h : pq_isempty st.pq = 0
  · simp only [if_pos h]
    rcases pq_remove_first st.pq with _ | ⟨u, q⟩
    · rfl
    · simp only
      by_cases hv : arr_get st.visited u ≠ 0
      · simp only [if_pos hv, Option.bind]
      · simp only [if_neg hv]
        rcases relax_edges u (g.getD u []) ⟨st.dist, st.prev, arr_set st.visited u 1, q⟩ with
          _ | st1
        · rfl
        · rfl
  · simp only [if_neg h]

theorem dijkstra_iter_succ (g : List (List edge)) (k : Nat) (st : dstate) :
    dijkstra_iter g (k + 1) st =
      if pq_isempty st.pq = 0 then (dijkstra_body g st).bind (dijkstra_iter g k)
      else some st := by
  simp only [dijkstra_iter]
  by_cases h : pq_isempty st.pq = 0
  · simp only [if_pos h]
    rcases dijkstra_body g st with _ | st1
    · rfl
    · rfl
  · simp only [if_neg h]

/-- When the main loop ends within `fuel` iterations, its final state is the state after
`fuel` iterations. -/
theorem dijkstra_loop_iter (g : List (List edge)) (fuel : Nat) :
    ∀ st st1, dijkstra_loop g fuel st = some st1 → dijkstra_iter g fuel st = some st1 := by
  induction fuel with
  | zero => intro st st1 h; simp [dijkstra_loop] at h
  | succ fuel ih =>
    intro st st1 h
    rw [dijkstra_loop_succ] at h
    rw [dijkstra_iter_succ]
    by_cases hq : pq_isempty st.pq = 0
    · rw [if_pos hq] at h ⊢
      rcases hb : dijkstra_body g st with _ | st2
      · rw [hb] at h; simp at h
      · rw [hb] at h
        simp only [Option.bind] at h ⊢
        exact ih st2 st1 h
    · rw [if_neg hq] at h ⊢
      exact h

theorem frozen_relax (w : Nat) (pend : List edge) (st st1 : dstate)
    (h : relax_edges w pend st = some st1) (u : Nat) (hv : arr_get st.visited u ≠ 0) :
    frozen st st1 u := by
  obtain ⟨st2, e2, h2⟩ := relax_edges_rule w (fun _ s => frozen st s u)
    (by
      intro e rest s s1 hf hs
      cases hs with
      | skip _ => exact hf
      | update q hc _ _ =>
        obtain ⟨hf1, hf2, hf3⟩ := hf
        have hne : e.dest ≠ u := fun hc1 => hf1 (hc1 ▸ hc.1)
        refine ⟨hf1, ?_, ?_⟩
        · simp only [arr_get_set_ne _ _ _ _ hne]; exact hf2
        · simp only [arr_get_set_ne _ _ _ _ hne]; exact hf3)
    pend st ⟨hv, rfl, rfl⟩
  rw [h] at e2
  cases e2
  exact h2

theorem frozen_body (g : List (List edge)) (st st1 : dstate)
    (h : dijkstra_body g st = some st1) (u : Nat) (hv : arr_get st.visited u ≠ 0) :
    frozen st st1 u := by
  unfold dijkstra_body at h
  rcases hp : pq_remove_first st.pq with _ | ⟨x, q⟩
  · rw [hp] at h; simp at h
  · rw [hp] at h
    simp only at h
    by_cases hx : arr_get st.visited x ≠ 0
    · rw [if_pos hx] at h
      cases h
      exact ⟨hv, rfl, rfl⟩
    · rw [if_neg hx] at h
      have hxu : x ≠ u := fun hc => hx (hc ▸ hv)
      have h1 := frozen_relax x _ _ st1 h u
        (by simp only [arr_get_set_ne _ _ _ _ hxu]; exact hv)
      exact ⟨h1.1, h1.2.1, h1.2.2⟩

theorem frozen_iter (g : List (List edge)) (k : Nat) :
    ∀ st st1, dijkstra_iter g k st = some st1 → ∀ u, arr_get st.visited u ≠ 0 →
      frozen st st1 u := by
  induction k with
  | zero =>
    intro st st1 h u hv
    simp only [dijkstra_iter, Option.some.injEq] at h
    subst h
    exact ⟨hv, rfl, rfl⟩
  | succ k ih =>
    intro st st1 h u hv
    rw [dijkstra_iter_succ] at h
    by_cases hq : pq_isempty st.pq = 0
    · rw [if_pos hq] at h
      rcases hb : dijkstra_body g st with _ | st2
      · rw [hb] at h; simp at h
      · rw [hb] at h
        simp only [Option.bind] at h
        have h1 := frozen_body g st st2 hb u hv
        have h2 := ih st2 st1 h u h1.1
        exact ⟨h2.1, h2.2.1.trans h1.2.1, h2.2.2.trans h1.2.2⟩
    · rw [if_neg hq] at h
      cases h
      exact ⟨hv, rfl, rfl⟩

/-- C14 (finalized nodes are frozen): from any state `st` of a run of `dijkstra`, on any
graph and with any costs, in which `visited[u]` is set, after any number `k` of further
iterations of the main loop, and also when the main loop has ended and at every point of a
relaxation loop, `visited[u]` is still set and `dist[u]` and `prev[u]` have the values they
had in `st`; an iteration that takes an entry for `u` from the queue changes the queue
only: the entry is discarded with no edge relaxed and no mark set. -/
theorem C14_finalized_frozen (g : List (List edge)) (k : Nat) (st st1 : dstate) (u : Nat)
    (hrun : dijkstra_iter g k st = some st1) (hv : arr_get st.visited u ≠ 0) :
    (arr_get st1.visited u ≠ 0 ∧ arr_get st1.dist u = arr_get st.dist u ∧
      arr_get st1.prev u = arr_get st.prev u) ∧
    (∀ fuel st2, dijkstra_loop g fuel st = some st2 →
      arr_get st2.visited u ≠ 0 ∧ arr_get st2.dist u = arr_get st.dist u ∧
        arr_get st2.prev u = arr_get st.prev u) ∧
    (∀ w pend st2, relax_edges w pend st = some st2 →
      arr_get st2.visited u ≠ 0 ∧ arr_get st2.dist u = arr_get st.dist u ∧
        arr_get st2.prev u = arr_get st.prev u) ∧
    (∀ q, pq_remove_first st.pq = some (u, q) →
      dijkstra_body g st = some ⟨st.dist, st.prev, st.visited, q⟩) := by
  refine ⟨frozen_iter g k st st1 hrun u hv, ?_, ?_, ?_⟩
  · intro fuel st2 h
    exact frozen_iter g fuel st st2 (dijkstra_loop_iter g fuel st st2 h) u hv
  · intro w pend st2 h
    exact frozen_relax w pend st st2 h u hv
  · intro q hq
    simp only [dijkstra_body, hq, if_pos hv]

theorem C14_finalized_frozen_witness :
    ∃ g, read_graph [⟨0, 1, 4⟩, ⟨1, 2, 1⟩, ⟨0, 2, 9⟩] 3 = outcome.returns g ∧
      dijkstra_iter g 2
        (⟨[0, 4, 9], [-1, 0, 0], [1, 0, 0], ⟨[⟨1, 4⟩, ⟨2, 9⟩]⟩⟩ : dstate) =
        some (⟨[0, 4, 5], [-1, 0, 1], [1, 1, 1], ⟨[⟨2, 9⟩]⟩⟩ : dstate) ∧
      arr_get (⟨[0, 4, 9], [-1, 0, 0], [1, 0, 0], ⟨[⟨1, 4⟩, ⟨2, 9⟩]⟩⟩ : dstate).visited 0 ≠ 0 ∧
      ((arr_get (⟨[0, 4, 5], [-1, 0, 1], [1, 1, 1], ⟨[⟨2, 9⟩]⟩⟩ : dstate).visited 0 ≠ 0 ∧
        arr_get (⟨[0, 4, 5], [-1, 0, 1], [1, 1, 1], ⟨[⟨2, 9⟩]⟩⟩ : dstate).dist 0 =
          arr_get (⟨[0, 4, 9], [-1, 0, 0], [1, 0, 0], ⟨[⟨1, 4⟩, ⟨2, 9⟩]⟩⟩ : dstate).dist 0 ∧
        arr_get (⟨[0, 4, 5], [-1, 0, 1], [1, 1, 1], ⟨[⟨2, 9⟩]⟩⟩ : dstate).prev 0 =
          arr_get (⟨[0, 4, 9], [-1, 0, 0], [1, 0, 0], ⟨[⟨1, 4⟩, ⟨2, 9⟩]⟩⟩ : dstate).prev 0) ∧
      (∀ fuel st2, dijkstra_loop g fuel
          (⟨[0, 4, 9], [-1, 0, 0], [1, 0, 0], ⟨[⟨1, 4⟩, ⟨2, 9⟩]⟩⟩ : dstate) = some st2 →
        arr_get st2.visited 0 ≠ 0 ∧
          arr_get st2.dist 0 =
            arr_get (⟨[0, 4, 9], [-1, 0, 0], [1, 0, 0], ⟨[⟨1, 4⟩, ⟨2, 9⟩]⟩⟩ : dstate).dist 0 ∧
          arr_get st2.prev 0 =
            arr_get (⟨[0, 4, 9], [-1, 0, 0], [1, 0, 0], ⟨[⟨1, 4⟩, ⟨2, 9⟩]⟩⟩ : dstate).prev 0) ∧
      (∀ w pend st2, relax_edges w pend
          (⟨[0, 4, 9], [-1, 0, 0], [1, 0, 0], ⟨[⟨1, 4⟩, ⟨2, 9⟩]⟩⟩ : dstate) = some st2 →
        arr_get st2.visited 0 ≠ 0 ∧
          arr_get st2.dist 0 =
            arr_get (⟨[0, 4, 9], [-1, 0, 0], [1, 0, 0], ⟨[⟨1, 4⟩, ⟨2, 9⟩]⟩⟩ : dstate).dist 0 ∧
          arr_get st2.prev 0 =
            arr_get (⟨[0, 4, 9], [-1, 0, 0], [1, 0, 0], ⟨[⟨1, 4⟩, ⟨2, 9⟩]⟩⟩ : dstate).prev 0) ∧
      (∀ q, pq_remove_first (⟨[0, 4, 9], [-1, 0, 0], [1, 0, 0], ⟨[⟨1, 4⟩, ⟨2, 9⟩]⟩⟩ : dstate).pq = some (0, q) →
        dijkstra_body g
          (⟨[0, 4, 9], [-1, 0, 0], [1, 0, 0], ⟨[⟨1, 4⟩, ⟨2, 9⟩]⟩⟩ : dstate) =
          some ⟨(⟨[0, 4, 9], [-1, 0, 0], [1, 0, 0], ⟨[⟨1, 4⟩, ⟨2, 9⟩]⟩⟩ : dstate).dist,
            (⟨[0, 4, 9], [-1, 0, 0], [1, 0, 0], ⟨[⟨1, 4⟩, ⟨2, 9⟩]⟩⟩ : dstate).prev,
            (⟨[0, 4, 9], [-1, 0, 0], [1, 0, 0], ⟨[⟨1, 4⟩, ⟨2, 9⟩]⟩⟩ : dstate).visited, q⟩)) :=
  ⟨[[⟨2, 9⟩, ⟨1, 4⟩], [⟨2, 1⟩, ⟨0, 4⟩], [⟨0, 9⟩, ⟨1, 1⟩]],
    by decide, by decide, by decide,
    C14_finalized_frozen
      [[⟨2, 9⟩, ⟨1, 4⟩], [⟨2, 1⟩, ⟨0, 4⟩], [⟨0, 9⟩, ⟨1, 1⟩]]
      2
      (⟨[0, 4, 9], [-1, 0, 0], [1, 0, 0], ⟨[⟨1, 4⟩, ⟨2, 9⟩]⟩⟩ : dstate)
      (⟨[0, 4, 5], [-1, 0, 1], [1, 1, 1], ⟨[⟨2, 9⟩]⟩⟩ : dstate) 0 (by decide) (by decide)⟩

/-! ## The guard on `dist[u]` -/

theorem relax_edges_noguard_cons (u : Nat) (e : edge) (rest : List edge) (st : dstate)
    (hfin : arr_get st.dist u ≠ INT_MAX) :
    ∃ st1, relax_step u e st st1 ∧
      relax_edges u (e :: rest) st = relax_edges u rest st1 ∧
      relax_edges_noguard u (e :: rest) st = relax_edges_noguard u rest st1 := by
  by_cases hc : relax_cond st u e
  · obtain ⟨q, e1, p1, o1⟩ := pq_insert_spec st.pq e.dest
      (arr_get (arr_set st.dist e.dest (wrap32 (arr_get st.dist u + e.cost))) e.dest)
    refine ⟨_, relax_step.update q hc p1 o1, ?_, ?_⟩
    · have hc1 := hc
      unfold relax_cond at hc1
      simp only [relax_edges, if_pos hc1, e1]
    · have hc1 : arr_get st.visited e.dest = 0 ∧
          wrap32 (arr_get st.dist u + e.cost) < arr_get st.dist e.dest := ⟨hc.1, hc.2.2⟩
      simp only [relax_edges_noguard, if_pos hc1, e1]
  · refine ⟨st, relax_step.skip hc, ?_, ?_⟩
    · have hc1 := hc
      unfold relax_cond at hc1
      simp only [relax_edges, if_neg hc1]
    · have hc1 : ¬ (arr_get st.visited e.dest = 0 ∧
          wrap32 (arr_get st.dist u + e.cost) < arr_get st.dist e.dest) :=
        fun h => hc ⟨h.1, hfin, h.2⟩
      simp only [relax_edges_noguard, if_neg hc1]

theorem dist_marked_finite (g : List (List edge)) (n start : Nat) (file : List input_edge)
    (u : Nat) (pend : List edge) (hc : costs_ok g file) (st : dstate)
    (h : sinv g n start file u pend st) (x : Nat) (hx : arr_get st.visited x ≠ 0) :
    arr_get st.dist x ≠ INT_MAX := by
  have h1 := h.wbound x hx
  have h2 := inner_cost_le_total file st.visited hc.nonneg
  have h3 := hc.total
  omega

theorem relax_edges_noguard_eq (g : List (List edge)) (n start : Nat) (file : List input_edge)
    (u : Nat) (V : List Int) (K : Nat) (hg : graph_ok g n) (hc : costs_ok g file) :
    ∀ (pend : List edge) (st : dstate), binv_relax g n start u V K pend st →
      sinv g n start file u pend st →
      relax_edges_noguard u pend st = relax_edges u pend st := by
  intro pend
  induction pend with
  | nil => intro st _ _; rfl
  | cons e rest ih =>
    intro st hb h
    obtain ⟨st1, hs, e1, e2⟩ := relax_edges_noguard_cons u e rest st
      (dist_marked_finite g n start file u _ hc st h u hb.vis_u)
    rw [e1, e2]
    exact ih st1 (binv_relax_step g n start u V K hg e rest st st1 hb hs)
      (sinv_relax_step g n start file u V K hg hc e rest st st1 hb h hs)

theorem dijkstra_loop_noguard_eq (g : List (List edge)) (n start : Nat)
    (file : List input_edge) (hg : graph_ok g n) (hc : costs_ok g file) (hs : start < n)
    (fuel : Nat) :
    ∀ st, binv g n start st → sinv g n start file 0 [] st →
      dijkstra_loop_noguard g fuel st = dijkstra_loop g fuel st := by
  induction fuel with
  | zero => intro st _ _; rfl
  | succ fuel ih =>
    intro st hb h
    simp only [dijkstra_loop_noguard, dijkstra_loop]
    by_cases hq : pq_isempty st.pq = 0
    · simp only [if_pos hq]
      have hne : st.pq.heap ≠ [] := by
        intro hc1
        simp [pq_isempty, dynarray_size, hc1] at hq
      obtain ⟨x, q, e1, _, p1, o1⟩ := pq_remove_first_spec st.pq hne
      have hx : x ∈ st.pq.heap := p1.symm.subset (List.mem_cons_self _ _)
      simp only [e1]
      by_cases hv : arr_get st.visited x.value ≠ 0
      · simp only [if_pos hv]
        have hstep := loop_step.skip (g := g) x q hx p1 o1 hv
        exact ih _ (binv_loop_step g n start hg st _ hb hstep).1
          (sinv_loop_step g n start file hg hc hs st _ hb h hstep)
      · simp only [if_neg hv]
        have hv0 : arr_get st.visited x.value = 0 := not_not.mp hv
        rw [relax_edges_noguard_eq g n start file x.value _ _ hg hc _ _
          (binv_relax_enter g n start st hb x q hx p1)
          (sinv_enter g n start file hg hc hs st hb h x q hx p1 o1 hv0)]
        obtain ⟨st1, e2⟩ := relax_edges_total x.value (g.getD x.value [])
          ⟨st.dist, st.prev, arr_set st.visited x.value 1, q⟩
        simp only [e2]
        have hstep := loop_step.relax (g := g) x q st1 hx p1 o1 hv0 e2
        exact ih _ (binv_loop_step g n start hg st _ hb hstep).1
          (sinv_loop_step g n start file hg hc hs st _ hb h hstep)
    · simp only [if_neg hq]

theorem body_loop_step (g : List (List edge)) (st st1 : dstate)
    (hq : pq_isempty st.pq = 0) (hb : dijkstra_body g st = some st1) :
    loop_step g st st1 := by
  have hne : st.pq.heap ≠ [] := by
    intro hc1
    simp [pq_isempty, dynarray_size, hc1] at hq
  obtain ⟨x, q, e1, _, p1, o1⟩ := pq_remove_first_spec st.pq hne
  have hx : x ∈ st.pq.heap := p1.symm.subset (List.mem_cons_self _ _)
  simp only [dijkstra_body, e1] at hb
  by_cases hv : arr_get st.visited x.value ≠ 0
  · rw [if_pos hv] at hb
    cases hb
    exact loop_step.skip x q hx p1 o1 hv
  · rw [if_neg hv] at hb
    exact loop_step.relax x q st1 hx p1 o1 (not_not.mp hv) hb

/-- A property that every iteration of the main loop keeps holds after any number of
iterations. -/
theorem dijkstra_iter_rule (g : List (List edge)) (P : dstate → Prop)
    (hstep : ∀ st st1, P st → loop_step g st st1 → P st1) (k : Nat) :
    ∀ st st1, P st → dijkstra_iter g k st = some st1 → P st1 := by
  induction k with
  | zero =>
    intro st st1 hP h
    simp only [dijkstra_iter, Option.some.injEq] at h
    exact h ▸ hP
  | succ k ih =>
    intro st st1 hP h
    rw [dijkstra_iter_succ] at h
    by_cases hq : pq_isempty st.pq = 0
    · rw [if_pos hq] at h
      rcases hb : dijkstra_body g st with _ | st2
      · rw [hb] at h; simp at h
      · rw [hb] at h
        simp only [Option.bind] at h
        exact ih st2 st1 (hstep st st2 hP (body_loop_step g st st2 hq hb)) h
    · rw [if_neg hq] at h
      cases h
      exact hP

theorem dijkstra_noguard_unfold (g : List (List edge)) (n start : Nat) (hs : start < n) :
    dijkstra_noguard g n start =
      (dijkstra_loop_noguard g (dijkstra_fuel g) (dijkstra_init n start)).map
        (fun st => (st.dist, st.prev)) := by
  have h0 : arr_get (arr_set (List.replicate n INT_MAX) start 0) start = 0 :=
    arr_get_set_eq _ _ _ (by simpa using hs)
  have h1 : pq_insert (pq_create : pq Nat) start 0 = some ⟨[⟨start, 0⟩]⟩ := by
    simp [pq_insert, pq_create, dynarray_create, dynarray_insert, dynarray_size, bubble_up,
      bubble_up_loop]
  unfold dijkstra_noguard
  simp only [h0, h1, dijkstra_init]
  split <;> simp_all

/-- C15 (popped nodes have a finite distance): for every list of input lines whose endpoints
are below `n` and whose costs are non-negative and sum to less than `INT_MAX`, and every
`start` below `n`, `read_graph` returns a graph, in the run of `dijkstra` on it the node of
the entry that any iteration of the main loop takes from the queue has a `dist` different
from `INT_MAX`, and `dijkstra` returns the same `dist` and `prev` as its variant without the
guard `dist[u] != INT_MAX`. -/
theorem C15_guard_redundant (n : Nat) (file : List input_edge) (start : Nat)
    (hrange : ∀ ie ∈ file, ie.src < n ∧ ie.dest < n)
    (hnonneg : ∀ ie ∈ file, 0 ≤ ie.cost) (hsum : total_cost file < INT_MAX)
    (hs : start < n) :
    ∃ g, read_graph file n = outcome.returns g ∧
      (∀ k st u q, dijkstra_iter g k (dijkstra_init n start) = some st →
        pq_remove_first st.pq = some (u, q) → arr_get st.dist u ≠ INT_MAX) ∧
      ∃ dist prev, dijkstra g n start = some (dist, prev) ∧
        dijkstra_noguard g n start = some (dist, prev) := by
  obtain ⟨g, hret⟩ := read_graph_returns file n hrange
  have hg := read_graph_ok file n g hret hrange
  have hc := read_graph_costs_ok file n g hret hnonneg hsum
  refine ⟨g, hret, ?_, ?_⟩
  · intro k st u q hk hpop
    obtain ⟨hb, h⟩ := dijkstra_iter_rule g
      (fun s => binv g n start s ∧
        sinv g n start file 0 [] s)
      (fun s s1 hP hstep => ⟨(binv_loop_step _ n start hg s s1 hP.1 hstep).1,
        sinv_loop_step _ n start file hg hc hs s s1 hP.1 hP.2 hstep⟩)
      k _ st ⟨binv_init _ n start hs, sinv_init _ n start file hs⟩ hk
    have hne : st.pq.heap ≠ [] := by
      intro hc1
      rw [pq_remove_first_nil st.pq hc1] at hpop
      exact Option.noConfusion hpop
    obtain ⟨x, q1, e1, _, p1, _⟩ := pq_remove_first_spec st.pq hne
    rw [e1] at hpop
    simp only [Option.some.injEq, Prod.mk.injEq] at hpop
    have hx : x ∈ st.pq.heap := p1.symm.subset (List.mem_cons_self _ _)
    have := h.q_prio x hx
    rw [← hpop.1]
    omega
  · obtain ⟨st, e, hb, h, _⟩ := dijkstra_final _ n start file hg hc hs
    refine ⟨st.dist, st.prev, e, ?_⟩
    rw [dijkstra_noguard_unfold _ n start hs,
      dijkstra_loop_noguard_eq _ n start file hg hc hs _ _ (binv_init _ n start hs)
        (sinv_init _ n start file hs),
      ← dijkstra_unfold _ n start hs]
    exact e

theorem C15_guard_redundant_witness :
    (∀ ie ∈ ([⟨0, 1, 4⟩, ⟨1, 2, 0⟩, ⟨0, 2, 6⟩] : List input_edge), ie.src < 4 ∧ ie.dest < 4) ∧
    (∀ ie ∈ ([⟨0, 1, 4⟩, ⟨1, 2, 0⟩, ⟨0, 2, 6⟩] : List input_edge), 0 ≤ ie.cost) ∧
    total_cost [⟨0, 1, 4⟩, ⟨1, 2, 0⟩, ⟨0, 2, 6⟩] < INT_MAX ∧ 1 < 4 ∧
    ∃ g, read_graph [⟨0, 1, 4⟩, ⟨1, 2, 0⟩, ⟨0, 2, 6⟩] 4 = outcome.returns g ∧
      (∀ k st u q, dijkstra_iter g k (dijkstra_init 4 1) = some st →
        pq_remove_first st.pq = some (u, q) → arr_get st.dist u ≠ INT_MAX) ∧
      ∃ dist prev, dijkstra g 4 1 = some (dist, prev) ∧
        dijkstra_noguard g 4 1 = some (dist, prev) :=
  ⟨by decide, by decide, by decide, by decide,
    C15_guard_redundant 4 [⟨0, 1, 4⟩, ⟨1, 2, 0⟩, ⟨0, 2, 6⟩] 1 (by decide) (by decide)
      (by decide) (by decide)⟩

/-! ## The links of `prev` -/

theorem prev_path_frame (prev prev1 : List Int) (start v : Nat) (path : List Nat)
    (h : prev_path prev start v path)
    (hf : ∀ y ∈ path, arr_get prev1 y = arr_get prev y) : prev_path prev1 start v path := by
  induction h with
  | base => exact prev_path.base
  | step v p path hv hp _ ih =>
    refine prev_path.step v p path hv ?_ (ih (fun y hy => hf y (List.mem_append_left _ hy)))
    rw [hf v (List.mem_append_right _ (List.mem_singleton_self v))]
    exact hp

theorem print_path_calls_prev_path (prev : List Int) (start v : Nat) (path : List Nat)
    (h : prev_path prev start v path) :
    ∀ fuel, path.length ≤ fuel →
      print_path_calls fuel start v prev = some path.reverse := by
  induction h with
  | base =>
    intro fuel hf
    obtain ⟨f, rfl⟩ : ∃ f, fuel = f + 1 := ⟨fuel - 1, by simp at hf; omega⟩
    simp [print_path_calls]
  | step v p path hv hp _ ih =>
    intro fuel hf
    simp only [List.length_append, List.length_singleton] at hf
    obtain ⟨f, rfl⟩ : ∃ f, fuel = f + 1 := ⟨fuel - 1, by omega⟩
    have hne : ¬ arr_get prev v = -1 := by rw [hp]; omega
    have ht : (arr_get prev v).toNat = p := by rw [hp]; simp
    simp only [print_path_calls, if_neg hv, if_neg hne, ht, ih f (by omega)]
    simp

/-- What the sequence of calls of `print_path` is, whatever `prev` holds: it begins with
`v`, each call is on the `prev` of the one before, and the last is on `start` or on a node
whose `prev` is -1. -/
theorem print_path_calls_shape (prev : List Int) (start : Nat)
    (hrange : ∀ v, -1 ≤ arr_get prev v) (fuel : Nat) :
    ∀ (v : Nat) (calls : List Nat), print_path_calls fuel start v prev = some calls →
      calls.head? = some v ∧
      List.Chain' (fun a b => arr_get prev a = (b : Int)) calls ∧
      (∀ last, calls.getLast? = some last → last = start ∨ arr_get prev last = -1) ∧
      ∃ out, print_path_rec fuel start v prev = some out ∧ out.length = calls.length := by
  induction fuel with
  | zero => intro v calls h; simp [print_path_calls] at h
  | succ fuel ih =>
    intro v calls h
    simp only [print_path_calls] at h
    by_cases hv : v = start
    · rw [if_pos hv] at h
      cases h
      refine ⟨rfl, List.chain'_singleton _, ?_, ?_⟩
      · intro last hl
        simp only [List.getLast?_singleton, Option.some.injEq] at hl
        exact Or.inl (hl ▸ hv)
      · exact ⟨[path_item.node start], by simp only [print_path_rec, if_pos hv], rfl⟩
    · rw [if_neg hv] at h
      by_cases hp : arr_get prev v = -1
      · rw [if_pos hp] at h
        cases h
        refine ⟨rfl, List.chain'_singleton _, ?_, ?_⟩
        · intro last hl
          simp only [List.getLast?_singleton, Option.some.injEq] at hl
          exact Or.inr (hl ▸ hp)
        · exact ⟨[path_item.no_path],
            by simp only [print_path_rec, if_neg hv, if_pos hp], rfl⟩
      · rw [if_neg hp] at h
        rcases hc : print_path_calls fuel start (arr_get prev v).toNat prev with _ | c1
        · rw [hc] at h; simp at h
        · rw [hc] at h
          simp only [Option.some.injEq] at h
          subst h
          obtain ⟨h1, h2, h3, out, h4, h5⟩ := ih _ c1 hc
          have hnn : 0 ≤ arr_get prev v := by
            have := hrange v
            omega
          refine ⟨rfl, ?_, ?_, ?_⟩
          · rw [List.chain'_cons']
            refine ⟨?_, h2⟩
            intro y hy
            rw [h1] at hy
            simp only [Option.mem_def, Option.some.injEq] at hy
            rw [← hy]
            exact (Int.toNat_of_nonneg hnn).symm
          · intro last hl
            cases c1 with
            | nil => simp at h1
            | cons a t =>
              rw [List.getLast?_cons_cons] at hl
              exact h3 last hl
          · refine ⟨out ++ [path_item.node v], ?_, ?_⟩
            · simp only [print_path_rec, if_neg hv, if_neg hp, h4]
            · simp [h5]

theorem cinv_relax_step (g : List (List edge)) (n start u : Nat) (V : List Int) (K : Nat)
    (hg : graph_ok g n) (e : edge) (rest : List edge) (st st1 : dstate)
    (hb : binv_relax g n start u V K (e :: rest) st) (h : cinv n start st)
    (hs : relax_step u e st st1) : cinv n start st1 := by
  cases hs with
  | skip _ => exact h
  | update q hc hp _ =>
    have heu : e ∈ g.getD u [] := hb.pend_sub e (List.mem_cons_self _ _)
    have hdn : e.dest < n := hg.dest_lt u e heu
    have hpl : e.dest < st.prev.length := by rw [hb.base.len_prev]; exact hdn
    have hnew : arr_get (arr_set st.prev e.dest (u : Int)) e.dest = (u : Int) :=
      arr_get_set_eq _ _ _ hpl
    have hpne : ∀ y, e.dest ≠ y →
        arr_get (arr_set st.prev e.dest (u : Int)) y = arr_get st.prev y :=
      fun y hy => arr_get_set_ne _ _ _ _ hy
    have hvis_ne : ∀ y, arr_get st.visited y ≠ 0 → e.dest ≠ y := by
      intro y hy hc1
      rw [← hc1] at hy
      exact hy hc.1
    refine ⟨?_, ?_, ?_, ?_⟩
    · intro x hx
      simp only
      by_cases hxd : e.dest = x.value
      · right
        exact ⟨u, hb.vis_u, by rw [← hxd, hnew]⟩
      · rw [hpne _ hxd]
        rcases List.mem_cons.mp (hp.subset hx) with rfl | hx1
        · exact absurd rfl hxd
        · exact h.q_prev x hx1
    · intro v hv hpv
      simp only at hpv ⊢
      by_cases hvd : e.dest = v
      · right
        exact ⟨_, hp.symm.subset (List.mem_cons_self _ _), hvd⟩
      · rw [hpne v hvd] at hpv
        rcases h.queued v hv hpv with h1 | ⟨x, hx, hxv⟩
        · exact Or.inl h1
        · exact Or.inr ⟨x, hp.symm.subset (List.mem_cons_of_mem _ hx), hxv⟩
    · intro x hx
      simp only at hx ⊢
      obtain ⟨path, hpp, hnd, hall⟩ := h.chain x hx
      refine ⟨path, ?_, hnd, hall⟩
      exact prev_path_frame st.prev _ start x path hpp
        (fun y hy => hpne y (hvis_ne y (hall y hy)))
    · intro v
      simp only
      by_cases hvd : e.dest = v
      · rw [← hvd, hnew]; omega
      · rw [hpne v hvd]; exact h.prev_range v

theorem cinv_loop_step (g : List (List edge)) (n start : Nat) (hg : graph_ok g n)
    (st st1 : dstate) (hb : binv g n start st) (h : cinv n start st)
    (hstep : loop_step g st st1) : cinv n start st1 := by
  cases hstep with
  | skip x q hx hp _ hv =>
    refine ⟨?_, ?_, h.chain, h.prev_range⟩
    · intro y hy
      exact h.q_prev y (hp.symm.subset (List.mem_cons_of_mem _ hy))
    · intro v hvn hpv
      rcases h.queued v hvn hpv with h1 | ⟨y, hy, hyv⟩
      · exact Or.inl h1
      · rcases List.mem_cons.mp (hp.subset hy) with rfl | hy1
        · exact Or.inl (hyv ▸ hv)
        · exact Or.inr ⟨y, hy1, hyv⟩
  | relax x q st2 hx hp _ hv he =>
    obtain ⟨hxn, _⟩ := hb.q_reach x hx
    have hvx : arr_get (arr_set st.visited x.value 1) x.value = 1 :=
      arr_get_set_eq _ _ _ (by rw [hb.len_vis]; exact hxn)
    have hmono : ∀ v, arr_get st.visited v ≠ 0 →
        arr_get (arr_set st.visited x.value 1) v ≠ 0 := by
      intro v hv1
      by_cases hxv : x.value = v
      · subst hxv; rw [hvx]; decide
      · rw [arr_get_set_ne _ _ _ _ hxv]; exact hv1
    have h0 : cinv n start ⟨st.dist, st.prev, arr_set st.visited x.value 1, q⟩ := by
      refine ⟨?_, ?_, ?_, h.prev_range⟩
      · intro y hy
        rcases h.q_prev y (hp.symm.subset (List.mem_cons_of_mem _ hy)) with h1 | ⟨p, hvp, hpp⟩
        · exact Or.inl h1
        · exact Or.inr ⟨p, hmono p hvp, hpp⟩
      · intro v hvn hpv
        simp only at hpv ⊢
        rcases h.queued v hvn hpv with h1 | ⟨y, hy, hyv⟩
        · exact Or.inl (hmono v h1)
        · rcases List.mem_cons.mp (hp.subset hy) with rfl | hy1
          · left
            rw [← hyv, hvx]; decide
          · exact Or.inr ⟨y, hy1, hyv⟩
      · intro y hy
        simp only at hy ⊢
        by_cases hyx : y = x.value
        · rcases h.q_prev x hx with hxs | ⟨p, hvp, hpp⟩
          · refine ⟨[start], ?_, by simp, ?_⟩
            · rw [hyx, hxs]; exact prev_path.base
            · intro z hz
              have : z = start := by simpa using hz
              rw [this, ← hxs, hvx]; decide
          · by_cases hxs : x.value = start
            · refine ⟨[start], ?_, by simp, ?_⟩
              · rw [hyx, hxs]; exact prev_path.base
              · intro z hz
                have : z = start := by simpa using hz
                rw [this, ← hxs, hvx]; decide
            · obtain ⟨path, hgp, hnd, hall⟩ := h.chain p hvp
              refine ⟨path ++ [x.value], ?_, ?_, ?_⟩
              · rw [hyx]
                exact prev_path.step x.value p path hxs hpp hgp
              · refine List.Nodup.append hnd (List.nodup_singleton _) ?_
                intro z hz1 hz2
                have : z = x.value := by simpa using hz2
                rw [this] at hz1
                exact hall _ hz1 hv
              · intro z hz
                rcases List.mem_append.mp hz with hz1 | hz2
                · exact hmono z (hall z hz1)
                · have : z = x.value := by simpa using hz2
                  rw [this, hvx]; decide
        · have hy1 : arr_get st.visited y ≠ 0 := by
            rw [arr_get_set_ne _ _ _ _ (Ne.symm hyx)] at hy
            exact hy
          obtain ⟨path, hgp, hnd, hall⟩ := h.chain y hy1
          exact ⟨path, hgp, hnd, fun z hz => hmono z (hall z hz)⟩
    obtain ⟨st3, e3, _, h3⟩ := relax_edges_rule x.value
      (fun pend s => binv_relax g n start x.value (arr_set st.visited x.value 1)
          (q.heap.length + (g.getD x.value []).length) pend s ∧ cinv n start s)
      (fun e rest s s1 hP hs1 =>
        ⟨binv_relax_step g n start x.value _ _ hg e rest s s1 hP.1 hs1,
          cinv_relax_step g n start x.value _ _ hg e rest s s1 hP.1 hP.2 hs1⟩)
      _ _ ⟨binv_relax_enter g n start st hb x q hx hp, h0⟩
    rw [he] at e3
    cases e3
    exact h3

theorem cinv_init (n start : Nat) : cinv n start (dijkstra_init n start) := by
  have hvis : ∀ y, arr_get (dijkstra_init n start).visited y = 0 := by
    intro y
    simp only [dijkstra_init]
    exact arr_get_replicate_zero n y
  have hprev : ∀ v, arr_get (dijkstra_init n start).prev v = -1 ∨
      arr_get (dijkstra_init n start).prev v = 0 := by
    intro v
    simp only [dijkstra_init]
    by_cases hv : v < n
    · exact Or.inl (arr_get_replicate n v _ hv)
    · exact Or.inr (arr_get_of_le _ _ (by simp; omega))
  refine ⟨?_, ?_, ?_, ?_⟩
  · intro x hx
    have hx1 : x = ⟨start, 0⟩ := by simpa [dijkstra_init] using hx
    exact Or.inl (by rw [hx1])
  · intro v hv hpv
    simp only [dijkstra_init] at hpv
    exact absurd (arr_get_replicate n v _ hv) hpv
  · intro x hx
    exact absurd (hvis x) hx
  · intro v
    rcases hprev v with h | h
    · rw [h]
    · rw [h]; decide

/-- C19 (the links of `prev` are acyclic): for every graph of `n` lists whose edge records
point to nodes below `n`, with any costs, zero costs and self-loops included, and every
`start` below `n`, after `dijkstra` the recursion of `print_path` from any node `v` below
`n` ends within `n` calls; the nodes of its calls begin with `v`, each is the `prev` of the
one before, no node occurs twice, and the last is `start` or a node whose `prev` is -1. -/
theorem C19_prev_acyclic (g : List (List edge)) (n start : Nat) (hlen : g.length = n)
    (hdest : ∀ l ∈ g, ∀ e ∈ l, e.dest < n) (hs : start < n) :
    ∃ dist prev, dijkstra g n start = some (dist, prev) ∧
      ∀ v, v < n →
        ∃ calls : List Nat, print_path_calls n start v prev = some calls ∧
          calls.Nodup ∧ calls.length ≤ n ∧ calls.head? = some v ∧
          List.Chain' (fun a b => arr_get prev a = (b : Int)) calls ∧
          (∀ last, calls.getLast? = some last → last = start ∨ arr_get prev last = -1) ∧
          ∃ out, print_path start v prev = some out ∧ out.length = calls.length := by
  have hg : graph_ok g n := ⟨hlen, hdest⟩
  obtain ⟨st, e, hb, h, hq⟩ := dijkstra_run_rule g n start hg hs (cinv n start)
    (cinv_init n start) (fun s s1 hb1 h1 hstep => cinv_loop_step g n start hg s s1 hb1 h1 hstep)
  refine ⟨st.dist, st.prev, e, ?_⟩
  intro v hv
  -- the calls, for every allowance of at least `n` calls
  have hcalls : ∃ calls : List Nat, calls.Nodup ∧ calls.length ≤ n ∧
      ∀ fuel, n ≤ fuel → print_path_calls fuel start v st.prev = some calls := by
    by_cases hvs : v = start
    · refine ⟨[v], by simp, by simp; omega, ?_⟩
      intro fuel hf
      obtain ⟨f, rfl⟩ : ∃ f, fuel = f + 1 := ⟨fuel - 1, by omega⟩
      simp only [print_path_calls, if_pos hvs]
    · by_cases hp : arr_get st.prev v = -1
      · refine ⟨[v], by simp, by simp; omega, ?_⟩
        intro fuel hf
        obtain ⟨f, rfl⟩ : ∃ f, fuel = f + 1 := ⟨fuel - 1, by omega⟩
        simp only [print_path_calls, if_neg hvs, if_pos hp]
      · have hvv : arr_get st.visited v ≠ 0 := by
          rcases h.queued v hv hp with h1 | ⟨x, hx, _⟩
          · exact h1
          · rw [hq] at hx
            simp at hx
        obtain ⟨path, hpp, hnd, hall⟩ := h.chain v hvv
        have hlen1 : path.length ≤ n := by
          apply nodup_length_le path n hnd
          intro y hy
          have := lt_of_arr_get_ne_zero _ _ (hall y hy)
          rw [hb.len_vis] at this
          exact this
        refine ⟨path.reverse, List.nodup_reverse.mpr hnd, by simpa using hlen1, ?_⟩
        intro fuel hf
        exact print_path_calls_prev_path st.prev start v path hpp fuel (by omega)
  obtain ⟨calls, hnd, hl, hc⟩ := hcalls
  obtain ⟨h1, h2, h3, _⟩ := print_path_calls_shape st.prev start h.prev_range n v calls
    (hc n (le_refl _))
  obtain ⟨_, _, _, out, h4, h5⟩ := print_path_calls_shape st.prev start h.prev_range
    (n + 1) v calls (hc (n + 1) (by omega))
  refine ⟨calls, hc n (le_refl _), hnd, hl, h1, h2, h3, out, ?_, h5⟩
  unfold print_path
  rw [hb.len_prev]
  exact h4

theorem C19_prev_acyclic_witness :
    ∃ g, read_graph [⟨0, 1, 0⟩, ⟨1, 1, -2⟩, ⟨1, 2, 0⟩, ⟨2, 0, -7⟩] 4 = outcome.returns g ∧
      g.length = 4 ∧
      (∀ l ∈ g, ∀ e ∈ l, e.dest < 4) ∧ 0 < 4 ∧
      ∃ dist prev,
        dijkstra g 4 0 = some (dist, prev) ∧
        ∀ v, v < 4 →
          ∃ calls : List Nat, print_path_calls 4 0 v prev = some calls ∧
            calls.Nodup ∧ calls.length ≤ 4 ∧ calls.head? = some v ∧
            List.Chain' (fun a b => arr_get prev a = (b : Int)) calls ∧
            (∀ last, calls.getLast? = some last → last = 0 ∨ arr_get prev last = -1) ∧
            ∃ out, print_path 0 v prev = some out ∧ out.length = calls.length :=
  ⟨[[⟨2, -7⟩, ⟨1, 0⟩], [⟨2, 0⟩, ⟨1, -2⟩, ⟨1, -2⟩, ⟨0, 0⟩], [⟨0, -7⟩, ⟨1, 0⟩], []],
    by decide, by decide, by decide, by decide,
    C19_prev_acyclic
      [[⟨2, -7⟩, ⟨1, 0⟩], [⟨2, 0⟩, ⟨1, -2⟩, ⟨1, -2⟩, ⟨0, 0⟩], [⟨0, -7⟩, ⟨1, 0⟩], []]
      4 0 (by decide) (by decide) (by decide)⟩

/-! ## The run of `dijkstra` with a record -/

theorem relax_edges_log_cons (u : Nat) (e : edge) (rest : List edge) (st : dstate) :
    ∃ st1, relax_step u e st st1 ∧
      relax_edges u (e :: rest) st = relax_edges u rest st1 ∧
      ∀ L, relax_edges_log u (e :: rest) st L =
        relax_edges_log u rest st1 (L ++ step_events u e st) := by
  by_cases hc : relax_cond st u e
  · obtain ⟨q, e1, p1, o1⟩ := pq_insert_spec st.pq e.dest
      (arr_get (arr_set st.dist e.dest (wrap32 (arr_get st.dist u + e.cost))) e.dest)
    have hc1 := hc
    unfold relax_cond at hc1
    refine ⟨_, relax_step.update q hc p1 o1, ?_, ?_⟩
    · simp only [relax_edges, if_pos hc1, e1]
    · intro L
      have hg : arr_get st.visited e.dest = 0 ∧ arr_get st.dist u ≠ INT_MAX :=
        ⟨hc1.1, hc1.2.1⟩
      simp only [relax_edges_log, step_events, if_pos hg, if_pos hc1.2.2, e1]
  · have hc1 := hc
    unfold relax_cond at hc1
    refine ⟨st, relax_step.skip hc, ?_, ?_⟩
    · simp only [relax_edges, if_neg hc1]
    · intro L
      by_cases hg : arr_get st.visited e.dest = 0 ∧ arr_get st.dist u ≠ INT_MAX
      · have hlt : ¬ wrap32 (arr_get st.dist u + e.cost) < arr_get st.dist e.dest :=
          fun h => hc1 ⟨hg.1, hg.2, h⟩
        simp only [relax_edges_log, step_events, if_pos hg, if_neg hlt]
      · simp only [relax_edges_log, step_events, if_neg hg, List.append_nil]

theorem relax_edges_log_rule (u : Nat) (P : List edge → dstate → List event → Prop)
    (hstep : ∀ e rest st st1 L, P (e :: rest) st L → relax_step u e st st1 →
      P rest st1 (L ++ step_events u e st)) :
    ∀ pend st L, P pend st L →
      ∃ st1 L1, relax_edges_log u pend st L = some (st1, L1) ∧
        relax_edges u pend st = some st1 ∧ P [] st1 L1 := by
  intro pend
  induction pend with
  | nil => intro st L h; exact ⟨st, L, rfl, rfl, h⟩
  | cons e rest ih =>
    intro st L h
    obtain ⟨st1, hs, he, hl⟩ := relax_edges_log_cons u e rest st
    obtain ⟨st2, L2, e2, e3, h2⟩ := ih st1 _ (hstep e rest st st1 L h hs)
    exact ⟨st2, L2, (hl L).trans e2, he.trans e3, h2⟩

theorem loop_step_of_log (g : List (List edge)) (st st1 : dstate) (L L1 : List event)
    (h : loop_step_log g st L st1 L1) : loop_step g st st1 := by
  cases h with
  | skip x q hx hp ho hv => exact loop_step.skip x q hx hp ho hv
  | relax x q st1 L1 hx hp ho hv he _ => exact loop_step.relax x q st1 hx hp ho hv he

/-- The run with a record reaches the same final state as the run without, and a property
of state and record that every iteration keeps holds at the end. -/
theorem dijkstra_loop_log_rule (g : List (List edge)) (P : dstate → List event → Prop)
    (hstep : ∀ st L st1 L1, P st L → loop_step_log g st L st1 L1 → P st1 L1) (fuel : Nat) :
    ∀ st st1 L, dijkstra_loop g fuel st = some st1 → P st L →
      ∃ L1, dijkstra_loop_log g fuel st L = some (st1, L1) ∧ P st1 L1 := by
  induction fuel with
  | zero => intro st st1 L h; simp [dijkstra_loop] at h
  | succ fuel ih =>
    intro st st1 L h hP
    simp only [dijkstra_loop] at h
    simp only [dijkstra_loop_log]
    by_cases hq : pq_isempty st.pq = 0
    · rw [if_pos hq] at h
      rw [if_pos hq]
      have hne : st.pq.heap ≠ [] := by
        intro hc1
        simp [pq_isempty, dynarray_size, hc1] at hq
      obtain ⟨x, q, e1, _, p1, o1⟩ := pq_remove_first_spec st.pq hne
      have hx : x ∈ st.pq.heap := p1.symm.subset (List.mem_cons_self _ _)
      simp only [e1] at h ⊢
      by_cases hv : arr_get st.visited x.value ≠ 0
      · rw [if_pos hv] at h
        rw [if_pos hv]
        exact ih _ st1 L h (hstep st L _ L hP (loop_step_log.skip x q hx p1 o1 hv))
      · rw [if_neg hv] at h
        rw [if_neg hv]
        obtain ⟨st2, L2, e2, e3, _⟩ := relax_edges_log_rule x.value (fun _ _ _ => True)
          (fun _ _ _ _ _ _ _ => trivial) (g.getD x.value [])
          ⟨st.dist, st.prev, arr_set st.visited x.value 1, q⟩ L trivial
        simp only [e3] at h
        simp only [e2]
        exact ih st2 st1 L2 h
          (hstep st L st2 L2 hP (loop_step_log.relax x q st2 L2 hx p1 o1 (not_not.mp hv) e3 e2))
    · rw [if_neg hq] at h
      rw [if_neg hq]
      simp only [Option.some.injEq] at h
      subst h
      exact ⟨L, rfl, hP⟩

theorem dijkstra_log_unfold (g : List (List edge)) (n start : Nat) (hs : start < n) :
    dijkstra_log g n start =
      (dijkstra_loop_log g (dijkstra_fuel g) (dijkstra_init n start)
        [event.insert start 0]).map (fun r => (r.1.dist, r.1.prev, r.2)) := by
  have h0 : arr_get (arr_set (List.replicate n INT_MAX) start 0) start = 0 :=
    arr_get_set_eq _ _ _ (by simpa using hs)
  have h1 : pq_insert (pq_create : pq Nat) start 0 = some ⟨[⟨start, 0⟩]⟩ := by
    simp [pq_insert, pq_create, dynarray_create, dynarray_insert, dynarray_size, bubble_up,
      bubble_up_loop]
  unfold dijkstra_log
  simp only [h0, h1, dijkstra_init]
  split <;> simp_all

/-- A property of state and record that holds when the main loop is entered and that every
iteration keeps holds when `dijkstra` returns; the run with a record returns the same `dist`
and `prev` as `dijkstra`. -/
theorem dijkstra_log_rule (g : List (List edge)) (n start : Nat) (hg : graph_ok g n)
    (hs : start < n) (P : dstate → List event → Prop)
    (hinit : P (dijkstra_init n start) [event.insert start 0])
    (hstep : ∀ st L st1 L1, binv g n start st → P st L → loop_step_log g st L st1 L1 →
      P st1 L1) :
    ∃ st L, dijkstra g n start = some (st.dist, st.prev) ∧
      dijkstra_log g n start = some (st.dist, st.prev, L) ∧ binv g n start st ∧ P st L ∧
      st.pq.heap = [] := by
  obtain ⟨st, e, ⟨hb, _⟩, hq⟩ := dijkstra_loop_rule g
    (fun st => binv g n start st ∧ True)
    (fun st => st.pq.heap.length + pending_edges g n st.visited)
    (by
      intro st st1 ⟨hb, _⟩ hs1
      obtain ⟨hb1, hμ⟩ := binv_loop_step g n start hg st st1 hb hs1
      exact ⟨⟨hb1, trivial⟩, hμ⟩)
    (dijkstra_fuel g) (dijkstra_init n start) ⟨binv_init g n start hs, trivial⟩
    (by
      have := pending_edges_le g (dijkstra_init n start).visited
      rw [hg.len] at this
      simp only [dijkstra_fuel]
      simp only [dijkstra_init, List.length_singleton] at this ⊢
      omega)
  obtain ⟨L, e1, _, hP⟩ := dijkstra_loop_log_rule g
    (fun s L => binv g n start s ∧ P s L)
    (fun s L s1 L1 hP1 hs1 =>
      ⟨(binv_loop_step g n start hg s s1 hP1.1 (loop_step_of_log g s s1 L L1 hs1)).1,
        hstep s L s1 L1 hP1.1 hP1.2 hs1⟩)
    (dijkstra_fuel g) (dijkstra_init n start) st [event.insert start 0] e
    ⟨binv_init g n start hs, hinit⟩
  refine ⟨st, L, ?_, ?_, hb, hP, hq⟩
  · rw [dijkstra_unfold g n start hs, e]
    rfl
  · rw [dijkstra_log_unfold g n start hs, e1]
    rfl

/-! ## The number of insertions in the queue -/

theorem touched_count_le (file : List input_edge) (visited : List Int) :
    touched_count file visited ≤ file.length := by
  unfold touched_count
  exact List.countP_le_length _

theorem open_count_records (file : List input_edge) (vis V : List Int) (x : Nat)
    (hx0 : arr_get vis x = 0) (hx1 : arr_get V x ≠ 0)
    (hne : ∀ y, y ≠ x → arr_get V y = arr_get vis y) :
    open_count V (records_of x file) + touched_count file vis ≤ touched_count file V := by
  induction file with
  | nil => simp [open_count, records_of, touched_count]
  | cons ie rest ih =>
    unfold open_count touched_count at ih ⊢
    simp only [records_of, List.countP_append, List.countP_cons]
    generalize List.countP _ (records_of x rest) = a at ih ⊢
    generalize List.countP
      (fun ie => decide (arr_get vis ie.src ≠ 0 ∨ arr_get vis ie.dest ≠ 0)) rest = b at ih ⊢
    generalize List.countP
      (fun ie => decide (arr_get V ie.src ≠ 0 ∨ arr_get V ie.dest ≠ 0)) rest = c at ih ⊢
    by_cases h1 : ie.src = x <;> by_cases h2 : ie.dest = x
    · simp [h1, h2, hx0, hx1]
      omega
    · have e2 := hne ie.dest h2
      by_cases h3 : arr_get vis ie.dest = 0
      · simp [h1, h2, hx0, hx1, e2, h3]
        omega
      · simp [h1, h2, hx0, hx1, e2, h3]
        omega
    · have e1 := hne ie.src h1
      by_cases h3 : arr_get vis ie.src = 0
      · simp [h1, h2, hx0, hx1, e1, h3]
        omega
      · simp [h1, h2, hx0, hx1, e1, h3]
        omega
    · have e1 := hne ie.src h1
      have e2 := hne ie.dest h2
      simp [h1, h2, e1, e2]
      omega

theorem insert_count_append (L1 L2 : List event) :
    insert_count (L1 ++ L2) = insert_count L1 + insert_count L2 := by
  induction L1 with
  | nil => simp [insert_count]
  | cons ev L1 ih =>
    cases ev with
    | sum u e du => simpa [insert_count] using ih
    | write v d p => simpa [insert_count] using ih
    | insert v p =>
      show insert_count (L1 ++ L2) + 1 = insert_count L1 + 1 + insert_count L2
      rw [ih]
      omega

theorem insert_count_step (u : Nat) (e : edge) (st : dstate) :
    (relax_cond st u e → insert_count (step_events u e st) = 1) ∧
    (¬ relax_cond st u e → insert_count (step_events u e st) = 0) := by
  unfold step_events relax_cond
  by_cases hg : arr_get st.visited e.dest = 0 ∧ arr_get st.dist u ≠ INT_MAX
  · by_cases hlt : wrap32 (arr_get st.dist u + e.cost) < arr_get st.dist e.dest
    · rw [if_pos hg, if_pos hlt]
      exact ⟨fun _ => rfl, fun h => absurd ⟨hg.1, hg.2, hlt⟩ h⟩
    · rw [if_pos hg, if_neg hlt]
      exact ⟨fun h => absurd h.2.2 hlt, fun _ => rfl⟩
  · rw [if_neg hg]
    exact ⟨fun h => absurd ⟨h.1, h.2.1⟩ hg, fun _ => rfl⟩

/-- The relaxation loop inserts at most once for each pending edge record whose destination
is not marked. -/
theorem insert_count_relax_step (g : List (List edge)) (n start u : Nat) (V : List Int)
    (K B : Nat) (e : edge) (rest : List edge) (st st1 : dstate) (L : List event)
    (hb : binv_relax g n start u V K (e :: rest) st)
    (h : insert_count L + open_count V (e :: rest) ≤ B) (hs : relax_step u e st st1) :
    insert_count (L ++ step_events u e st) + open_count V rest ≤ B := by
  rw [insert_count_append]
  unfold open_count at h ⊢
  rw [List.countP_cons] at h
  cases hs with
  | skip hnc =>
    rw [(insert_count_step u e st).2 hnc]
    omega
  | update q hc _ _ =>
    rw [(insert_count_step u e st).1 hc]
    have hv : arr_get V e.dest = 0 := by rw [← hb.vis_eq]; exact hc.1
    simp only [hv, decide_True, if_true] at h
    omega

theorem insert_count_loop_step (n start : Nat) (file : List input_edge) (g : List (List edge))
    (hret : read_graph file n = outcome.returns g)
    (hrange : ∀ ie ∈ file, ie.src < n ∧ ie.dest < n) (st st1 : dstate) (L L1 : List event)
    (hb : binv g n start st)
    (h : insert_count L ≤ 1 + touched_count file st.visited)
    (hstep : loop_step_log g st L st1 L1) :
    insert_count L1 ≤ 1 + touched_count file st1.visited := by
  have hg := read_graph_ok file n g hret hrange
  cases hstep with
  | skip x q _ _ _ _ => exact h
  | relax x q st2 L2 hx hp _ hv he hl =>
    obtain ⟨hxn, _⟩ := hb.q_reach x hx
    have hvx : arr_get (arr_set st.visited x.value 1) x.value ≠ 0 := by
      rw [arr_get_set_eq _ _ _ (by rw [hb.len_vis]; exact hxn)]
      decide
    have hcount := open_count_records file st.visited (arr_set st.visited x.value 1) x.value
      hv hvx (fun y hy => arr_get_set_ne _ _ _ _ (Ne.symm hy))
    have hrec : g.getD x.value [] = (records_of x.value file).reverse :=
      read_graph_getD file n g hret x.value
    have hopen : open_count (arr_set st.visited x.value 1)
        (g.getD x.value []) =
        open_count (arr_set st.visited x.value 1) (records_of x.value file) := by
      rw [hrec]
      unfold open_count
      exact List.countP_reverse _ _
    obtain ⟨st3, L3, e3, _, hb3, h3⟩ := relax_edges_log_rule x.value
      (fun pend s L0 => binv_relax g n start x.value
          (arr_set st.visited x.value 1)
          (q.heap.length + (g.getD x.value []).length) pend s ∧
        insert_count L0 + open_count (arr_set st.visited x.value 1) pend ≤
          1 + touched_count file (arr_set st.visited x.value 1))
      (fun e rest s s1 L0 hP hs1 =>
        ⟨binv_relax_step _ n start x.value _ _ hg e rest s s1 hP.1 hs1,
          insert_count_relax_step _ n start x.value _ _ _ e rest s s1 L0 hP.1 hP.2 hs1⟩)
      _ _ L ⟨binv_relax_enter _ n start st hb x q hx hp, by rw [hopen]; omega⟩
    rw [hl] at e3
    simp only [Option.some.injEq, Prod.mk.injEq] at e3
    obtain ⟨rfl, rfl⟩ := e3
    rw [hb3.vis_eq]
    simp only [open_count, List.countP_nil, Nat.add_zero] at h3
    exact h3

/-- C17 (bound on the insertions in the queue): for every list of `E` input lines whose
endpoints are below `n`, with any costs, and every `start` below `n`, `read_graph` returns a
graph, and the run of `dijkstra` on it, recorded call by call, returns the `dist` and `prev` of
`dijkstra` and makes at most `E + 1` calls of `pq_insert`. -/
theorem C17_insert_bound (n : Nat) (file : List input_edge) (start : Nat)
    (hrange : ∀ ie ∈ file, ie.src < n ∧ ie.dest < n) (hs : start < n) :
    ∃ g dist prev L, read_graph file n = outcome.returns g ∧
      dijkstra_log g n start = some (dist, prev, L) ∧
      dijkstra g n start = some (dist, prev) ∧
      insert_count L ≤ file.length + 1 := by
  obtain ⟨g, hret⟩ := read_graph_returns file n hrange
  have hg := read_graph_ok file n g hret hrange
  obtain ⟨st, L, e1, e2, _, h, _⟩ := dijkstra_log_rule g n start hg hs
    (fun s L0 => insert_count L0 ≤ 1 + touched_count file s.visited)
    (by simp [insert_count])
    (fun s L0 s1 L1 hb hP hstep =>
      insert_count_loop_step n start file g hret hrange s s1 L0 L1 hb hP hstep)
  refine ⟨g, st.dist, st.prev, L, hret, e2, e1, ?_⟩
  have := touched_count_le file st.visited
  omega

theorem C17_insert_bound_witness :
    (∀ ie ∈ ([⟨0, 1, 4⟩, ⟨0, 2, 1⟩, ⟨2, 1, 1⟩, ⟨1, 1, -3⟩] : List input_edge),
      ie.src < 3 ∧ ie.dest < 3) ∧ 0 < 3 ∧
    ∃ g dist prev L,
      read_graph [⟨0, 1, 4⟩, ⟨0, 2, 1⟩, ⟨2, 1, 1⟩, ⟨1, 1, -3⟩] 3 = outcome.returns g ∧
      dijkstra_log g 3 0 = some (dist, prev, L) ∧
      dijkstra g 3 0 = some (dist, prev) ∧
      insert_count L ≤
        ([⟨0, 1, 4⟩, ⟨0, 2, 1⟩, ⟨2, 1, 1⟩, ⟨1, 1, -3⟩] : List input_edge).length + 1 :=
  ⟨by decide, by decide,
    C17_insert_bound 3 [⟨0, 1, 4⟩, ⟨0, 2, 1⟩, ⟨2, 1, 1⟩, ⟨1, 1, -3⟩] 0 (by decide)
      (by decide)⟩

/-! ## The sums that `dijkstra` evaluates -/

theorem good_step_events (g : List (List edge)) (n start : Nat) (file : List input_edge)
    (u : Nat) (V : List Int) (K : Nat) (hc : costs_ok g file)
    (e : edge) (rest : List edge) (st : dstate)
    (hb : binv_relax g n start u V K (e :: rest) st)
    (h : sinv g n start file u (e :: rest) st) :
    ∀ ev ∈ step_events u e st, good_event ev := by
  have heu : e ∈ g.getD u [] := hb.pend_sub e (List.mem_cons_self _ _)
  have hun : u < n := by
    have := lt_of_arr_get_ne_zero _ _ hb.vis_u
    rw [hb.base.len_vis] at this
    exact this
  have hcn : 0 ≤ e.cost := edge_cost_nonneg g file hc u e heu
  have hdu0 : 0 ≤ arr_get st.dist u := (h.dist_range u hun).1
  have hduw : arr_get st.dist u ≤ inner_cost file st.visited := h.wbound u hb.vis_u
  have htot := hc.total
  intro ev hev
  unfold step_events at hev
  by_cases hg : arr_get st.visited e.dest = 0 ∧ arr_get st.dist u ≠ INT_MAX
  · have hle := dist_add_cost_le g file hc st.visited u e _ heu hduw hg.1
    have hw := wrap32_eq (arr_get st.dist u + e.cost) (by omega) (by omega)
    have hsum : good_event (event.sum u e (arr_get st.dist u)) :=
      ⟨by omega, by omega, hw⟩
    rw [if_pos hg] at hev
    by_cases hlt : wrap32 (arr_get st.dist u + e.cost) < arr_get st.dist e.dest
    · rw [if_pos hlt] at hev
      simp only [List.mem_cons, List.mem_singleton, List.not_mem_nil, or_false] at hev
      rcases hev with rfl | rfl | rfl | rfl
      · exact hsum
      · exact hsum
      · show 0 ≤ wrap32 (arr_get st.dist u + e.cost) ∧
          wrap32 (arr_get st.dist u + e.cost) ≤ INT_MAX - 1
        rw [hw]
        exact ⟨by omega, by omega⟩
      · trivial
    · rw [if_neg hlt] at hev
      simp only [List.mem_singleton] at hev
      rw [hev]
      exact hsum
  · rw [if_neg hg] at hev
    simp at hev

theorem good_loop_step (g : List (List edge)) (n start : Nat) (file : List input_edge)
    (hg : graph_ok g n) (hc : costs_ok g file) (hs : start < n) (st st1 : dstate)
    (L L1 : List event) (hb : binv g n start st)
    (h : sinv g n start file 0 [] st ∧ ∀ ev ∈ L, good_event ev)
    (hstep : loop_step_log g st L st1 L1) :
    sinv g n start file 0 [] st1 ∧ ∀ ev ∈ L1, good_event ev := by
  refine ⟨sinv_loop_step g n start file hg hc hs st st1 hb h.1
    (loop_step_of_log g st st1 L L1 hstep), ?_⟩
  cases hstep with
  | skip x q _ _ _ _ => exact h.2
  | relax x q st2 L2 hx hp ho hv he hl =>
    obtain ⟨st3, L3, e3, _, _, _, h3⟩ := relax_edges_log_rule x.value
      (fun pend s L0 => binv_relax g n start x.value (arr_set st.visited x.value 1)
          (q.heap.length + (g.getD x.value []).length) pend s ∧
        sinv g n start file x.value pend s ∧ ∀ ev ∈ L0, good_event ev)
      (fun e rest s s1 L0 hP hs1 =>
        ⟨binv_relax_step g n start x.value _ _ hg e rest s s1 hP.1 hs1,
          sinv_relax_step g n start file x.value _ _ hg hc e rest s s1 hP.1 hP.2.1 hs1,
          fun ev hev => by
            rcases List.mem_append.mp hev with h1 | h1
            · exact hP.2.2 ev h1
            · exact good_step_events g n start file x.value _ _ hc e rest s hP.1 hP.2.1
                ev h1⟩)
      _ _ L ⟨binv_relax_enter g n start st hb x q hx hp,
        sinv_enter g n start file hg hc hs st hb h.1 x q hx hp ho hv, h.2⟩
    rw [hl] at e3
    simp only [Option.some.injEq, Prod.mk.injEq] at e3
    obtain ⟨rfl, rfl⟩ := e3
    exact h3

/-- C20 (no overflow, no collision with the sentinel): for every list of input lines whose
endpoints are below `n` and whose costs are non-negative and sum to less than `INT_MAX`,
and every `start` below `n`, `read_graph` returns a graph, and the run of `dijkstra` on it,
recorded step by step, returns the `dist` and `prev` of `dijkstra`; every sum
`dist[u] + e->cost` that it evaluates lies between 0 and `INT_MAX - 1`, so that its 32-bit
value is the exact sum, every distance that it stores lies between 0 and `INT_MAX - 1`,
and in the result `dist[v]` is `INT_MAX` exactly for the nodes that no walk reaches. -/
theorem C20_no_overflow (n : Nat) (file : List input_edge) (start : Nat)
    (hrange : ∀ ie ∈ file, ie.src < n ∧ ie.dest < n)
    (hnonneg : ∀ ie ∈ file, 0 ≤ ie.cost) (hsum : total_cost file < INT_MAX)
    (hs : start < n) :
    ∃ g dist prev L, read_graph file n = outcome.returns g ∧
      dijkstra_log g n start = some (dist, prev, L) ∧
      dijkstra g n start = some (dist, prev) ∧
      (∀ u e du, event.sum u e du ∈ L →
        0 ≤ du + e.cost ∧ du + e.cost ≤ INT_MAX - 1 ∧ wrap32 (du + e.cost) = du + e.cost) ∧
      (∀ v d p, event.write v d p ∈ L → 0 ≤ d ∧ d ≤ INT_MAX - 1) ∧
      (∀ v, v < n →
        (arr_get dist v = INT_MAX ↔ ¬ ∃ w, walk g start v w)) := by
  obtain ⟨g, hret⟩ := read_graph_returns file n hrange
  have hg := read_graph_ok file n g hret hrange
  have hc := read_graph_costs_ok file n g hret hnonneg hsum
  obtain ⟨st, L, e1, e2, hb, ⟨h, hgood⟩, hq⟩ := dijkstra_log_rule g n start
    hg hs (fun s L0 => sinv g n start file 0 [] s ∧ ∀ ev ∈ L0, good_event ev)
    ⟨sinv_init _ n start file hs, by
      intro ev hev
      simp only [List.mem_singleton] at hev
      rw [hev]
      trivial⟩
    (fun s L0 s1 L1 hb1 hP hstep => good_loop_step _ n start file hg hc hs s s1 L0 L1 hb1 hP hstep)
  refine ⟨g, st.dist, st.prev, L, hret, e2, e1, ?_, ?_, ?_⟩
  · intro u e du hev
    exact hgood _ hev
  · intro v d p hev
    exact hgood _ hev
  · intro v hv
    constructor
    · rintro heq ⟨w, hw⟩
      have := (final_reached _ n start file hg hc hs st hb h hq v w hw).2.2.2
      omega
    · intro hnr
      exact (hb.unreach v hv hnr).1

theorem C20_no_overflow_witness :
    (∀ ie ∈ ([⟨0, 1, 2147483000⟩, ⟨1, 2, 600⟩, ⟨0, 2, 46⟩] : List input_edge),
      ie.src < 4 ∧ ie.dest < 4) ∧
    (∀ ie ∈ ([⟨0, 1, 2147483000⟩, ⟨1, 2, 600⟩, ⟨0, 2, 46⟩] : List input_edge),
      0 ≤ ie.cost) ∧
    total_cost [⟨0, 1, 2147483000⟩, ⟨1, 2, 600⟩, ⟨0, 2, 46⟩] < INT_MAX ∧ 1 < 4 ∧
    ∃ g dist prev L,
      read_graph [⟨0, 1, 2147483000⟩, ⟨1, 2, 600⟩, ⟨0, 2, 46⟩] 4 = outcome.returns g ∧
      dijkstra_log g 4 1 = some (dist, prev, L) ∧
      dijkstra g 4 1 = some (dist, prev) ∧
      (∀ u e du, event.sum u e du ∈ L →
        0 ≤ du + e.cost ∧ du + e.cost ≤ INT_MAX - 1 ∧ wrap32 (du + e.cost) = du + e.cost) ∧
      (∀ v d p, event.write v d p ∈ L → 0 ≤ d ∧ d ≤ INT_MAX - 1) ∧
      (∀ v, v < 4 →
        (arr_get dist v = INT_MAX ↔ ¬ ∃ w, walk g 1 v w)) :=
  ⟨by decide, by decide, by decide, by decide,
    C20_no_overflow 4 [⟨0, 1, 2147483000⟩, ⟨1, 2, 600⟩, ⟨0, 2, 46⟩] 1 (by decide)
      (by decide) (by decide) (by decide)⟩

end DSA4
